import Mathlib

/-!
# Maze generation and A* search: a shallow embedding

The development follows `Maze.h`/`Maze.cpp` and `AStar.h`/`AStar.cpp`.

* `int` values are integers (`Int`); the unset cost is the constant `INT_MAX`.
* A `vector<vector<T>>` indexed `t[y][x]` is its indexing function `Int → Int → T`;
  only indices with `0 ≤ x < width`, `0 ≤ y < height` denote elements of the vector.
* A `Cell*` pointing at `grid[y][x]` is the index pair `(x, y)`.
* `rand()` is a stream `rand : Nat → Nat`; the state counts the calls made so far.
* The storage requests of the constructor `Maze::Maze` are answered by an `Allocator`;
  a refused request is `std::bad_alloc`.
* `std::priority_queue` is its underlying vector, kept as a binary heap by
  `push_heap` and `pop_heap`; the comparator reads the cost table as it is at the
  time of the call, exactly as the lambda capturing `cost` by reference does.
-/

set_option autoImplicit false

namespace MazeSpec

/-- A grid coordinate `(x, y)`, the `pair<int, int>` of the source (`first = x`, `second = y`). -/
abbrev Coord := Int × Int

/-! ## Maze -/

/-- `Maze::Cell`. -/
structure Cell where
  wall : Bool
  visited : Bool
  x : Int
  y : Int
deriving DecidableEq

/-- `Cell::Cell(x, y)`: a wall, unvisited. -/
def Cell.new (x y : Int) : Cell := { wall := true, visited := false, x := x, y := y }

/-- `Maze`: `grid y x` is `grid[y][x]`; `wallList` holds the pointed-to indices. -/
structure Maze where
  grid : Int → Int → Cell
  wallList : List Coord
  width : Int
  height : Int

/-- The predicate `0 ≤ x < width ∧ 0 ≤ y < height`. -/
def Maze.inBounds (m : Maze) (x y : Int) : Prop :=
  0 ≤ x ∧ x < m.width ∧ 0 ≤ y ∧ y < m.height

instance (m : Maze) (x y : Int) : Decidable (m.inBounds x y) :=
  inferInstanceAs (Decidable (0 ≤ x ∧ x < m.width ∧ 0 ≤ y ∧ y < m.height))

/-- The body of `Maze::Maze(w, h)`: every cell of the `h × w` grid is `Cell(0, 0)` with its
coordinates then overwritten by the double loop. -/
def Maze.init (w h : Int) : Maze :=
  { grid := fun y x =>
      if 0 ≤ y ∧ y < h ∧ 0 ≤ x ∧ x < w then { Cell.new 0 0 with x := x, y := y } else Cell.new 0 0
    wallList := []
    width := w
    height := h }

/-- What the free store grants to `Maze::Maze`: `row w` tells whether the storage of a
`vector<Cell>` of `w > 0` cells is granted, `grid w h` whether the storage of `h > 0` copies of
such a row is. A vector of 0 elements requests no storage. -/
structure Allocator where
  row : Int → Bool
  grid : Int → Int → Bool

/-- `Maze::Maze(w, h)` with the construction of `grid(h, vector<Cell>(w, Cell(0, 0)))` made
explicit. The row `vector<Cell>(w, Cell(0, 0))` is built first, then the vector of `h` copies
of it. `vector(n, value)` converts a negative `int` count to a `size_t` above `max_size()` and
throws `std::length_error`; a count above 0 requests storage and throws `std::bad_alloc` when
the request is not granted. The constructor itself checks nothing, and when both vectors are
built its double loop produces `Maze.init w h`. -/
def Maze.construct (alloc : Allocator) (w h : Int) : Except String Maze :=
  if w < 0 then Except.error "std::length_error"
  else if 0 < w ∧ alloc.row w = false then Except.error "std::bad_alloc"
  else if h < 0 then Except.error "std::length_error"
  else if 0 < h ∧ alloc.grid w h = false then Except.error "std::bad_alloc"
  else Except.ok (Maze.init w h)

/-- Writes a cell of the grid: `grid[y][x] = c`. -/
def Maze.setCell (m : Maze) (x y : Int) (c : Cell) : Maze :=
  { m with grid := fun y' x' => if y' = y ∧ x' = x then c else m.grid y' x' }

/-- `wallList.push_back(&grid[y][x])`. -/
def Maze.pushWall (m : Maze) (x y : Int) : Maze :=
  { m with wallList := m.wallList ++ [(x, y)] }

/-- `Maze::addWalls(cell)`; `cell` is the index pair the pointer refers to. -/
def Maze.addWalls (m : Maze) (cell : Coord) : Maze :=
  let x := (m.grid cell.2 cell.1).x
  let y := (m.grid cell.2 cell.1).y
  let m1 := if x > 0 ∧ (m.grid y (x - 1)).visited = false then m.pushWall (x - 1) y else m
  let m2 := if y > 0 ∧ (m1.grid (y - 1) x).visited = false then m1.pushWall x (y - 1) else m1
  let m3 := if x < m2.width - 1 ∧ (m2.grid y (x + 1)).visited = false then m2.pushWall (x + 1) y else m2
  if y < m3.height - 1 ∧ (m3.grid (y + 1) x).visited = false then m3.pushWall x (y + 1) else m3

/-- The four guarded `unvisitedNeighbors.push_back` statements of `Maze::generate`, in source
order: up, down, left, right of `current`. -/
def Maze.unvisitedNeighbors (m : Maze) (current : Coord) : List Coord :=
  let cx := (m.grid current.2 current.1).x
  let cy := (m.grid current.2 current.1).y
  (if cy > 0 ∧ (m.grid (cy - 1) cx).visited = false then [(cx, cy - 1)] else []) ++
  (if cy < m.height - 1 ∧ (m.grid (cy + 1) cx).visited = false then [(cx, cy + 1)] else []) ++
  (if cx > 0 ∧ (m.grid cy (cx - 1)).visited = false then [(cx - 1, cy)] else []) ++
  (if cx < m.width - 1 ∧ (m.grid cy (cx + 1)).visited = false then [(cx + 1, cy)] else [])

/-- The two assignments `c->wall = false; c->visited = true;`. -/
def Maze.carve (m : Maze) (c : Coord) : Maze :=
  m.setCell c.1 c.2 { m.grid c.2 c.1 with wall := false, visited := true }

/-- State of `Maze::generate`: the maze and the number of `rand()` calls made so far. -/
structure GenState where
  maze : Maze
  calls : Nat

/-- One iteration of the `while (!wallList.empty())` loop of `Maze::generate`. -/
def generateStep (rand : Nat → Nat) (s : GenState) : GenState :=
  let randIndex := rand s.calls % s.maze.wallList.length
  let current := s.maze.wallList.getD randIndex (0, 0)
  let m := { s.maze with wallList := s.maze.wallList.eraseIdx randIndex }
  let unvisitedNeighbors := m.unvisitedNeighbors current
  if unvisitedNeighbors.isEmpty = false then
    let m1 := m.carve current
    let next := unvisitedNeighbors.getD (rand (s.calls + 1) % unvisitedNeighbors.length) (0, 0)
    let m2 := m1.carve next
    { maze := (m2.addWalls current).addWalls next, calls := s.calls + 2 }
  else
    { maze := m, calls := s.calls + 1 }

/-- The `while (!wallList.empty())` loop, run for at most `fuel` iterations. -/
def generateLoop (rand : Nat → Nat) : Nat → GenState → GenState
  | 0, s => s
  | fuel + 1, s =>
    if s.maze.wallList = [] then s else generateLoop rand fuel (generateStep rand s)

/-- All index pairs of a `w × h` grid, row by row. -/
def gridCells (w h : Int) : List Coord :=
  (List.range h.toNat).flatMap fun y =>
    (List.range w.toNat).map fun x => (Int.ofNat x, Int.ofNat y)

/-- Number of cells of the grid not yet marked visited. -/
def Maze.unvisitedCount (m : Maze) : Nat :=
  (gridCells m.width m.height).countP fun c => (m.grid c.2 c.1).visited = false

/-- Bound on the number of iterations left: an iteration that carves marks at least one new
cell and appends at most eight entries, any other iteration only removes one entry. -/
def Maze.genMeasure (m : Maze) : Nat :=
  8 * m.unvisitedCount + m.wallList.length

/-- The statements of `Maze::generate` before the loop. -/
def generateInit (m : Maze) : Maze :=
  (m.carve (0, 0)).addWalls (0, 0)

/-- `Maze::generate()`. The loop is run with fuel `genMeasure`, which it never exhausts
(`generateLoop_done`). -/
def Maze.generate (rand : Nat → Nat) (m : Maze) : Maze :=
  let m0 := generateInit m
  (generateLoop rand m0.genMeasure { maze := m0, calls := 0 }).maze

/-- `Maze::getWidth`. -/
def Maze.getWidth (m : Maze) : Int := m.width

/-- `Maze::getHeight`. -/
def Maze.getHeight (m : Maze) : Int := m.height

/-- `Maze::isWall`. -/
def Maze.isWall (m : Maze) (x y : Int) : Bool := (m.grid y x).wall

/-- `Maze::setStartAndEndPoint`. -/
def Maze.setStartAndEndPoint (m : Maze) (startX startY endX endY : Int) : Maze :=
  let m1 := m.setCell startX startY { m.grid startY startX with wall := false }
  m1.setCell endX endY { m1.grid endY endX with wall := false }

/-! ## The priority queue of `AStar::findPath` -/

/-- `std::__push_heap(first, holeIndex, 0, value, comp)`: the hole moves up while the parent
compares below `value`. -/
def pushHeapLoop (comp : Coord → Coord → Bool) (value : Coord) :
    Nat → List Coord → Nat → List Coord
  | 0, h, holeIndex => h.set holeIndex value
  | fuel + 1, h, holeIndex =>
    let parent := (holeIndex - 1) / 2
    if holeIndex > 0 ∧ comp (h.getD parent (0, 0)) value = true then
      pushHeapLoop comp value fuel (h.set holeIndex (h.getD parent (0, 0))) parent
    else h.set holeIndex value

/-- `priority_queue::push(value)`: `c.push_back(value); push_heap(c.begin(), c.end(), comp)`. -/
def pqPush (comp : Coord → Coord → Bool) (h : List Coord) (value : Coord) : List Coord :=
  pushHeapLoop comp value h.length (h ++ [value]) h.length

/-- The `while (secondChild < (len - 1) / 2)` loop of `std::__adjust_heap`: the hole moves down
to the child that does not compare below its sibling. Returns the vector and the hole. -/
def adjustHeapLoop (comp : Coord → Coord → Bool) (len : Nat) :
    Nat → List Coord → Nat → List Coord × Nat
  | 0, h, holeIndex => (h, holeIndex)
  | fuel + 1, h, holeIndex =>
    if holeIndex < (len - 1) / 2 then
      let secondChild := 2 * (holeIndex + 1)
      let child :=
        if comp (h.getD secondChild (0, 0)) (h.getD (secondChild - 1) (0, 0)) = true
        then secondChild - 1 else secondChild
      adjustHeapLoop comp len fuel (h.set holeIndex (h.getD child (0, 0))) child
    else (h, holeIndex)

/-- `std::__adjust_heap(first, 0, len, value, comp)`. -/
def adjustHeap (comp : Coord → Coord → Bool) (h : List Coord) (len : Nat) (value : Coord) :
    List Coord :=
  let r := adjustHeapLoop comp len len h 0
  let r2 :=
    if len % 2 = 0 ∧ r.2 = (len - 2) / 2 then
      let secondChild := 2 * (r.2 + 1)
      (r.1.set r.2 (r.1.getD (secondChild - 1) (0, 0)), secondChild - 1)
    else r
  pushHeapLoop comp value r2.2 r2.1 r2.2

/-- `priority_queue::pop()`: `pop_heap(c.begin(), c.end(), comp); c.pop_back()`. With more than
one element, `pop_heap` saves the last element as `value`, stores the top in the last slot and
adjusts the first `size - 1` slots; `pop_back` then drops the last slot. -/
def pqPop (comp : Coord → Coord → Bool) (h : List Coord) : List Coord :=
  if h.length > 1 then
    adjustHeap comp h.dropLast (h.length - 1) (h.getD (h.length - 1) (0, 0))
  else []

/-! ## AStar -/

/-- The constant `INT_MAX` of `<climits>` for a 32-bit `int`. -/
def INT_MAX : Int := 2147483647

/-- The `AStar` object: the maze it refers to and its three tables, indexed `[y][x]`. -/
structure AStar where
  maze : Maze
  cost : Int → Int → Int
  parent : Int → Int → Coord
  inQueue : Int → Int → Bool

/-- `AStar::AStar(maze)`; the three tables start as empty vectors. -/
def AStar.new (maze : Maze) : AStar :=
  { maze := maze, cost := fun _ _ => INT_MAX, parent := fun _ _ => (-1, -1),
    inQueue := fun _ _ => false }

/-- `AStar::heuristic`: Manhattan distance. -/
def AStar.heuristic (x1 y1 x2 y2 : Int) : Int :=
  ((x1 - x2).natAbs : Int) + ((y1 - y2).natAbs : Int)

/-- The lambda `cmp` of `findPath`, reading the cost table `cost`. -/
def AStar.cmp (cost : Int → Int → Int) (goalX goalY : Int) (a b : Coord) : Bool :=
  let f1 := cost a.2 a.1 + AStar.heuristic a.1 a.2 goalX goalY
  let f2 := cost b.2 b.1 + AStar.heuristic b.1 b.2 goalX goalY
  decide (f1 > f2)

/-- State of the search loop: the object's tables and the vector of `frontier`. -/
structure SearchState where
  astar : AStar
  frontier : List Coord

/-- Body of `for (const auto& next : neighbors)` for one neighbour of the cell `(x, y)`. -/
def visitNeighbor (goalX goalY x y : Int) (s : SearchState) (next : Coord) : SearchState :=
  let nx := next.1
  let ny := next.2
  if nx ≥ 0 ∧ nx < s.astar.maze.getWidth ∧ ny ≥ 0 ∧ ny < s.astar.maze.getHeight ∧
      s.astar.maze.isWall nx ny = false then
    let newCost := s.astar.cost y x + 1
    if newCost < s.astar.cost ny nx then
      let cost := fun y' x' => if y' = ny ∧ x' = nx then newCost else s.astar.cost y' x'
      let parent := fun y' x' => if y' = ny ∧ x' = nx then (x, y) else s.astar.parent y' x'
      if s.astar.inQueue ny nx = false then
        { astar := { s.astar with
            cost := cost, parent := parent,
            inQueue := fun y' x' => if y' = ny ∧ x' = nx then true else s.astar.inQueue y' x' }
          frontier := pqPush (AStar.cmp cost goalX goalY) s.frontier (nx, ny) }
      else
        { s with astar := { s.astar with cost := cost, parent := parent } }
    else s
  else s

/-- The `neighbors` vector of `findPath`, in source order. -/
def neighbors (x y : Int) : List Coord :=
  [(x, y - 1), (x + 1, y), (x, y + 1), (x - 1, y)]

/-- The `while (!frontier.empty())` loop of `findPath`, run for at most `fuel` iterations. -/
def searchLoop (goalX goalY : Int) : Nat → SearchState → SearchState
  | 0, s => s
  | fuel + 1, s =>
    match s.frontier with
    | [] => s
    | current :: _ =>
      let x := current.1
      let y := current.2
      let s1 : SearchState :=
        { astar := { s.astar with
            inQueue := fun y' x' => if y' = y ∧ x' = x then false else s.astar.inQueue y' x' }
          frontier := pqPop (AStar.cmp s.astar.cost goalX goalY) s.frontier }
      if x = goalX ∧ y = goalY then s1
      else searchLoop goalX goalY fuel ((neighbors x y).foldl (visitNeighbor goalX goalY x y) s1)

/-- The reconstruction loop `for (at = goal; at != (-1, -1); at = parent[at.second][at.first])
path.push_back(at)`, run for at most `fuel` iterations; `path` grows at its end. -/
def reconstruct (parent : Int → Int → Coord) : Nat → Coord → List Coord → List Coord
  | 0, _, path => path
  | fuel + 1, at_, path =>
    if at_ ≠ (-1, -1) then reconstruct parent fuel (parent at_.2 at_.1) (path ++ [at_])
    else path

/-- Fuel for the search loop: the sum of all costs plus the frontier size drops with every
iteration and starts below this number, so the loop never exhausts it (`searchLoop_spec`,
`searchInit_spec`). -/
def searchFuel (width height : Int) : Nat :=
  (width * height).toNat * INT_MAX.toNat + 1

/-- The statements of `findPath` before the loop: the three tables are allocated afresh, the
cost of the start is 0, and the start is pushed and marked as queued. -/
def searchInit (a : AStar) (startX startY goalX goalY : Int) : SearchState :=
  let cost : Int → Int → Int := fun y' x' => if y' = startY ∧ x' = startX then 0 else INT_MAX
  { astar := { a with
      cost := cost
      parent := fun _ _ => (-1, -1)
      inQueue := fun y' x' => if y' = startY ∧ x' = startX then true else false }
    frontier := pqPush (AStar.cmp cost goalX goalY) [] (startX, startY) }

/-- `AStar::findPath`, returning the object with its tables as the call leaves them, and the
path. -/
def AStar.findPathRun (a : AStar) (startX startY goalX goalY : Int) : AStar × List Coord :=
  let width := a.maze.getWidth
  let height := a.maze.getHeight
  let s := searchLoop goalX goalY (searchFuel width height)
    (searchInit a startX startY goalX goalY)
  let path := reconstruct s.astar.parent ((width * height).toNat + 1) (goalX, goalY) []
  (s.astar, path.reverse)

/-- `AStar::findPath`: the returned path. -/
def AStar.findPath (a : AStar) (startX startY goalX goalY : Int) : List Coord :=
  (a.findPathRun startX startY goalX goalY).2

/-! ## Test mazes -/

/-- Opens the listed cells through the public interface, one `setStartAndEndPoint` call each. -/
def Maze.openCells (m : Maze) (cells : List Coord) : Maze :=
  cells.foldl (fun m c => m.setStartAndEndPoint c.1 c.2 c.1 c.2) m

/-- The maze with the given wall pattern (`true` a wall), obtained from the freshly constructed
`Maze(w, h)` by `setStartAndEndPoint` calls on the cells that are to be open. -/
def mazeOfRows (w h : Int) (rows : List (List Bool)) : Maze :=
  (Maze.init w h).openCells
    ((gridCells w h).filter fun c => (rows.getD c.2.toNat []).getD c.1.toNat true = false)

/-- The all-open 3 × 3 grid. -/
def open3x3 : Maze :=
  mazeOfRows 3 3 [[false, false, false], [false, false, false], [false, false, false]]

/-- A 6 × 6 grid with walls at `(1,0)`, `(4,1)`, `(4,2)` and `(2,5)`. -/
def detourMaze : Maze :=
  mazeOfRows 6 6
    [[false, true,  false, false, false, false],
     [false, false, false, false, true,  false],
     [false, false, false, false, true,  false],
     [false, false, false, false, false, false],
     [false, false, false, false, false, false],
     [false, false, true,  false, false, false]]

/-! ## Vocabulary of the properties -/

/-- Two coordinates are 4-adjacent: they differ by exactly 1 in exactly one coordinate. -/
def Adjacent4 (a b : Coord) : Prop :=
  (a.1 = b.1 ∧ (a.2 = b.2 + 1 ∨ b.2 = a.2 + 1)) ∨ (a.2 = b.2 ∧ (a.1 = b.1 + 1 ∨ b.1 = a.1 + 1))

instance (a b : Coord) : Decidable (Adjacent4 a b) :=
  inferInstanceAs (Decidable
    ((a.1 = b.1 ∧ (a.2 = b.2 + 1 ∨ b.2 = a.2 + 1)) ∨ (a.2 = b.2 ∧ (a.1 = b.1 + 1 ∨ b.1 = a.1 + 1))))

/-- An open cell: in bounds and `isWall` is false. -/
def Maze.OpenCell (m : Maze) (c : Coord) : Prop :=
  m.inBounds c.1 c.2 ∧ m.isWall c.1 c.2 = false

instance (m : Maze) (c : Coord) : Decidable (m.OpenCell c) :=
  inferInstanceAs (Decidable (m.inBounds c.1 c.2 ∧ m.isWall c.1 c.2 = false))

/-- The step relation of a walk: move to a 4-adjacent open cell. -/
def Maze.Step (m : Maze) (a b : Coord) : Prop :=
  Adjacent4 a b ∧ m.OpenCell b

instance (m : Maze) (a b : Coord) : Decidable (m.Step a b) :=
  inferInstanceAs (Decidable (Adjacent4 a b ∧ m.OpenCell b))

/-- The cell `c` is reachable from `s` by a sequence of moves to 4-adjacent open cells. -/
inductive Maze.OpenReach (m : Maze) (s : Coord) : Coord → Prop
  | refl : Maze.OpenReach m s s
  | step {a b : Coord} : Maze.OpenReach m s a → m.Step a b → Maze.OpenReach m s b

/-- A sequence of coordinates in which every element after the first is an open cell
4-adjacent to its predecessor. -/
def Maze.OpenPath (m : Maze) : List Coord → Prop
  | [] => True
  | [_] => True
  | a :: b :: rest => m.Step a b ∧ Maze.OpenPath m (b :: rest)

/-- Decision procedure for `OpenPath`. -/
def Maze.decOpenPath (m : Maze) : (p : List Coord) → Decidable (m.OpenPath p)
  | [] => isTrue trivial
  | [_] => isTrue trivial
  | a :: b :: rest =>
    match (inferInstance : Decidable (m.Step a b)), Maze.decOpenPath m (b :: rest) with
    | isTrue h1, isTrue h2 => isTrue ⟨h1, h2⟩
    | isFalse h1, _ => isFalse fun h => h1 h.1
    | _, isFalse h2 => isFalse fun h => h2 h.2

instance (m : Maze) (p : List Coord) : Decidable (m.OpenPath p) := m.decOpenPath p

/-- The priority `f = g + h` that the comparator of `findPath` computes for a cell. -/
def SearchState.fScore (s : SearchState) (goalX goalY : Int) (c : Coord) : Int :=
  s.astar.cost c.2 c.1 + AStar.heuristic c.1 c.2 goalX goalY

/-- Number of open cells of the grid. -/
def Maze.openCount (m : Maze) : Nat :=
  (gridCells m.width m.height).countP fun c => m.isWall c.1 c.2 = false

/-- Number of unordered pairs of 4-adjacent open cells: each pair is counted at its left cell
(horizontal pairs) or at its upper cell (vertical pairs). -/
def Maze.adjacentOpenPairs (m : Maze) : Nat :=
  ((gridCells m.width m.height).countP fun c =>
      m.isWall c.1 c.2 = false ∧ c.1 + 1 < m.width ∧ m.isWall (c.1 + 1) c.2 = false) +
  ((gridCells m.width m.height).countP fun c =>
      m.isWall c.1 c.2 = false ∧ c.2 + 1 < m.height ∧ m.isWall c.1 (c.2 + 1) = false)

/-- Two mazes with the same dimensions and the same wall flags on the grid. -/
def Maze.SameWalls (m1 m2 : Maze) : Prop :=
  m1.width = m2.width ∧ m1.height = m2.height ∧
    ∀ x y : Int, m1.inBounds x y → m1.isWall x y = m2.isWall x y

/-- Two search states that differ at most in the maze, and there only outside what is read. -/
def SearchState.Agree (s t : SearchState) : Prop :=
  s.frontier = t.frontier ∧ s.astar.cost = t.astar.cost ∧ s.astar.parent = t.astar.parent ∧
    s.astar.inQueue = t.astar.inQueue ∧ s.astar.maze.SameWalls t.astar.maze

/-- The coordinates stored in the cells of the grid are the cells' indices. -/
def Maze.CoordsOk (m : Maze) : Prop :=
  ∀ x y : Int, m.inBounds x y → (m.grid y x).x = x ∧ (m.grid y x).y = y

/-- Invariant of the loop of `Maze::generate` on a `w × h` maze. -/
structure GenInv (w h : Int) (m : Maze) : Prop where
  width_eq : m.width = w
  height_eq : m.height = h
  coords : m.CoordsOk
  visited_iff : ∀ x y : Int, (m.grid y x).visited = true ↔ (m.grid y x).wall = false
  origin_open : m.OpenCell (0, 0)
  wall_list : ∀ c ∈ m.wallList, m.inBounds c.1 c.2 ∧ ∃ n, m.OpenCell n ∧ Adjacent4 n c
  reach : ∀ c, m.OpenCell c → m.OpenReach (0, 0) c
  count : m.openCount ≤ m.adjacentOpenPairs + 1

/-- Number of cells of the grid whose cost is set. -/
def SearchState.numFinite (s : SearchState) : Nat :=
  (gridCells s.astar.maze.width s.astar.maze.height).countP fun c => s.astar.cost c.2 c.1 ≠ INT_MAX

/-- Bound on the number of iterations of the search loop that are left: every relaxation
lowers a cost by at least 1 and pushes at most one entry, every iteration pops one entry. -/
def SearchState.measure (s : SearchState) : Nat :=
  ((gridCells s.astar.maze.width s.astar.maze.height).map fun c =>
    (s.astar.cost c.2 c.1).toNat).sum + s.frontier.length

/-- Invariant of the search loop of `findPath` on the maze `m` from `start`. -/
structure SearchInv (m : Maze) (start : Coord) (s : SearchState) : Prop where
  maze_eq : s.astar.maze = m
  cost_start : s.astar.cost start.2 start.1 = 0
  parent_start : s.astar.parent start.2 start.1 = (-1, -1)
  cost_nonneg : ∀ x y : Int, 0 ≤ s.astar.cost y x
  cost_bound : ∀ x y : Int, s.astar.cost y x ≠ INT_MAX → s.astar.cost y x + 1 ≤ s.numFinite
  finite_reach : ∀ x y : Int, s.astar.cost y x ≠ INT_MAX → m.OpenReach start (x, y)
  parent_ok : ∀ x y : Int, s.astar.parent y x ≠ (-1, -1) →
    m.Step (s.astar.parent y x) (x, y) ∧ s.astar.cost y x ≠ INT_MAX ∧
    s.astar.cost (s.astar.parent y x).2 (s.astar.parent y x).1 < s.astar.cost y x
  parent_some : ∀ x y : Int, s.astar.cost y x ≠ INT_MAX → (x, y) ≠ start →
    s.astar.parent y x ≠ (-1, -1)
  frontier_nodup : s.frontier.Nodup
  frontier_iff : ∀ c : Coord, c ∈ s.frontier ↔ s.astar.inQueue c.2 c.1 = true
  frontier_finite : ∀ c ∈ s.frontier, s.astar.cost c.2 c.1 ≠ INT_MAX

/-- Every cell with a set cost is in the queue, or is excused by `skip`, or has been expanded:
each open neighbour has a cost at most one more. -/
def SearchState.Closure (m : Maze) (s : SearchState) (skip : Coord → Prop) : Prop :=
  ∀ c : Coord, s.astar.cost c.2 c.1 ≠ INT_MAX →
    s.astar.inQueue c.2 c.1 = true ∨ skip c ∨
    ∀ n : Coord, m.Step c n → s.astar.cost n.2 n.1 ≤ s.astar.cost c.2 c.1 + 1

/-- The Manhattan distances from the elements of a path to the goal, in path order. -/
def distancesToGoal (path : List Coord) (goalX goalY : Int) : List Int :=
  path.map fun c => AStar.heuristic c.1 c.2 goalX goalY

/-- Every element is at most its successor. -/
def nonDecreasing : List Int → Bool
  | a :: b :: rest => decide (a ≤ b) && nonDecreasing (b :: rest)
  | _ => true

/-- Every element is at least its successor. -/
def nonIncreasing : List Int → Bool
  | a :: b :: rest => decide (b ≤ a) && nonIncreasing (b :: rest)
  | _ => true

/-- Number of iterations that the loop of `generate` performs, counted up to `fuel`. -/
def generateIterations (rand : Nat → Nat) : Nat → GenState → Nat
  | 0, _ => 0
  | fuel + 1, s =>
    if s.maze.wallList = [] then 0 else generateIterations rand fuel (generateStep rand s) + 1

/-- A tighter bound on the iterations left: a carving iteration marks at least one new cell
and appends at most six entries, because `addWalls` skips the visited neighbour. -/
def Maze.tightMeasure (m : Maze) : Nat :=
  6 * m.unvisitedCount + m.wallList.length

/-- Every unvisited cell of the grid that is next to a visited cell is waiting in the wall
list, or all its neighbours on the grid are visited. -/
def Maze.FrontierCovered (m : Maze) : Prop :=
  ∀ u v : Coord, m.inBounds u.1 u.2 → m.inBounds v.1 v.2 → Adjacent4 v u →
    (m.grid v.2 v.1).visited = true → (m.grid u.2 u.1).visited = false →
    u ∈ m.wallList ∨
      ∀ n : Coord, Adjacent4 u n → m.inBounds n.1 n.2 → (m.grid n.2 n.1).visited = true

/-- A 6 × 4 grid with walls at `(2,0)` and `(1,1)`. -/
def repushMaze : Maze :=
  mazeOfRows 6 4
    [[false, false, true,  false, false, false],
     [false, true,  false, false, false, false],
     [false, false, false, false, false, false],
     [false, false, false, false, false, false]]

/-- Number of pops after which the loop of `findPath` exits, through the `while` condition
(empty frontier) or through the `break` (the popped cell is the goal); `none` when `fuel`
iterations do not reach an exit. `searchLoop goalX goalY 1 s` is the state after one iteration
from `s`. -/
def searchPops (goalX goalY : Int) : Nat → SearchState → Option Nat
  | 0, s => if s.frontier = [] then some 0 else none
  | fuel + 1, s =>
    match s.frontier with
    | [] => some 0
    | current :: _ =>
      if current.1 = goalX ∧ current.2 = goalY then some 1
      else (searchPops goalX goalY fuel (searchLoop goalX goalY 1 s)).map (· + 1)

/-- Index pairs `(x, y)` used by the body of the neighbour loop of `findPath` for `next`, from
the state `s`: the call `isWall(nx, ny)`, made only after the four bounds tests have passed;
then `cost[y][x]` and `cost[ny][nx]`; then the writes to `cost[ny][nx]` and `parent[ny][nx]`
and the read of `inQueue[ny][nx]`; then, for the push, the elements handed to the comparator
(elements of the queue and the pushed pair) and the write to `inQueue[ny][nx]`. -/
def visitNeighborAccesses (x y : Int) (s : SearchState) (next : Coord) : List Coord :=
  let nx := next.1
  let ny := next.2
  if nx ≥ 0 ∧ nx < s.astar.maze.getWidth ∧ ny ≥ 0 ∧ ny < s.astar.maze.getHeight then
    (nx, ny) ::
      (if s.astar.maze.isWall nx ny = false then
        (x, y) :: (nx, ny) ::
          (if s.astar.cost y x + 1 < s.astar.cost ny nx then
            (nx, ny) :: (if s.astar.inQueue ny nx = false then s.frontier ++ [(nx, ny)] else [])
          else [])
      else [])
  else []

/-- Index pairs used by the neighbour loop over `ns` for the cell `(x, y)`, from the state
`s`. -/
def neighborsAccesses (goalX goalY x y : Int) : List Coord → SearchState → List Coord
  | [], _ => []
  | next :: ns, s =>
    visitNeighborAccesses x y s next ++
      neighborsAccesses goalX goalY x y ns (visitNeighbor goalX goalY x y s next)

/-- Index pairs used by at most `fuel` iterations of the loop of `findPath` from the state `s`:
the elements of the queue, which `pop` hands to the comparator, the popped cell
(`inQueue[y][x] = false`), and the accesses of the neighbour loop. -/
def searchAccesses (goalX goalY : Int) : Nat → SearchState → List Coord
  | 0, _ => []
  | fuel + 1, s =>
    match s.frontier with
    | [] => []
    | current :: _ =>
      let x := current.1
      let y := current.2
      let s1 : SearchState :=
        { astar := { s.astar with
            inQueue := fun y' x' => if y' = y ∧ x' = x then false else s.astar.inQueue y' x' }
          frontier := pqPop (AStar.cmp s.astar.cost goalX goalY) s.frontier }
      s.frontier ++ current ::
        (if x = goalX ∧ y = goalY then []
        else neighborsAccesses goalX goalY x y (neighbors x y) s1 ++
          searchAccesses goalX goalY fuel (searchLoop goalX goalY 1 s))

/-- Index pairs at which a call of `findPath` calls `isWall` or indexes `cost`, `parent` or
`inQueue`: the start (`cost[startY][startX]`, `inQueue[startY][startX]`), the accesses of the
loop, and the cells `at` of the reconstruction walk (`parent[at.second][at.first]`). -/
def AStar.findPathAccesses (a : AStar) (startX startY goalX goalY : Int) : List Coord :=
  (startX, startY) ::
    (searchAccesses goalX goalY (searchFuel a.maze.getWidth a.maze.getHeight)
        (searchInit a startX startY goalX goalY) ++
      reconstruct (a.findPathRun startX startY goalX goalY).1.parent
        ((a.maze.getWidth * a.maze.getHeight).toNat + 1) (goalX, goalY) [])

/-! ## Theorems -/

/-! ### `findPath` with start = goal -/

theorem pqPush_nil (comp : Coord → Coord → Bool) (v : Coord) : pqPush comp [] v = [v] := by
  simp [pqPush, pushHeapLoop]

theorem reconstruct_sentinel (parent : Int → Int → Coord) (fuel : Nat) (path : List Coord) :
    reconstruct parent fuel (-1, -1) path = path := by
  cases fuel <;> simp [reconstruct]

/-- C4. For every maze and every in-bounds cell `(x, y)`, wall or not,
`findPath(x, y, x, y)` returns exactly the one-element sequence `[(x, y)]`. -/
theorem findPath_start_eq_goal (a : AStar) (x y : Int) (hb : a.maze.inBounds x y) :
    a.findPath x y x y = [(x, y)] := by
  have hne : ((x, y) : Coord) ≠ (-1, -1) := by
    intro h
    have h1 : x = -1 := congrArg Prod.fst h
    have h0 : 0 ≤ x := hb.1
    omega
  simp only [AStar.findPath, AStar.findPathRun, searchInit, pqPush_nil, searchFuel, searchLoop,
    pqPop]
  simp [reconstruct, hne, reconstruct_sentinel]

/-- C4, the 1 × 1 scenario: on the freshly constructed 1 × 1 maze `findPath(0, 0, 0, 0)`
is `[(0, 0)]`. -/
theorem findPath_start_eq_goal_witness :
    (Maze.init 1 1).inBounds 0 0 ∧ (AStar.new (Maze.init 1 1)).findPath 0 0 0 0 = [(0, 0)] :=
  ⟨by decide, findPath_start_eq_goal (AStar.new (Maze.init 1 1)) 0 0 (by decide)⟩

/-! ### Concrete runs of `findPath` -/

/-- C3. Failing run: on the 3 × 3 maze whose only open cell is the start `(0, 0)`, the goal
`(1, 1)` is a wall whose four neighbours are walls, it is not reachable, and `findPath` returns
the one-element sequence `[(1, 1)]`, not the empty sequence. -/
theorem findPath_isolated_goal_not_empty :
    ((Maze.init 3 3).setStartAndEndPoint 0 0 0 0).isWall 1 1 = true ∧
    (∀ n ∈ neighbors 1 1, ((Maze.init 3 3).setStartAndEndPoint 0 0 0 0).isWall n.1 n.2 = true) ∧
    (AStar.new ((Maze.init 3 3).setStartAndEndPoint 0 0 0 0)).findPath 0 0 1 1 = [(1, 1)] := by
  decide

/-- C1. Failing run: on `detourMaze` start `(0, 3)` and goal `(5, 1)` are open and joined by
an open path of 8 coordinates (cost 7), while `findPath` returns a path of 10 coordinates
(cost 9). -/
theorem findPath_detour_not_shortest :
    detourMaze.OpenCell (0, 3) ∧ detourMaze.OpenCell (5, 1) ∧
    detourMaze.OpenPath [(0, 3), (1, 3), (2, 3), (3, 3), (4, 3), (5, 3), (5, 2), (5, 1)] ∧
    (AStar.new detourMaze).findPath 0 3 5 1 =
      [(0, 3), (0, 2), (0, 1), (1, 1), (2, 1), (3, 1), (3, 0), (4, 0), (5, 0), (5, 1)] := by
  decide

/-- In the run of `findPath(0, 3, 5, 1)` on `detourMaze`, the 11th iteration expands `(2, 3)`
and lowers the cost of `(3, 3)`, which is inside the queue, from 5 to 3. After it the front of
the queue's vector is `(2, 0)` with priority `f = 9`, while `(3, 3)` sits in the fifth slot with
`f = 7`: the next `top()` is not a lowest-`f` entry. -/
theorem detour_heap_order_lost :
    (searchLoop 5 1 10 (searchInit (AStar.new detourMaze) 0 3 5 1)).frontier.head? =
      some (2, 3) ∧
    (searchLoop 5 1 10 (searchInit (AStar.new detourMaze) 0 3 5 1)).astar.cost 3 3 = 5 ∧
    (searchLoop 5 1 11 (searchInit (AStar.new detourMaze) 0 3 5 1)).astar.cost 3 3 = 3 ∧
    (searchLoop 5 1 11 (searchInit (AStar.new detourMaze) 0 3 5 1)).frontier =
      [(2, 0), (0, 0), (0, 4), (1, 4), (3, 3), (3, 0), (2, 4)] ∧
    (searchLoop 5 1 11 (searchInit (AStar.new detourMaze) 0 3 5 1)).fScore 5 1 (2, 0) = 9 ∧
    (searchLoop 5 1 11 (searchInit (AStar.new detourMaze) 0 3 5 1)).fScore 5 1 (3, 3) = 7 := by
  decide

/-! ### `setStartAndEndPoint` and the constructor -/

/-- C8. For every maze and in-bounds `(startX, startY)`, `(endX, endY)`, after
`setStartAndEndPoint` the width, the height and the wall list are unchanged, and every cell is
the cell it was, except that the wall flag of the two named cells is false. -/
theorem setStartAndEndPoint_frame (m : Maze) (startX startY endX endY : Int)
    (_hs : m.inBounds startX startY) (_he : m.inBounds endX endY) :
    (m.setStartAndEndPoint startX startY endX endY).width = m.width ∧
    (m.setStartAndEndPoint startX startY endX endY).height = m.height ∧
    (m.setStartAndEndPoint startX startY endX endY).wallList = m.wallList ∧
    ∀ x y : Int, (m.setStartAndEndPoint startX startY endX endY).grid y x =
      if (x = startX ∧ y = startY) ∨ (x = endX ∧ y = endY)
      then { m.grid y x with wall := false } else m.grid y x := by
  refine ⟨rfl, rfl, rfl, ?_⟩
  intro x y
  simp only [Maze.setStartAndEndPoint, Maze.setCell]
  by_cases h1 : y = endY ∧ x = endX
  · obtain ⟨rfl, rfl⟩ := h1
    by_cases h2 : y = startY ∧ x = startX
    · obtain ⟨rfl, rfl⟩ := h2
      simp
    · simp [h2]
  · by_cases h2 : y = startY ∧ x = startX
    · obtain ⟨rfl, rfl⟩ := h2
      simp [h1]
    · have h1' : ¬ (x = endX ∧ y = endY) := fun h => h1 ⟨h.2, h.1⟩
      have h2' : ¬ (x = startX ∧ y = startY) := fun h => h2 ⟨h.2, h.1⟩
      simp [h1, h2, h1', h2']

/-- C8 at a concrete input: the fresh 3 × 3 maze with start `(0, 0)` and end `(2, 1)`. -/
theorem setStartAndEndPoint_frame_witness :
    ((Maze.init 3 3).setStartAndEndPoint 0 0 2 1).width = 3 ∧
    ((Maze.init 3 3).setStartAndEndPoint 0 0 2 1).height = 3 ∧
    ((Maze.init 3 3).setStartAndEndPoint 0 0 2 1).wallList = [] ∧
    ∀ x y : Int, ((Maze.init 3 3).setStartAndEndPoint 0 0 2 1).grid y x =
      if (x = 0 ∧ y = 0) ∨ (x = 2 ∧ y = 1)
      then { (Maze.init 3 3).grid y x with wall := false } else (Maze.init 3 3).grid y x :=
  setStartAndEndPoint_frame (Maze.init 3 3) 0 0 2 1 (by decide) (by decide)

/-- C9, as stated, fails: constructing a maze of width 0 and height 0 is not rejected, it
produces the maze object with width 0 and height 0, even when the free store grants no
request at all. -/
theorem construct_zero_not_rejected :
    (0 : Int) < 1 ∧
    Maze.construct ⟨fun _ => false, fun _ _ => false⟩ 0 0 = Except.ok (Maze.init 0 0) ∧
    (Maze.init 0 0).width = 0 ∧ (Maze.init 0 0).height = 0 ∧
    ¬ ∃ e, Maze.construct ⟨fun _ => false, fun _ _ => false⟩ 0 0 = Except.error e := by
  refine ⟨by decide, rfl, rfl, rfl, ?_⟩
  rintro ⟨e, h⟩
  exact absurd h (by simp [Maze.construct])

/-- C9, amended. A negative width or height makes the construction fail. A width or height of
0, with neither negative, is not rejected: the only possible failure is `std::bad_alloc`, when
the free store refuses the storage; when the storage that is requested is granted, and always
for width 0 and height 0, the maze object is produced, with that width and height, an empty
wall list and no cell. -/
theorem construct_spec (alloc : Allocator) (w h : Int) :
    ((w < 0 ∨ h < 0) → ∃ e, Maze.construct alloc w h = Except.error e) ∧
    ((0 ≤ w ∧ 0 ≤ h ∧ (w < 1 ∨ h < 1)) →
      (Maze.construct alloc w h = Except.ok (Maze.init w h) ∨
        Maze.construct alloc w h = Except.error "std::bad_alloc") ∧
      (((w = 0 ∨ alloc.row w = true) ∧ (h = 0 ∨ alloc.grid w h = true)) →
        Maze.construct alloc w h = Except.ok (Maze.init w h)) ∧
      (Maze.init w h).width = w ∧ (Maze.init w h).height = h ∧
      (Maze.init w h).wallList = [] ∧ ∀ x y : Int, ¬ (Maze.init w h).inBounds x y) ∧
    Maze.construct alloc 0 0 = Except.ok (Maze.init 0 0) := by
  refine ⟨?_, ?_, rfl⟩
  · intro hneg
    unfold Maze.construct
    by_cases h1 : w < 0
    · exact ⟨_, by rw [if_pos h1]⟩
    · rw [if_neg h1]
      by_cases h2 : 0 < w ∧ alloc.row w = false
      · exact ⟨_, by rw [if_pos h2]⟩
      · rw [if_neg h2]
        have h3 : h < 0 := hneg.resolve_left h1
        exact ⟨_, by rw [if_pos h3]⟩
  · rintro ⟨hw, hh, hz⟩
    have h1 : ¬ w < 0 := not_lt.2 hw
    have h3 : ¬ h < 0 := not_lt.2 hh
    refine ⟨?_, ?_, rfl, rfl, rfl, ?_⟩
    · unfold Maze.construct
      rw [if_neg h1]
      by_cases h2 : 0 < w ∧ alloc.row w = false
      · rw [if_pos h2]
        exact Or.inr rfl
      · rw [if_neg h2, if_neg h3]
        by_cases h4 : 0 < h ∧ alloc.grid w h = false
        · rw [if_pos h4]
          exact Or.inr rfl
        · rw [if_neg h4]
          exact Or.inl rfl
    · rintro ⟨hr, hg⟩
      have h2 : ¬ (0 < w ∧ alloc.row w = false) := by
        rintro ⟨hpos, hf⟩
        rcases hr with hr | hr
        · omega
        · rw [hr] at hf
          exact absurd hf (by decide)
      have h4 : ¬ (0 < h ∧ alloc.grid w h = false) := by
        rintro ⟨hpos, hf⟩
        rcases hg with hg | hg
        · omega
        · rw [hg] at hf
          exact absurd hf (by decide)
      unfold Maze.construct
      rw [if_neg h1, if_neg h2, if_neg h3, if_neg h4]
    · intro x y hb
      have hx : x < w := hb.2.1
      have hy : y < h := hb.2.2.2
      have hx0 : 0 ≤ x := hb.1
      have hy0 : 0 ≤ y := hb.2.2.1
      omega

/-- C9, amended, with a free store that grants every request: at width -1, height 3 the
construction fails, at width 0, height 5 the maze object is produced. -/
theorem construct_spec_witness :
    (∃ e, Maze.construct ⟨fun _ => true, fun _ _ => true⟩ (-1) 3 = Except.error e) ∧
    Maze.construct ⟨fun _ => true, fun _ _ => true⟩ 0 5 = Except.ok (Maze.init 0 5) ∧
    (Maze.init 0 5).width = 0 ∧ (Maze.init 0 5).height = 5 :=
  ⟨(construct_spec ⟨fun _ => true, fun _ _ => true⟩ (-1) 3).1 (Or.inl (by decide)),
    ((construct_spec ⟨fun _ => true, fun _ _ => true⟩ 0 5).2.1
      ⟨by decide, by decide, Or.inl (by decide)⟩).2.1 ⟨Or.inl rfl, Or.inr rfl⟩,
    rfl, rfl⟩

/-! ### `findPath` reads the maze only through `getWidth`, `getHeight` and in-bounds `isWall` -/

theorem visitNeighbor_agree (goalX goalY x y : Int) (s t : SearchState) (next : Coord)
    (h : s.Agree t) :
    (visitNeighbor goalX goalY x y s next).Agree (visitNeighbor goalX goalY x y t next) := by
  obtain ⟨hf, hc, hp, hq, hw, hh, hwall⟩ := h
  have hmaze : s.astar.maze.SameWalls t.astar.maze := ⟨hw, hh, hwall⟩
  by_cases hb : s.astar.maze.inBounds next.1 next.2
  · have hb' : next.1 ≥ 0 ∧ next.1 < s.astar.maze.width ∧ next.2 ≥ 0 ∧
        next.2 < s.astar.maze.height := hb
    have hwl := hwall _ _ hb
    simp only [visitNeighbor, Maze.getWidth, Maze.getHeight, ← hw, ← hh, ← hwl, ← hc, ← hp,
      ← hq, ← hf]
    split_ifs <;> refine ⟨?_, ?_, ?_, ?_, hmaze⟩ <;>
      first | rfl | exact hf | exact hc | exact hp | exact hq
  · have hb1 : ¬ (next.1 ≥ 0 ∧ next.1 < s.astar.maze.getWidth ∧ next.2 ≥ 0 ∧
        next.2 < s.astar.maze.getHeight ∧ s.astar.maze.isWall next.1 next.2 = false) :=
      fun hh => hb ⟨hh.1, hh.2.1, hh.2.2.1, hh.2.2.2.1⟩
    have hb2 : ¬ (next.1 ≥ 0 ∧ next.1 < t.astar.maze.getWidth ∧ next.2 ≥ 0 ∧
        next.2 < t.astar.maze.getHeight ∧ t.astar.maze.isWall next.1 next.2 = false) := by
      intro hh'
      apply hb
      have h1 : t.astar.maze.getWidth = s.astar.maze.width := hw.symm
      have h2 : t.astar.maze.getHeight = s.astar.maze.height := hh.symm
      rw [h1, h2] at hh'
      exact ⟨hh'.1, hh'.2.1, hh'.2.2.1, hh'.2.2.2.1⟩
    simp only [visitNeighbor, hb1, hb2, if_false]
    exact ⟨hf, hc, hp, hq, hmaze⟩

theorem foldl_visitNeighbor_agree (goalX goalY x y : Int) (ns : List Coord) :
    ∀ s t : SearchState, s.Agree t →
      (ns.foldl (visitNeighbor goalX goalY x y) s).Agree
        (ns.foldl (visitNeighbor goalX goalY x y) t) := by
  induction ns with
  | nil => intro s t h; exact h
  | cons n ns ih =>
    intro s t h
    exact ih _ _ (visitNeighbor_agree goalX goalY x y s t n h)

theorem searchLoop_agree (goalX goalY : Int) (fuel : Nat) :
    ∀ s t : SearchState, s.Agree t →
      (searchLoop goalX goalY fuel s).Agree (searchLoop goalX goalY fuel t) := by
  induction fuel with
  | zero => intro s t h; exact h
  | succ fuel ih =>
    intro s t h
    obtain ⟨hf, hc, hp, hq, hm⟩ := h
    cases hs : s.frontier with
    | nil =>
      have ht : t.frontier = [] := by rw [← hf, hs]
      simp only [searchLoop, hs, ht]
      exact ⟨by rw [hs, ht], hc, hp, hq, hm⟩
    | cons current rest =>
      have ht : t.frontier = current :: rest := by rw [← hf, hs]
      simp only [searchLoop, hs, ht]
      have h1 : SearchState.Agree
          { astar := { s.astar with
              inQueue := fun y' x' =>
                if y' = current.2 ∧ x' = current.1 then false else s.astar.inQueue y' x' }
            frontier := pqPop (AStar.cmp s.astar.cost goalX goalY) (current :: rest) }
          { astar := { t.astar with
              inQueue := fun y' x' =>
                if y' = current.2 ∧ x' = current.1 then false else t.astar.inQueue y' x' }
            frontier := pqPop (AStar.cmp t.astar.cost goalX goalY) (current :: rest) } :=
        ⟨by simp only [hc], hc, hp, by simp only [hq], hm⟩
      split_ifs
      · exact h1
      · exact ih _ _ (foldl_visitNeighbor_agree goalX goalY _ _ _ _ _ h1)

/-- The path returned by `findPath` is the same for two `AStar` objects whose mazes have the
same dimensions and the same wall flags on the grid, whatever their tables hold. -/
theorem findPath_sameWalls (a b : AStar) (h : a.maze.SameWalls b.maze)
    (startX startY goalX goalY : Int) :
    a.findPath startX startY goalX goalY = b.findPath startX startY goalX goalY := by
  have hw : a.maze.getWidth = b.maze.getWidth := h.1
  have hh : a.maze.getHeight = b.maze.getHeight := h.2.1
  simp only [AStar.findPath, AStar.findPathRun, hw, hh]
  have hag := searchLoop_agree goalX goalY (searchFuel b.maze.getWidth b.maze.getHeight)
    (searchInit a startX startY goalX goalY) (searchInit b startX startY goalX goalY)
    ⟨rfl, rfl, rfl, rfl, h⟩
  rw [hag.2.2.1]

/-- C10. On every 3 × 3 grid in which no cell is a wall, `findPath(0, 0, 2, 2)` returns a path
of exactly 5 coordinates (cost 4) that starts at `(0, 0)` and ends at `(2, 2)`. -/
theorem findPath_open3x3 (a : AStar) (hw : a.maze.width = 3) (hh : a.maze.height = 3)
    (hopen : ∀ x y : Int, a.maze.inBounds x y → a.maze.isWall x y = false) :
    (a.findPath 0 0 2 2).length = 5 ∧ (a.findPath 0 0 2 2).length - 1 = 4 ∧
    (a.findPath 0 0 2 2).head? = some (0, 0) ∧ (a.findPath 0 0 2 2).getLast? = some (2, 2) := by
  have hsame : a.maze.SameWalls open3x3 := by
    refine ⟨hw, hh, ?_⟩
    intro x y hb
    rw [hopen x y hb]
    obtain ⟨h1, h2, h3, h4⟩ := hb
    rw [hw] at h2
    rw [hh] at h4
    have hx : x = 0 ∨ x = 1 ∨ x = 2 := by omega
    have hy : y = 0 ∨ y = 1 ∨ y = 2 := by omega
    rcases hx with rfl | rfl | rfl <;> rcases hy with rfl | rfl | rfl <;> decide
  have hrun : (AStar.new open3x3).findPath 0 0 2 2 = [(0, 0), (1, 0), (2, 0), (2, 1), (2, 2)] := by
    decide
  rw [findPath_sameWalls a (AStar.new open3x3) hsame, hrun]
  decide

/-- C10 on the 3 × 3 maze opened cell by cell through `setStartAndEndPoint`. -/
theorem findPath_open3x3_witness :
    ((AStar.new open3x3).findPath 0 0 2 2).length = 5 ∧
    ((AStar.new open3x3).findPath 0 0 2 2).length - 1 = 4 ∧
    ((AStar.new open3x3).findPath 0 0 2 2).head? = some (0, 0) ∧
    ((AStar.new open3x3).findPath 0 0 2 2).getLast? = some (2, 2) :=
  findPath_open3x3 (AStar.new open3x3) (by decide) (by decide) (by
    intro x y hb
    obtain ⟨h1, h2, h3, h4⟩ := hb
    have h2' : x < 3 := h2
    have h4' : y < 3 := h4
    have hx : x = 0 ∨ x = 1 ∨ x = 2 := by omega
    have hy : y = 0 ∨ y = 1 ∨ y = 2 := by omega
    rcases hx with rfl | rfl | rfl <;> rcases hy with rfl | rfl | rfl <;> decide)

/-! ### Counting over a list -/

theorem countP_le_of_imp {α : Type} (p q : α → Bool) (l : List α)
    (h : ∀ x ∈ l, p x = true → q x = true) : l.countP p ≤ l.countP q := by
  induction l with
  | nil => simp
  | cons a l ih =>
    have ih' := ih (fun x hx => h x (List.mem_cons_of_mem a hx))
    have ha := h a (List.mem_cons_self a l)
    simp only [List.countP_cons]
    by_cases hp : p a = true
    · simp [hp, ha hp]; exact ih'
    · simp [hp]; omega

theorem countP_lt_of_imp {α : Type} (p q : α → Bool) (l : List α)
    (h : ∀ x ∈ l, p x = true → q x = true) (a : α) (ha : a ∈ l) (hpa : p a = false)
    (hqa : q a = true) : l.countP p < l.countP q := by
  induction l with
  | nil => simp at ha
  | cons b l ih =>
    have hmono := countP_le_of_imp p q l (fun x hx => h x (List.mem_cons_of_mem b hx))
    simp only [List.countP_cons]
    rcases List.mem_cons.1 ha with rfl | hmem
    · simp [hpa, hqa]; omega
    · have ih' := ih (fun x hx => h x (List.mem_cons_of_mem b hx)) hmem
      have hb := h b (List.mem_cons_self b l)
      by_cases hp : p b = true
      · simp [hp, hb hp]; exact ih'
      · simp [hp]; omega

theorem countP_le_succ_of_nodup {α : Type} (p q : α → Bool) (l : List α) (hl : l.Nodup)
    (a : α) (h : ∀ x ∈ l, q x = true → p x = true ∨ x = a) :
    l.countP q ≤ l.countP p + 1 := by
  induction l with
  | nil => simp
  | cons b l ih =>
    have hnd := List.nodup_cons.1 hl
    simp only [List.countP_cons]
    by_cases hba : b = a
    · subst hba
      have hle : l.countP q ≤ l.countP p := by
        apply countP_le_of_imp
        intro x hx hqx
        rcases h x (List.mem_cons_of_mem b hx) hqx with h1 | h1
        · exact h1
        · subst h1; exact absurd hx hnd.1
      split_ifs <;> omega
    · have ih' := ih hnd.2 (fun x hx => h x (List.mem_cons_of_mem b hx))
      by_cases hq : q b = true
      · rcases h b (List.mem_cons_self b l) hq with h1 | h1
        · simp [hq, h1]; exact ih'
        · exact absurd h1 hba
      · simp [hq]; omega

/-! ### The cells of the grid -/

theorem mem_gridCells (w h : Int) (c : Coord) :
    c ∈ gridCells w h ↔ 0 ≤ c.1 ∧ c.1 < w ∧ 0 ≤ c.2 ∧ c.2 < h := by
  obtain ⟨x, y⟩ := c
  simp only [gridCells, List.mem_flatMap, List.mem_map, List.mem_range, Prod.mk.injEq]
  constructor
  · rintro ⟨j, hj, i, hi, rfl, rfl⟩
    simp only [Int.ofNat_eq_coe]
    omega
  · rintro ⟨h1, h2, h3, h4⟩
    refine ⟨y.toNat, by omega, x.toNat, by omega, ?_, ?_⟩ <;>
      simp only [Int.ofNat_eq_coe] <;> omega

theorem nodup_gridCells (w h : Int) : (gridCells w h).Nodup := by
  unfold gridCells
  rw [List.nodup_flatMap]
  constructor
  · intro y _
    apply List.Nodup.map
    · intro a b hab
      simp only [Prod.mk.injEq, Int.ofNat_eq_coe] at hab
      omega
    · exact List.nodup_range _
  · apply List.Pairwise.imp _ (List.nodup_range h.toNat)
    intro a b hab
    simp only [Function.onFun, List.Disjoint]
    intro c hc1 hc2
    simp only [List.mem_map] at hc1 hc2
    obtain ⟨i, _, rfl⟩ := hc1
    obtain ⟨j, _, hj⟩ := hc2
    simp only [Prod.mk.injEq, Int.ofNat_eq_coe] at hj
    omega

theorem length_gridCells (w h : Int) : (gridCells w h).length = h.toNat * w.toNat := by
  unfold gridCells
  induction h.toNat with
  | zero => simp
  | succ n ih =>
    rw [List.range_succ, List.flatMap_append, List.length_append, ih]
    simp [Nat.succ_mul]

/-! ### Elementary facts about the maze operations -/

theorem Maze.OpenReach.mono {m m' : Maze} (h : ∀ c, m.OpenCell c → m'.OpenCell c)
    {s c : Coord} (hr : m.OpenReach s c) : m'.OpenReach s c := by
  induction hr with
  | refl => exact Maze.OpenReach.refl
  | step _ hstep ih => exact Maze.OpenReach.step ih ⟨hstep.1, h _ hstep.2⟩

theorem Maze.carve_grid (m : Maze) (c : Coord) (x y : Int) :
    (m.carve c).grid y x =
      if y = c.2 ∧ x = c.1 then { m.grid c.2 c.1 with wall := false, visited := true }
      else m.grid y x := rfl

theorem Maze.carve_eq_self (m : Maze) (c : Coord) (hw : (m.grid c.2 c.1).wall = false)
    (hv : (m.grid c.2 c.1).visited = true) : m.carve c = m := by
  obtain ⟨grid, wl, w, h⟩ := m
  simp only [Maze.carve, Maze.setCell, Maze.mk.injEq, and_true]
  funext y x
  split_ifs with hyx
  · obtain ⟨rfl, rfl⟩ := hyx
    simp only at hw hv
    rw [← hw, ← hv]
  · rfl

theorem Maze.isWall_carve (m : Maze) (c : Coord) (x y : Int) :
    (m.carve c).isWall x y = if y = c.2 ∧ x = c.1 then false else m.isWall x y := by
  simp only [Maze.isWall, Maze.carve_grid]
  split_ifs <;> rfl

theorem Maze.visited_carve (m : Maze) (c : Coord) (x y : Int) :
    ((m.carve c).grid y x).visited = if y = c.2 ∧ x = c.1 then true else (m.grid y x).visited := by
  simp only [Maze.carve_grid]
  split_ifs <;> rfl

theorem Maze.coords_carve (m : Maze) (c : Coord) (x y : Int) :
    ((m.carve c).grid y x).x = (m.grid y x).x ∧ ((m.carve c).grid y x).y = (m.grid y x).y := by
  simp only [Maze.carve_grid]
  split_ifs with h
  · obtain ⟨rfl, rfl⟩ := h
    exact ⟨rfl, rfl⟩
  · exact ⟨rfl, rfl⟩

theorem Maze.openCell_carve (m : Maze) (c e : Coord) :
    (m.carve c).OpenCell e ↔ m.inBounds e.1 e.2 ∧ (e = c ∨ m.isWall e.1 e.2 = false) := by
  obtain ⟨ex, ey⟩ := e
  obtain ⟨cx, cy⟩ := c
  simp only [Maze.OpenCell, Maze.isWall_carve, Prod.mk.injEq]
  constructor
  · rintro ⟨hb, hw⟩
    refine ⟨hb, ?_⟩
    by_cases h : ey = cy ∧ ex = cx
    · exact Or.inl ⟨h.2, h.1⟩
    · rw [if_neg h] at hw
      exact Or.inr hw
  · rintro ⟨hb, hw⟩
    refine ⟨hb, ?_⟩
    by_cases h : ey = cy ∧ ex = cx
    · rw [if_pos h]
    · rw [if_neg h]
      rcases hw with hw | hw
      · exact absurd ⟨hw.2, hw.1⟩ h
      · exact hw

/-- The entries that `addWalls` appends for the cell stored at index `cell`. -/
theorem Maze.addWalls_eq (m : Maze) (cell : Coord) :
    ∃ extra : List Coord, m.addWalls cell = { m with wallList := m.wallList ++ extra } ∧
      extra.length ≤ 4 ∧
      ∀ e ∈ extra,
        Adjacent4 ((m.grid cell.2 cell.1).x, (m.grid cell.2 cell.1).y) e ∧
        (m.inBounds (m.grid cell.2 cell.1).x (m.grid cell.2 cell.1).y → m.inBounds e.1 e.2) := by
  refine ⟨
    (if (m.grid cell.2 cell.1).x > 0 ∧
        (m.grid (m.grid cell.2 cell.1).y ((m.grid cell.2 cell.1).x - 1)).visited = false
      then [((m.grid cell.2 cell.1).x - 1, (m.grid cell.2 cell.1).y)] else []) ++
    (if (m.grid cell.2 cell.1).y > 0 ∧
        (m.grid ((m.grid cell.2 cell.1).y - 1) (m.grid cell.2 cell.1).x).visited = false
      then [((m.grid cell.2 cell.1).x, (m.grid cell.2 cell.1).y - 1)] else []) ++
    (if (m.grid cell.2 cell.1).x < m.width - 1 ∧
        (m.grid (m.grid cell.2 cell.1).y ((m.grid cell.2 cell.1).x + 1)).visited = false
      then [((m.grid cell.2 cell.1).x + 1, (m.grid cell.2 cell.1).y)] else []) ++
    (if (m.grid cell.2 cell.1).y < m.height - 1 ∧
        (m.grid ((m.grid cell.2 cell.1).y + 1) (m.grid cell.2 cell.1).x).visited = false
      then [((m.grid cell.2 cell.1).x, (m.grid cell.2 cell.1).y + 1)] else []), ?_, ?_, ?_⟩
  · simp only [Maze.addWalls, Maze.pushWall]
    split_ifs <;> simp
  · split_ifs <;> simp
  · intro e he
    simp only [List.mem_append] at he
    unfold Maze.inBounds Adjacent4
    rcases he with ((he | he) | he) | he <;> split_ifs at he with hg <;>
      simp only [List.mem_singleton, List.not_mem_nil] at he <;> subst he <;>
      refine ⟨?_, ?_⟩ <;> dsimp only <;> omega

/-! ### Counting open cells and adjacent open pairs when a cell is opened -/

theorem Maze.isWall_carve_of_open (m : Maze) (c : Coord) (x y : Int)
    (h : m.isWall x y = false) : (m.carve c).isWall x y = false := by
  rw [Maze.isWall_carve]
  split_ifs
  · rfl
  · exact h

theorem Maze.isWall_carve_self (m : Maze) (c : Coord) : (m.carve c).isWall c.1 c.2 = false := by
  rw [Maze.isWall_carve]
  simp

theorem Maze.openCount_carve_le (m : Maze) (c : Coord) :
    (m.carve c).openCount ≤ m.openCount + 1 := by
  apply countP_le_succ_of_nodup _ _ _ (nodup_gridCells _ _) c
  intro x _ hx
  simp only [decide_eq_true_eq] at hx ⊢
  rw [Maze.isWall_carve] at hx
  by_cases h : x.2 = c.2 ∧ x.1 = c.1
  · exact Or.inr (Prod.ext h.2 h.1)
  · rw [if_neg h] at hx
    exact Or.inl hx

theorem Maze.adjacentOpenPairs_carve_lt (m : Maze) (c n : Coord) (hc : m.inBounds c.1 c.2)
    (hwall : m.isWall c.1 c.2 = true) (hn : m.OpenCell n) (hadj : Adjacent4 n c) :
    m.adjacentOpenPairs < (m.carve c).adjacentOpenPairs := by
  have hH : ((gridCells m.width m.height).countP fun e =>
        decide (m.isWall e.1 e.2 = false ∧ e.1 + 1 < m.width ∧ m.isWall (e.1 + 1) e.2 = false)) ≤
      ((gridCells m.width m.height).countP fun e =>
        decide ((m.carve c).isWall e.1 e.2 = false ∧ e.1 + 1 < m.width ∧
          (m.carve c).isWall (e.1 + 1) e.2 = false)) := by
    apply countP_le_of_imp
    intro x _ hx
    simp only [decide_eq_true_eq] at hx ⊢
    exact ⟨m.isWall_carve_of_open c _ _ hx.1, hx.2.1, m.isWall_carve_of_open c _ _ hx.2.2⟩
  have hV : ((gridCells m.width m.height).countP fun e =>
        decide (m.isWall e.1 e.2 = false ∧ e.2 + 1 < m.height ∧ m.isWall e.1 (e.2 + 1) = false)) ≤
      ((gridCells m.width m.height).countP fun e =>
        decide ((m.carve c).isWall e.1 e.2 = false ∧ e.2 + 1 < m.height ∧
          (m.carve c).isWall e.1 (e.2 + 1) = false)) := by
    apply countP_le_of_imp
    intro x _ hx
    simp only [decide_eq_true_eq] at hx ⊢
    exact ⟨m.isWall_carve_of_open c _ _ hx.1, hx.2.1, m.isWall_carve_of_open c _ _ hx.2.2⟩
  have hcmem : c ∈ gridCells m.width m.height := (mem_gridCells _ _ _).2 hc
  have hnmem : n ∈ gridCells m.width m.height := (mem_gridCells _ _ _).2 hn.1
  have hnopen : (m.carve c).isWall n.1 n.2 = false := m.isWall_carve_of_open c _ _ hn.2
  have hcopen := m.isWall_carve_self c
  obtain ⟨hn1, hn2, hn3, hn4⟩ := hn.1
  obtain ⟨hc1, hc2, hc3, hc4⟩ := hc
  have hnw := hn.2
  obtain ⟨nx, ny⟩ := n
  obtain ⟨cx, cy⟩ := c
  simp only at hn1 hn2 hn3 hn4 hc1 hc2 hc3 hc4 hnw hwall hnopen hcopen
  have hVlt : ∀ a : Coord, a ∈ gridCells m.width m.height →
      ¬ (m.isWall a.1 a.2 = false ∧ a.2 + 1 < m.height ∧ m.isWall a.1 (a.2 + 1) = false) →
      ((m.carve (cx, cy)).isWall a.1 a.2 = false ∧ a.2 + 1 < m.height ∧
          (m.carve (cx, cy)).isWall a.1 (a.2 + 1) = false) →
      m.adjacentOpenPairs < (m.carve (cx, cy)).adjacentOpenPairs := by
    intro a ha h1 h2
    have := countP_lt_of_imp
      (fun e : Coord => decide (m.isWall e.1 e.2 = false ∧ e.2 + 1 < m.height ∧
        m.isWall e.1 (e.2 + 1) = false))
      (fun e : Coord => decide ((m.carve (cx, cy)).isWall e.1 e.2 = false ∧ e.2 + 1 < m.height ∧
        (m.carve (cx, cy)).isWall e.1 (e.2 + 1) = false))
      (gridCells m.width m.height)
      (by
        intro x _ hx
        simp only [decide_eq_true_eq] at hx ⊢
        exact ⟨m.isWall_carve_of_open _ _ _ hx.1, hx.2.1, m.isWall_carve_of_open _ _ _ hx.2.2⟩)
      a ha (by simpa using h1) (by simpa using h2)
    show _ + _ < _ + _
    exact Nat.add_lt_add_of_le_of_lt hH this
  have hHlt : ∀ a : Coord, a ∈ gridCells m.width m.height →
      ¬ (m.isWall a.1 a.2 = false ∧ a.1 + 1 < m.width ∧ m.isWall (a.1 + 1) a.2 = false) →
      ((m.carve (cx, cy)).isWall a.1 a.2 = false ∧ a.1 + 1 < m.width ∧
          (m.carve (cx, cy)).isWall (a.1 + 1) a.2 = false) →
      m.adjacentOpenPairs < (m.carve (cx, cy)).adjacentOpenPairs := by
    intro a ha h1 h2
    have := countP_lt_of_imp
      (fun e : Coord => decide (m.isWall e.1 e.2 = false ∧ e.1 + 1 < m.width ∧
        m.isWall (e.1 + 1) e.2 = false))
      (fun e : Coord => decide ((m.carve (cx, cy)).isWall e.1 e.2 = false ∧ e.1 + 1 < m.width ∧
        (m.carve (cx, cy)).isWall (e.1 + 1) e.2 = false))
      (gridCells m.width m.height)
      (by
        intro x _ hx
        simp only [decide_eq_true_eq] at hx ⊢
        exact ⟨m.isWall_carve_of_open _ _ _ hx.1, hx.2.1, m.isWall_carve_of_open _ _ _ hx.2.2⟩)
      a ha (by simpa using h1) (by simpa using h2)
    show _ + _ < _ + _
    exact Nat.add_lt_add_of_lt_of_le this hV
  rcases hadj with ⟨hx, hy | hy⟩ | ⟨hy, hx | hx⟩ <;> simp only at hx hy
  · -- `n` is below `c`
    subst hx hy
    exact hVlt (nx, cy) hcmem (by simp [hwall]) ⟨hcopen, by simpa using hn4, hnopen⟩
  · -- `n` is above `c`
    subst hx hy
    exact hVlt (nx, ny) hnmem (by simp [hwall]) ⟨hnopen, by simpa using hc4, hcopen⟩
  · -- `n` is to the right of `c`
    subst hx hy
    exact hHlt (cx, ny) hcmem (by simp [hwall]) ⟨hcopen, by simpa using hn2, hnopen⟩
  · -- `n` is to the left of `c`
    subst hx hy
    exact hHlt (nx, ny) hnmem (by simp [hwall]) ⟨hnopen, by simpa using hc2, hcopen⟩

/-! ### The invariant of the generation loop -/

theorem GenInv.with_wallList {w h : Int} {m : Maze} (hinv : GenInv w h m) (l : List Coord)
    (hl : ∀ c ∈ l, m.inBounds c.1 c.2 ∧ ∃ n, m.OpenCell n ∧ Adjacent4 n c) :
    GenInv w h { m with wallList := l } where
  width_eq := hinv.width_eq
  height_eq := hinv.height_eq
  coords := hinv.coords
  visited_iff := hinv.visited_iff
  origin_open := hinv.origin_open
  wall_list := hl
  reach := fun c hc => @Maze.OpenReach.mono m { m with wallList := l } (fun _ hx => hx) _ _ (hinv.reach c hc)
  count := hinv.count

theorem GenInv.carve {w h : Int} {m : Maze} (hinv : GenInv w h m) (c : Coord)
    (hc : m.inBounds c.1 c.2) (hn : ∃ n, m.OpenCell n ∧ Adjacent4 n c) :
    GenInv w h (m.carve c) := by
  by_cases hwall : (m.grid c.2 c.1).wall = false
  · rw [m.carve_eq_self c hwall ((hinv.visited_iff _ _).2 hwall)]
    exact hinv
  · have hwall' : m.isWall c.1 c.2 = true := by simpa [Maze.isWall] using hwall
    obtain ⟨n, hnopen, hadj⟩ := hn
    have hmono : ∀ e, m.OpenCell e → (m.carve c).OpenCell e := fun e he =>
      (m.openCell_carve c e).2 ⟨he.1, Or.inr he.2⟩
    have hcopen : (m.carve c).OpenCell c := (m.openCell_carve c c).2 ⟨hc, Or.inl rfl⟩
    refine
      { width_eq := hinv.width_eq
        height_eq := hinv.height_eq
        coords := ?_
        visited_iff := ?_
        origin_open := hmono _ hinv.origin_open
        wall_list := ?_
        reach := ?_
        count := ?_ }
    · intro x y hb
      rw [(m.coords_carve c x y).1, (m.coords_carve c x y).2]
      exact hinv.coords x y hb
    · intro x y
      rw [Maze.visited_carve]
      have hw := m.isWall_carve c x y
      simp only [Maze.isWall] at hw
      rw [hw]
      split_ifs
      · simp
      · exact hinv.visited_iff x y
    · intro e he
      obtain ⟨hb, k, hk, hka⟩ := hinv.wall_list e he
      exact ⟨hb, k, hmono k hk, hka⟩
    · intro e he
      rcases (m.openCell_carve c e).1 he with ⟨hb, rfl | hw⟩
      · exact Maze.OpenReach.step (Maze.OpenReach.mono hmono (hinv.reach n hnopen))
          ⟨hadj, hcopen⟩
      · exact Maze.OpenReach.mono hmono (hinv.reach e ⟨hb, hw⟩)
    · have h1 := m.openCount_carve_le c
      have h2 := m.adjacentOpenPairs_carve_lt c n hc hwall' hnopen hadj
      have h3 := hinv.count
      omega

theorem GenInv.addWalls {w h : Int} {m : Maze} (hinv : GenInv w h m) (c : Coord)
    (hc : m.OpenCell c) : GenInv w h (m.addWalls c) := by
  obtain ⟨extra, heq, _, hextra⟩ := m.addWalls_eq c
  rw [heq]
  apply hinv.with_wallList
  intro e he
  have hxy := hinv.coords c.1 c.2 hc.1
  rcases List.mem_append.1 he with he | he
  · exact hinv.wall_list e he
  · obtain ⟨hadj, hb⟩ := hextra e he
    rw [hxy.1, hxy.2] at hadj hb
    exact ⟨hb hc.1, c, hc, hadj⟩

theorem Maze.addWalls_openCell (m : Maze) (c e : Coord) :
    (m.addWalls c).OpenCell e ↔ m.OpenCell e := by
  obtain ⟨extra, heq, _, _⟩ := m.addWalls_eq c
  rw [heq]
  exact Iff.rfl

theorem Maze.addWalls_length_le (m : Maze) (c : Coord) :
    (m.addWalls c).wallList.length ≤ m.wallList.length + 4 := by
  obtain ⟨extra, heq, hlen, _⟩ := m.addWalls_eq c
  rw [heq]
  simp only [List.length_append]
  omega

theorem Maze.addWalls_unvisitedCount (m : Maze) (c : Coord) :
    (m.addWalls c).unvisitedCount = m.unvisitedCount := by
  obtain ⟨extra, heq, _, _⟩ := m.addWalls_eq c
  rw [heq]
  rfl

/-- The members of `unvisitedNeighbors` are on the grid, 4-adjacent to the cell and unvisited. -/
theorem Maze.mem_unvisitedNeighbors {m : Maze} (hco : m.CoordsOk) (c e : Coord)
    (hc : m.inBounds c.1 c.2) (he : e ∈ m.unvisitedNeighbors c) :
    m.inBounds e.1 e.2 ∧ Adjacent4 c e ∧ (m.grid e.2 e.1).visited = false := by
  have hxy := hco c.1 c.2 hc
  obtain ⟨cx, cy⟩ := c
  simp only at hxy hc
  simp only [Maze.unvisitedNeighbors, hxy.1, hxy.2, List.mem_append] at he
  unfold Maze.inBounds Adjacent4
  unfold Maze.inBounds at hc
  rcases he with ((he | he) | he) | he <;> split_ifs at he with hg <;>
    simp only [List.mem_singleton, List.not_mem_nil] at he <;> subst he <;>
    refine ⟨?_, ?_, hg.2⟩ <;> dsimp only <;> omega

/-! ### One iteration of the generation loop -/

theorem getD_mod_mem (l : List Coord) (k : Nat) (hl : l ≠ []) :
    l.getD (k % l.length) (0, 0) ∈ l := by
  have hpos : 0 < l.length := List.length_pos.2 hl
  have hlt : k % l.length < l.length := Nat.mod_lt _ hpos
  rw [List.getD_eq_getElem l (0, 0) hlt]
  exact List.getElem_mem hlt

theorem Maze.unvisitedCount_carve_le (m : Maze) (c : Coord) :
    (m.carve c).unvisitedCount ≤ m.unvisitedCount := by
  apply countP_le_of_imp
  intro x _ hx
  simp only [decide_eq_true_eq] at hx ⊢
  rw [Maze.visited_carve] at hx
  split_ifs at hx
  exact hx

theorem Maze.unvisitedCount_carve_lt (m : Maze) (c : Coord) (hc : m.inBounds c.1 c.2)
    (hv : (m.grid c.2 c.1).visited = false) :
    (m.carve c).unvisitedCount < m.unvisitedCount := by
  apply countP_lt_of_imp _ _ _ _ c ((mem_gridCells _ _ _).2 hc)
  · simp [Maze.visited_carve]
  · simpa using hv
  · intro x _ hx
    simp only [decide_eq_true_eq] at hx ⊢
    rw [Maze.visited_carve] at hx
    split_ifs at hx
    exact hx

/-- The carving branch of an iteration keeps the invariant and does not raise the measure. -/
theorem carve_branch {w h : Int} {m : Maze} (hinv : GenInv w h m) (current next : Coord)
    (hc : m.inBounds current.1 current.2) (hn : ∃ n, m.OpenCell n ∧ Adjacent4 n current)
    (hnext : next ∈ m.unvisitedNeighbors current) :
    GenInv w h ((((m.carve current).carve next).addWalls current).addWalls next) ∧
    ((((m.carve current).carve next).addWalls current).addWalls next).genMeasure ≤
      m.genMeasure := by
  obtain ⟨hnb, hnadj, hnv⟩ := Maze.mem_unvisitedNeighbors hinv.coords current next hc hnext
  have h1 : GenInv w h (m.carve current) := hinv.carve current hc hn
  have hcur1 : (m.carve current).OpenCell current :=
    (m.openCell_carve current current).2 ⟨hc, Or.inl rfl⟩
  have h2 : GenInv w h ((m.carve current).carve next) :=
    h1.carve next hnb ⟨current, hcur1, hnadj⟩
  have hcur2 : ((m.carve current).carve next).OpenCell current :=
    ((m.carve current).openCell_carve next current).2 ⟨hc, Or.inr hcur1.2⟩
  have hnext2 : ((m.carve current).carve next).OpenCell next :=
    ((m.carve current).openCell_carve next next).2 ⟨hnb, Or.inl rfl⟩
  have h3 : GenInv w h (((m.carve current).carve next).addWalls current) := h2.addWalls current hcur2
  have hnext3 : (((m.carve current).carve next).addWalls current).OpenCell next :=
    (Maze.addWalls_openCell _ _ _).2 hnext2
  refine ⟨h3.addWalls next hnext3, ?_⟩
  have hl1 := Maze.addWalls_length_le (((m.carve current).carve next).addWalls current) next
  have hl2 := Maze.addWalls_length_le ((m.carve current).carve next) current
  have hu1 := Maze.addWalls_unvisitedCount (((m.carve current).carve next).addWalls current) next
  have hu2 := Maze.addWalls_unvisitedCount ((m.carve current).carve next) current
  have hu3 : ((m.carve current).carve next).unvisitedCount ≤ (m.carve next).unvisitedCount := by
    apply countP_le_of_imp
    intro x _ hx
    simp only [decide_eq_true_eq] at hx ⊢
    rw [Maze.visited_carve] at hx ⊢
    split_ifs at hx ⊢ with hxn
    rw [Maze.visited_carve] at hx
    split_ifs at hx
    exact hx
  have hu4 := m.unvisitedCount_carve_lt next hnb hnv
  have hl3 : ((m.carve current).carve next).wallList.length = m.wallList.length := rfl
  simp only [Maze.genMeasure]
  omega

theorem generateStep_spec {w h : Int} (rand : Nat → Nat) (s : GenState)
    (hinv : GenInv w h s.maze) (hne : s.maze.wallList ≠ []) :
    GenInv w h (generateStep rand s).maze ∧
      (generateStep rand s).maze.genMeasure < s.maze.genMeasure := by
  have hpos : 0 < s.maze.wallList.length := List.length_pos.2 hne
  have hlt : rand s.calls % s.maze.wallList.length < s.maze.wallList.length :=
    Nat.mod_lt _ hpos
  have hcur := hinv.wall_list _ (getD_mod_mem s.maze.wallList (rand s.calls) hne)
  have herase : GenInv w h
      { s.maze with
        wallList := s.maze.wallList.eraseIdx (rand s.calls % s.maze.wallList.length) } :=
    hinv.with_wallList _ (fun c hc => hinv.wall_list c (List.mem_of_mem_eraseIdx hc))
  have hmeasure : Maze.genMeasure
      { s.maze with
        wallList := s.maze.wallList.eraseIdx (rand s.calls % s.maze.wallList.length) } <
      s.maze.genMeasure := by
    have hlen := List.length_eraseIdx_of_lt hlt
    have hu : Maze.unvisitedCount
        { s.maze with
          wallList := s.maze.wallList.eraseIdx (rand s.calls % s.maze.wallList.length) } =
        s.maze.unvisitedCount := rfl
    simp only [Maze.genMeasure, hu, hlen]
    omega
  simp only [generateStep]
  split_ifs with hcarve
  · have hnn : Maze.unvisitedNeighbors
        { s.maze with
          wallList := s.maze.wallList.eraseIdx (rand s.calls % s.maze.wallList.length) }
        (s.maze.wallList.getD (rand s.calls % s.maze.wallList.length) (0, 0)) ≠ [] := by
      intro h0
      rw [h0] at hcarve
      simp at hcarve
    have hb := carve_branch herase _ _ hcur.1 hcur.2 (getD_mod_mem _ (rand (s.calls + 1)) hnn)
    exact ⟨hb.1, lt_of_le_of_lt hb.2 hmeasure⟩
  · exact ⟨herase, hmeasure⟩

theorem generateLoop_inv {w h : Int} (rand : Nat → Nat) :
    ∀ (fuel : Nat) (s : GenState), GenInv w h s.maze →
      GenInv w h (generateLoop rand fuel s).maze := by
  intro fuel
  induction fuel with
  | zero => intro s hs; exact hs
  | succ fuel ih =>
    intro s hs
    simp only [generateLoop]
    split_ifs with hnil
    · exact hs
    · exact ih _ (generateStep_spec rand s hs hnil).1

/-- The loop of `generate`, run with at least `genMeasure` fuel, stops because the wall list is
empty: the fuel is not exhausted. -/
theorem generateLoop_done {w h : Int} (rand : Nat → Nat) :
    ∀ (fuel : Nat) (s : GenState), GenInv w h s.maze → s.maze.genMeasure ≤ fuel →
      (generateLoop rand fuel s).maze.wallList = [] := by
  intro fuel
  induction fuel with
  | zero =>
    intro s _ hm
    simp only [Maze.genMeasure] at hm
    have : s.maze.wallList.length = 0 := by omega
    exact List.length_eq_zero.1 this
  | succ fuel ih =>
    intro s hs hm
    simp only [generateLoop]
    split_ifs with hnil
    · exact hnil
    · have hstep := generateStep_spec rand s hs hnil
      exact ih _ hstep.1 (by omega)

/-! ### `generate` on a freshly constructed maze -/

theorem Maze.init_cell (w h x y : Int) :
    ((Maze.init w h).grid y x).wall = true ∧ ((Maze.init w h).grid y x).visited = false := by
  simp only [Maze.init]
  split_ifs <;> exact ⟨rfl, rfl⟩

theorem Maze.init_coords (w h : Int) : (Maze.init w h).CoordsOk := by
  intro x y hb
  have hb' : 0 ≤ y ∧ y < h ∧ 0 ≤ x ∧ x < w := ⟨hb.2.2.1, hb.2.2.2, hb.1, hb.2.1⟩
  simp [Maze.init, hb']

theorem genInv_generateInit (w h : Int) (hw : 1 ≤ w) (hh : 1 ≤ h) :
    GenInv w h (generateInit (Maze.init w h)) := by
  have horigin : (Maze.init w h).inBounds 0 0 := ⟨le_refl 0, by show (0 : Int) < w; omega,
    le_refl 0, by show (0 : Int) < h; omega⟩
  have hopen : ∀ e, ((Maze.init w h).carve (0, 0)).OpenCell e → e = (0, 0) := by
    intro e he
    rcases ((Maze.init w h).openCell_carve (0, 0) e).1 he with ⟨_, h1 | h1⟩
    · exact h1
    · have := (Maze.init_cell w h e.1 e.2).1
      simp only [Maze.isWall] at h1
      rw [h1] at this
      exact absurd this (by decide)
  have hcarve : GenInv w h ((Maze.init w h).carve (0, 0)) :=
    { width_eq := rfl
      height_eq := rfl
      coords := by
        intro x y hb
        rw [((Maze.init w h).coords_carve (0, 0) x y).1, ((Maze.init w h).coords_carve (0, 0) x y).2]
        exact Maze.init_coords w h x y hb
      visited_iff := by
        intro x y
        rw [Maze.visited_carve]
        have hwl := (Maze.init w h).isWall_carve (0, 0) x y
        simp only [Maze.isWall] at hwl
        rw [hwl]
        split_ifs
        · simp
        · simp [(Maze.init_cell w h x y).1, (Maze.init_cell w h x y).2]
      origin_open := ((Maze.init w h).openCell_carve (0, 0) (0, 0)).2 ⟨horigin, Or.inl rfl⟩
      wall_list := by
        intro c hc
        exact absurd hc (List.not_mem_nil c)
      reach := by
        intro c hc
        rw [hopen c hc]
        exact Maze.OpenReach.refl
      count := by
        have hle : ((Maze.init w h).carve (0, 0)).openCount ≤
            (gridCells w h).countP (fun _ => false) + 1 := by
          apply countP_le_succ_of_nodup _ _ _ (nodup_gridCells _ _) (0, 0)
          intro x _ hx
          simp only [decide_eq_true_eq] at hx
          rw [Maze.isWall_carve] at hx
          by_cases hx0 : x.2 = 0 ∧ x.1 = 0
          · exact Or.inr (Prod.ext hx0.2 hx0.1)
          · exfalso
            have hx0' : ¬ (x.2 = ((0, 0) : Coord).2 ∧ x.1 = ((0, 0) : Coord).1) := hx0
            rw [if_neg hx0'] at hx
            have := (Maze.init_cell w h x.1 x.2).1
            simp only [Maze.isWall] at hx
            rw [hx] at this
            exact absurd this (by decide)
        have hzero : (gridCells w h).countP (fun _ => false) = 0 := by
          simp
        omega }
  exact hcarve.addWalls (0, 0) hcarve.origin_open

/-- After `generate()` on the freshly constructed `w × h` maze the loop has run to completion
(the wall list is empty) and the invariant of the loop holds. -/
theorem generate_inv (w h : Int) (hw : 1 ≤ w) (hh : 1 ≤ h) (rand : Nat → Nat) :
    ((Maze.init w h).generate rand).wallList = [] ∧
      GenInv w h ((Maze.init w h).generate rand) := by
  have h0 := genInv_generateInit w h hw hh
  exact ⟨generateLoop_done rand _ ⟨generateInit (Maze.init w h), 0⟩ h0 (le_refl _),
    generateLoop_inv rand _ ⟨generateInit (Maze.init w h), 0⟩ h0⟩

/-- C5. For every width ≥ 1, height ≥ 1 and every sequence of random integers, `generate()` on
the freshly constructed maze runs its loop to completion (the wall list is empty), and every
open cell of the result is reachable from `(0, 0)` by moves between 4-adjacent open cells. -/
theorem generate_connected (w h : Int) (hw : 1 ≤ w) (hh : 1 ≤ h) (rand : Nat → Nat) :
    ((Maze.init w h).generate rand).wallList = [] ∧
    ((Maze.init w h).generate rand).OpenCell (0, 0) ∧
    ∀ x y : Int, ((Maze.init w h).generate rand).inBounds x y →
      ((Maze.init w h).generate rand).isWall x y = false →
      ((Maze.init w h).generate rand).OpenReach (0, 0) (x, y) := by
  obtain ⟨hdone, hinv⟩ := generate_inv w h hw hh rand
  exact ⟨hdone, hinv.origin_open, fun x y hb hopen => hinv.reach (x, y) ⟨hb, hopen⟩⟩

/-- C5 on the 3 × 2 maze generated with `rand()` always 0, at its open cell `(2, 1)`. -/
theorem generate_connected_witness :
    ((Maze.init 3 2).generate fun _ => 0).inBounds 2 1 ∧
    ((Maze.init 3 2).generate fun _ => 0).isWall 2 1 = false ∧
    ((Maze.init 3 2).generate fun _ => 0).wallList = [] ∧
    ((Maze.init 3 2).generate fun _ => 0).OpenCell (0, 0) ∧
    ((Maze.init 3 2).generate fun _ => 0).OpenReach (0, 0) (2, 1) :=
  ⟨by decide, by decide,
    (generate_connected 3 2 (by decide) (by decide) (fun _ => 0)).1,
    (generate_connected 3 2 (by decide) (by decide) (fun _ => 0)).2.1,
    (generate_connected 3 2 (by decide) (by decide) (fun _ => 0)).2.2 2 1 (by decide)
      (by decide)⟩

/-- C6. Failing run: with `rand()` always 0, `generate()` on the freshly constructed 3 × 2
maze returns a maze with 5 open cells and 5 pairs of 4-adjacent open cells; the open cells
`(1,0)`, `(2,0)`, `(2,1)`, `(1,1)` form a cycle, so the number of open cells is not the number
of pairs plus 1. -/
theorem generate_3x2_has_cycle :
    ((Maze.init 3 2).generate fun _ => 0).openCount = 5 ∧
    ((Maze.init 3 2).generate fun _ => 0).adjacentOpenPairs = 5 ∧
    ((Maze.init 3 2).generate fun _ => 0).OpenPath [(1, 0), (2, 0), (2, 1), (1, 1), (1, 0)] ∧
    ¬ (((Maze.init 3 2).generate fun _ => 0).openCount =
        ((Maze.init 3 2).generate fun _ => 0).adjacentOpenPairs + 1) := by
  decide

/-- The half of the tree equation that the generated maze does satisfy: for every width ≥ 1,
height ≥ 1 and every sequence of random integers, after `generate()` on the freshly constructed
maze the number of open cells is at most the number of unordered pairs of 4-adjacent open cells
plus 1. -/
theorem generate_openCount_le (w h : Int) (hw : 1 ≤ w) (hh : 1 ≤ h) (rand : Nat → Nat) :
    ((Maze.init w h).generate rand).wallList = [] ∧
    ((Maze.init w h).generate rand).openCount ≤
      ((Maze.init w h).generate rand).adjacentOpenPairs + 1 := by
  obtain ⟨hdone, hinv⟩ := generate_inv w h hw hh rand
  exact ⟨hdone, hinv.count⟩

/-- The bound `generate_openCount_le` on the 2 × 2 maze generated with `rand()` always 0. -/
theorem generate_openCount_le_witness :
    ((Maze.init 2 2).generate fun _ => 0).wallList = [] ∧
    ((Maze.init 2 2).generate fun _ => 0).openCount ≤
      ((Maze.init 2 2).generate fun _ => 0).adjacentOpenPairs + 1 :=
  generate_openCount_le 2 2 (by decide) (by decide) (fun _ => 0)

/-- C7. For every width ≥ 1, height ≥ 1 and every sequence of random integers, `generate()` on
the freshly constructed maze runs its loop to completion and leaves `isWall(0, 0)` false. -/
theorem generate_origin_open (w h : Int) (hw : 1 ≤ w) (hh : 1 ≤ h) (rand : Nat → Nat) :
    ((Maze.init w h).generate rand).wallList = [] ∧
    ((Maze.init w h).generate rand).isWall 0 0 = false := by
  obtain ⟨hdone, hinv⟩ := generate_inv w h hw hh rand
  exact ⟨hdone, hinv.origin_open.2⟩

/-- C7 on the 1 × 1 maze. -/
theorem generate_origin_open_witness :
    ((Maze.init 1 1).generate fun _ => 0).wallList = [] ∧
    ((Maze.init 1 1).generate fun _ => 0).isWall 0 0 = false :=
  generate_origin_open 1 1 (by decide) (by decide) (fun _ => 0)

/-! ### The priority queue keeps its elements -/

theorem set_perm_cons {α : Type} : ∀ (l : List α) (i : Nat) (a : α), i < l.length →
    (l.set i a).Perm (a :: l.eraseIdx i)
  | [], _, _, h => absurd h (Nat.not_lt_zero _)
  | _ :: _, 0, _, _ => List.Perm.refl _
  | b :: l, i + 1, a, h => by
    have ih := set_perm_cons l i a (Nat.lt_of_succ_lt_succ h)
    simp only [List.set_cons_succ, List.eraseIdx_cons_succ]
    exact (List.Perm.cons b ih).trans (List.Perm.swap a b _)

theorem perm_getD_cons_eraseIdx {α : Type} : ∀ (l : List α) (i : Nat) (d : α), i < l.length →
    l.Perm (l.getD i d :: l.eraseIdx i)
  | [], _, _, h => absurd h (Nat.not_lt_zero _)
  | _ :: _, 0, _, _ => List.Perm.refl _
  | b :: l, i + 1, d, h => by
    have ih := perm_getD_cons_eraseIdx l i d (Nat.lt_of_succ_lt_succ h)
    simp only [List.getD_cons_succ, List.eraseIdx_cons_succ]
    exact (List.Perm.cons b ih).trans (List.Perm.swap _ b _)

/-- Moving the hole from `i` to `j`: the slots other than the hole hold the same elements. -/
theorem eraseIdx_set_getD_perm {α : Type} (l : List α) (i j : Nat) (d : α)
    (hi : i < l.length) (hj : j < l.length) :
    ((l.set i (l.getD j d)).eraseIdx j).Perm (l.eraseIdx i) := by
  have h1 : (l.set i (l.getD j d)).Perm (l.getD j d :: l.eraseIdx i) := set_perm_cons l i _ hi
  have hj' : j < (l.set i (l.getD j d)).length := by simpa using hj
  have h2 := perm_getD_cons_eraseIdx (l.set i (l.getD j d)) j d hj'
  by_cases hij : i = j
  · subst hij
    have : (l.set i (l.getD i d)).getD i d = l.getD i d := by
      simp [List.getD_eq_getElem?_getD, List.getElem?_set, hi]
    rw [this] at h2
    exact (List.Perm.cons_inv (h2.symm.trans h1))
  · have : (l.set i (l.getD j d)).getD j d = l.getD j d := by
      simp [List.getD_eq_getElem?_getD, List.getElem?_set, hij]
    rw [this] at h2
    exact (List.Perm.cons_inv (h2.symm.trans h1))

theorem pushHeapLoop_perm (comp : Coord → Coord → Bool) (value : Coord) :
    ∀ (fuel : Nat) (h : List Coord) (holeIndex : Nat), holeIndex < h.length →
      (pushHeapLoop comp value fuel h holeIndex).Perm (value :: h.eraseIdx holeIndex) := by
  intro fuel
  induction fuel with
  | zero =>
    intro h holeIndex hlt
    exact set_perm_cons h holeIndex value hlt
  | succ fuel ih =>
    intro h holeIndex hlt
    simp only [pushHeapLoop]
    split_ifs with hc
    · have hp : (holeIndex - 1) / 2 < h.length := by omega
      have hlen : (holeIndex - 1) / 2 < (h.set holeIndex (h.getD ((holeIndex - 1) / 2) (0, 0))).length := by
        simpa using hp
      exact (ih _ _ hlen).trans
        (List.Perm.cons value (eraseIdx_set_getD_perm h holeIndex _ (0, 0) hlt hp))
    · exact set_perm_cons h holeIndex value hlt

theorem pqPush_perm (comp : Coord → Coord → Bool) (h : List Coord) (value : Coord) :
    (pqPush comp h value).Perm (value :: h) := by
  have hlt : h.length < (h ++ [value]).length := by simp
  have := pushHeapLoop_perm comp value h.length (h ++ [value]) h.length hlt
  rwa [List.eraseIdx_append_of_length_le (le_refl _), Nat.sub_self, List.eraseIdx_cons_zero,
    List.append_nil] at this

theorem adjustHeapLoop_perm (comp : Coord → Coord → Bool) (len : Nat) :
    ∀ (fuel : Nat) (h : List Coord) (holeIndex : Nat), holeIndex < len → len ≤ h.length →
      (adjustHeapLoop comp len fuel h holeIndex).2 < len ∧
      len ≤ (adjustHeapLoop comp len fuel h holeIndex).1.length ∧
      ((adjustHeapLoop comp len fuel h holeIndex).1.eraseIdx
        (adjustHeapLoop comp len fuel h holeIndex).2).Perm (h.eraseIdx holeIndex) := by
  intro fuel
  induction fuel with
  | zero =>
    intro h holeIndex hlt hlen
    exact ⟨hlt, hlen, List.Perm.refl _⟩
  | succ fuel ih =>
    intro h holeIndex hlt hlen
    simp only [adjustHeapLoop]
    split_ifs with hc hcmp
    · have hchild : 2 * (holeIndex + 1) - 1 < len := by omega
      have hlen' : len ≤ (h.set holeIndex (h.getD (2 * (holeIndex + 1) - 1) (0, 0))).length := by
        simpa using hlen
      obtain ⟨h1, h2, h3⟩ := ih _ _ hchild hlen'
      exact ⟨h1, h2, h3.trans (eraseIdx_set_getD_perm h holeIndex _ (0, 0) (by omega) (by omega))⟩
    · have hchild : 2 * (holeIndex + 1) < len := by omega
      have hlen' : len ≤ (h.set holeIndex (h.getD (2 * (holeIndex + 1)) (0, 0))).length := by
        simpa using hlen
      obtain ⟨h1, h2, h3⟩ := ih _ _ hchild hlen'
      exact ⟨h1, h2, h3.trans (eraseIdx_set_getD_perm h holeIndex _ (0, 0) (by omega) (by omega))⟩
    · exact ⟨hlt, hlen, List.Perm.refl _⟩

theorem adjustHeap_perm (comp : Coord → Coord → Bool) (h : List Coord) (value : Coord)
    (hpos : 0 < h.length) :
    (adjustHeap comp h h.length value).Perm (value :: h.eraseIdx 0) := by
  obtain ⟨h1, h2, h3⟩ := adjustHeapLoop_perm comp h.length h.length h 0 hpos (le_refl _)
  simp only [adjustHeap]
  split_ifs with hc
  · have hidx : 2 * ((adjustHeapLoop comp h.length h.length h 0).2 + 1) - 1 <
        (adjustHeapLoop comp h.length h.length h 0).1.length := by omega
    have hhole : (adjustHeapLoop comp h.length h.length h 0).2 <
        (adjustHeapLoop comp h.length h.length h 0).1.length := by omega
    have hlen : 2 * ((adjustHeapLoop comp h.length h.length h 0).2 + 1) - 1 <
        ((adjustHeapLoop comp h.length h.length h 0).1.set
          (adjustHeapLoop comp h.length h.length h 0).2
          ((adjustHeapLoop comp h.length h.length h 0).1.getD
            (2 * ((adjustHeapLoop comp h.length h.length h 0).2 + 1) - 1) (0, 0))).length := by
      simpa using hidx
    exact (pushHeapLoop_perm comp value _ _ _ hlen).trans
      (List.Perm.cons value
        ((eraseIdx_set_getD_perm _ _ _ (0, 0) hhole hidx).trans h3))
  · exact (pushHeapLoop_perm comp value _ _ _ (by omega)).trans (List.Perm.cons value h3)

/-- `pop()` removes the element at the front of the vector and keeps all the others. -/
theorem pqPop_perm (comp : Coord → Coord → Bool) (top : Coord) (rest : List Coord) :
    (top :: pqPop comp (top :: rest)).Perm (top :: rest) := by
  apply List.Perm.cons
  cases hrest : rest with
  | nil => simp [pqPop]
  | cons b t =>
    have hne : b :: t ≠ [] := List.cons_ne_nil b t
    have hlen : (top :: b :: t).length > 1 := by simp
    have hdl : (top :: b :: t).dropLast = top :: (b :: t).dropLast :=
      List.dropLast_cons_of_ne_nil hne
    have hlast : (top :: b :: t).getD ((top :: b :: t).length - 1) (0, 0) = (b :: t).getLast hne := by
      rw [List.getD_eq_getElem _ _ (by simp), List.getLast_eq_getElem]
      simp
    have hdlen : (top :: (b :: t).dropLast).length = (top :: b :: t).length - 1 := by simp
    simp only [pqPop, if_pos hlen, hdl, hlast]
    rw [← hdlen]
    refine (adjustHeap_perm comp _ _ (by simp)).trans ?_
    simp only [List.eraseIdx_cons_zero]
    have := List.dropLast_concat_getLast hne
    conv_rhs => rw [← this]
    exact (List.perm_append_singleton _ _).symm

/-! ### Relaxing one neighbour -/

theorem sum_map_le {α : Type} (f g : α → Nat) (l : List α) (h : ∀ x ∈ l, f x ≤ g x) :
    (l.map f).sum ≤ (l.map g).sum := by
  induction l with
  | nil => simp
  | cons a l ih =>
    have h1 := h a (List.mem_cons_self a l)
    have h2 := ih (fun x hx => h x (List.mem_cons_of_mem a hx))
    simp only [List.map_cons, List.sum_cons]
    omega

theorem sum_map_lt {α : Type} (f g : α → Nat) (l : List α) (h : ∀ x ∈ l, f x ≤ g x)
    (a : α) (ha : a ∈ l) (hlt : f a < g a) : (l.map f).sum < (l.map g).sum := by
  induction l with
  | nil => simp at ha
  | cons b l ih =>
    have h1 := h b (List.mem_cons_self b l)
    have h2 := sum_map_le f g l (fun x hx => h x (List.mem_cons_of_mem b hx))
    simp only [List.map_cons, List.sum_cons]
    rcases List.mem_cons.1 ha with rfl | hmem
    · omega
    · have := ih (fun x hx => h x (List.mem_cons_of_mem b hx)) hmem
      omega

theorem visitNeighbor_skip (goalX goalY x y : Int) (s : SearchState) (n : Coord)
    (h : ¬ (s.astar.maze.OpenCell n ∧ s.astar.cost y x + 1 < s.astar.cost n.2 n.1)) :
    visitNeighbor goalX goalY x y s n = s := by
  unfold visitNeighbor
  by_cases hg : n.1 ≥ 0 ∧ n.1 < s.astar.maze.getWidth ∧ n.2 ≥ 0 ∧ n.2 < s.astar.maze.getHeight ∧
      s.astar.maze.isWall n.1 n.2 = false
  · have ho : s.astar.maze.OpenCell n := ⟨⟨hg.1, hg.2.1, hg.2.2.1, hg.2.2.2.1⟩, hg.2.2.2.2⟩
    have hlt : ¬ (s.astar.cost y x + 1 < s.astar.cost n.2 n.1) := fun hl => h ⟨ho, hl⟩
    dsimp only
    rw [if_pos hg, if_neg hlt]
  · dsimp only
    rw [if_neg hg]

theorem visitNeighbor_update (goalX goalY x y : Int) (s : SearchState) (n : Coord)
    (ho : s.astar.maze.OpenCell n) (hlt : s.astar.cost y x + 1 < s.astar.cost n.2 n.1) :
    (visitNeighbor goalX goalY x y s n).astar.maze = s.astar.maze ∧
    (visitNeighbor goalX goalY x y s n).astar.cost =
      (fun y' x' => if y' = n.2 ∧ x' = n.1 then s.astar.cost y x + 1 else s.astar.cost y' x') ∧
    (visitNeighbor goalX goalY x y s n).astar.parent =
      (fun y' x' => if y' = n.2 ∧ x' = n.1 then (x, y) else s.astar.parent y' x') ∧
    (∀ y' x' : Int, (visitNeighbor goalX goalY x y s n).astar.inQueue y' x' =
      if y' = n.2 ∧ x' = n.1 then true else s.astar.inQueue y' x') ∧
    (if s.astar.inQueue n.2 n.1 = false
      then (visitNeighbor goalX goalY x y s n).frontier.Perm (n :: s.frontier)
      else (visitNeighbor goalX goalY x y s n).frontier = s.frontier) := by
  have hg : n.1 ≥ 0 ∧ n.1 < s.astar.maze.getWidth ∧ n.2 ≥ 0 ∧ n.2 < s.astar.maze.getHeight ∧
      s.astar.maze.isWall n.1 n.2 = false :=
    ⟨ho.1.1, ho.1.2.1, ho.1.2.2.1, ho.1.2.2.2, ho.2⟩
  unfold visitNeighbor
  dsimp only
  rw [if_pos hg, if_pos hlt]
  by_cases hq : s.astar.inQueue n.2 n.1 = false
  · rw [if_pos hq, if_pos hq]
    exact ⟨rfl, rfl, rfl, fun _ _ => rfl, pqPush_perm _ _ _⟩
  · rw [if_neg hq, if_neg hq]
    refine ⟨rfl, rfl, rfl, ?_, rfl⟩
    intro y' x'
    show s.astar.inQueue y' x' = _
    split_ifs with hyx
    · obtain ⟨rfl, rfl⟩ := hyx
      simpa using hq
    · rfl

theorem Maze.OpenReach.inBounds {m : Maze} {s c : Coord} (hs : m.inBounds s.1 s.2)
    (hr : m.OpenReach s c) : m.inBounds c.1 c.2 := by
  cases hr with
  | refl => exact hs
  | step _ hstep => exact hstep.2.1

theorem Adjacent4.ne {a b : Coord} (h : Adjacent4 a b) : a ≠ b := by
  intro hab
  subst hab
  unfold Adjacent4 at h
  omega

theorem SearchState.numFinite_le (s : SearchState) :
    s.numFinite ≤ (gridCells s.astar.maze.width s.astar.maze.height).length :=
  List.countP_le_length _

/-- A relaxation that lowers the cost of the open neighbour `n` of `cur` keeps the invariant of
the search loop and does not raise the measure. -/
theorem relax_spec {m : Maze} {start cur n : Coord} {s s' : SearchState}
    (hsize : ((gridCells m.width m.height).length : Int) < INT_MAX)
    (hstart : m.inBounds start.1 start.2)
    (hinv : SearchInv m start s) (hcl : s.Closure m (fun c => c = cur))
    (hcur : s.astar.cost cur.2 cur.1 ≠ INT_MAX)
    (hadj : Adjacent4 cur n) (ho : m.OpenCell n)
    (hlt : s.astar.cost cur.2 cur.1 + 1 < s.astar.cost n.2 n.1)
    (hmaze : s'.astar.maze = s.astar.maze)
    (hcost : s'.astar.cost = fun y' x' =>
      if y' = n.2 ∧ x' = n.1 then s.astar.cost cur.2 cur.1 + 1 else s.astar.cost y' x')
    (hparent : s'.astar.parent = fun y' x' =>
      if y' = n.2 ∧ x' = n.1 then cur else s.astar.parent y' x')
    (hinq : ∀ y' x' : Int, s'.astar.inQueue y' x' =
      if y' = n.2 ∧ x' = n.1 then true else s.astar.inQueue y' x')
    (hfr : if s.astar.inQueue n.2 n.1 = false then s'.frontier.Perm (n :: s.frontier)
      else s'.frontier = s.frontier) :
    SearchInv m start s' ∧ s'.Closure m (fun c => c = cur) ∧ s'.measure ≤ s.measure := by
  have hm : s.astar.maze = m := hinv.maze_eq
  have hm' : s'.astar.maze = m := hmaze.trans hm
  have hc' : ∀ x y : Int, s'.astar.cost y x =
      if y = n.2 ∧ x = n.1 then s.astar.cost cur.2 cur.1 + 1 else s.astar.cost y x := by
    intro x y; rw [hcost]
  have hp' : ∀ x y : Int, s'.astar.parent y x =
      if y = n.2 ∧ x = n.1 then cur else s.astar.parent y x := by
    intro x y; rw [hparent]
  have hnn : 0 ≤ s.astar.cost cur.2 cur.1 := hinv.cost_nonneg _ _
  have hne_cur : ¬ (cur.2 = n.2 ∧ cur.1 = n.1) := fun h => hadj.ne (Prod.ext h.2 h.1)
  have hne_start : ¬ (start.2 = n.2 ∧ start.1 = n.1) := by
    intro h
    have := hinv.cost_start
    rw [h.1, h.2] at this
    omega
  have hle : ∀ x y : Int, s'.astar.cost y x ≤ s.astar.cost y x := by
    intro x y
    rw [hc']
    split_ifs with h
    · rw [h.1, h.2]; omega
    · exact le_refl _
  have hnmem : n ∈ gridCells m.width m.height := (mem_gridCells _ _ _).2 ho.1
  -- the number of cells with a set cost
  have hnf : s.numFinite ≤ s'.numFinite ∧
      (s.astar.cost n.2 n.1 = INT_MAX → s.numFinite + 1 ≤ s'.numFinite) := by
    unfold SearchState.numFinite
    rw [hm, hm']
    have himp : ∀ x ∈ gridCells m.width m.height,
        decide (s.astar.cost x.2 x.1 ≠ INT_MAX) = true →
        decide (s'.astar.cost x.2 x.1 ≠ INT_MAX) = true := by
      intro x _ hx
      simp only [decide_eq_true_eq] at hx ⊢
      rw [hc']
      split_ifs with h
      · have hb := hinv.cost_bound _ _ hcur
        have := s.numFinite_le
        rw [hm] at this
        unfold INT_MAX at hsize ⊢
        omega
      · exact hx
    refine ⟨countP_le_of_imp _ _ _ himp, fun hinf => ?_⟩
    apply countP_lt_of_imp _ _ _ himp n hnmem
    · simpa using hinf
    · simp only [decide_eq_true_eq]
      rw [hc', if_pos ⟨rfl, rfl⟩]
      have hb := hinv.cost_bound _ _ hcur
      have := s.numFinite_le
      rw [hm] at this
      unfold INT_MAX at hsize ⊢
      omega
  have hnewfin : s.astar.cost cur.2 cur.1 + 1 ≠ INT_MAX := by
    have hb := hinv.cost_bound _ _ hcur
    have := s.numFinite_le
    rw [hm] at this
    unfold INT_MAX at hsize ⊢
    omega
  have hfin' : ∀ x y : Int, s.astar.cost y x ≠ INT_MAX → s'.astar.cost y x ≠ INT_MAX := by
    intro x y h
    rw [hc']
    split_ifs
    · exact hnewfin
    · exact h
  have hcurB : m.inBounds cur.1 cur.2 := (hinv.finite_reach _ _ hcur).inBounds hstart
  have hmemfr : ∀ c : Coord, c ∈ s'.frontier ↔ c = n ∨ c ∈ s.frontier := by
    intro c
    by_cases hq : s.astar.inQueue n.2 n.1 = false
    · rw [if_pos hq] at hfr
      rw [hfr.mem_iff, List.mem_cons]
    · rw [if_neg hq] at hfr
      rw [hfr]
      constructor
      · exact Or.inr
      · rintro (rfl | h)
        · exact (hinv.frontier_iff c).2 (by simpa using hq)
        · exact h
  refine ⟨?_, ?_, ?_⟩
  · refine
      { maze_eq := hm'
        cost_start := by rw [hc', if_neg hne_start]; exact hinv.cost_start
        parent_start := by rw [hp', if_neg hne_start]; exact hinv.parent_start
        cost_nonneg := ?_
        cost_bound := ?_
        finite_reach := ?_
        parent_ok := ?_
        parent_some := ?_
        frontier_nodup := ?_
        frontier_iff := ?_
        frontier_finite := ?_ }
    · intro x y
      rw [hc']
      split_ifs
      · omega
      · exact hinv.cost_nonneg x y
    · intro x y hfin
      rw [hc'] at hfin ⊢
      split_ifs at hfin ⊢ with h
      · by_cases hinf : s.astar.cost n.2 n.1 = INT_MAX
        · have h1 := hnf.2 hinf
          have h2 := hinv.cost_bound _ _ hcur
          omega
        · have h1 := hnf.1
          have h2 := hinv.cost_bound _ _ hinf
          omega
      · have h1 := hnf.1
        have h2 := hinv.cost_bound _ _ hfin
        omega
    · intro x y hfin
      rw [hc'] at hfin
      split_ifs at hfin with h
      · have hxy : ((x, y) : Coord) = n := Prod.ext h.2 h.1
        rw [hxy]
        exact Maze.OpenReach.step (hinv.finite_reach _ _ hcur) ⟨hadj, ho⟩
      · exact hinv.finite_reach x y hfin
    · intro x y hpar
      rw [hp'] at hpar ⊢
      split_ifs at hpar ⊢ with h
      · have hxy : ((x, y) : Coord) = n := Prod.ext h.2 h.1
        rw [hxy]
        refine ⟨⟨hadj, ho⟩, ?_, ?_⟩
        · rw [hc' x y, if_pos h]; exact hnewfin
        · rw [hc' cur.1 cur.2, if_neg hne_cur, hc' x y, if_pos h]; omega
      · obtain ⟨h1, h2, h3⟩ := hinv.parent_ok x y hpar
        refine ⟨h1, hfin' x y h2, ?_⟩
        have := hle (s.astar.parent y x).1 (s.astar.parent y x).2
        rw [hc' x y, if_neg h]
        omega
    · intro x y hfin hns
      rw [hp']
      rw [hc'] at hfin
      split_ifs at hfin ⊢ with h
      · intro hc
        have h0 : (0 : Int) ≤ cur.1 := hcurB.1
        rw [hc] at h0
        exact absurd h0 (by decide)
      · exact hinv.parent_some x y hfin hns
    · by_cases hq : s.astar.inQueue n.2 n.1 = false
      · rw [if_pos hq] at hfr
        rw [hfr.nodup_iff, List.nodup_cons]
        refine ⟨fun hmem => ?_, hinv.frontier_nodup⟩
        have := (hinv.frontier_iff n).1 hmem
        rw [hq] at this
        exact absurd this (by decide)
      · rw [if_neg hq] at hfr
        rw [hfr]
        exact hinv.frontier_nodup
    · intro c
      rw [hmemfr, hinq]
      by_cases h : c.2 = n.2 ∧ c.1 = n.1
      · rw [if_pos h]
        exact ⟨fun _ => rfl, fun _ => Or.inl (Prod.ext h.2 h.1)⟩
      · rw [if_neg h, ← hinv.frontier_iff c]
        constructor
        · rintro (rfl | hmem)
          · exact absurd ⟨rfl, rfl⟩ h
          · exact hmem
        · exact Or.inr
    · intro c hc
      rcases (hmemfr c).1 hc with rfl | hmem
      · rw [hc', if_pos ⟨rfl, rfl⟩]; exact hnewfin
      · exact hfin' _ _ (hinv.frontier_finite c hmem)
  · intro c hfin
    rw [hinq]
    by_cases h : c.2 = n.2 ∧ c.1 = n.1
    · rw [if_pos h]
      exact Or.inl rfl
    · rw [if_neg h]
      rw [hc', if_neg h] at hfin
      rcases hcl c hfin with h1 | h1 | h1
      · exact Or.inl h1
      · exact Or.inr (Or.inl h1)
      · refine Or.inr (Or.inr fun k hk => ?_)
        have := h1 k hk
        have hk' := hle k.1 k.2
        rw [hc' c.1 c.2, if_neg h]
        omega
  · unfold SearchState.measure
    rw [hm, hm']
    have hsum : ((gridCells m.width m.height).map fun c => (s'.astar.cost c.2 c.1).toNat).sum <
        ((gridCells m.width m.height).map fun c => (s.astar.cost c.2 c.1).toNat).sum := by
      apply sum_map_lt _ _ _ _ n hnmem
      · rw [hc', if_pos ⟨rfl, rfl⟩]
        have := hinv.cost_nonneg n.1 n.2
        omega
      · intro x _
        have := hle x.1 x.2
        have := hinv.cost_nonneg x.1 x.2
        omega
    have hlen : s'.frontier.length ≤ s.frontier.length + 1 := by
      by_cases hq : s.astar.inQueue n.2 n.1 = false
      · rw [if_pos hq] at hfr
        rw [hfr.length_eq]
        simp
      · rw [if_neg hq] at hfr
        rw [hfr]
        omega
    omega

/-! ### One iteration of the search loop -/

theorem mem_neighbors (c n : Coord) : n ∈ neighbors c.1 c.2 ↔ Adjacent4 c n := by
  obtain ⟨cx, cy⟩ := c
  obtain ⟨nx, ny⟩ := n
  simp only [neighbors, List.mem_cons, Prod.mk.injEq, List.mem_singleton, List.not_mem_nil,
    or_false, Adjacent4]
  constructor
  · rintro (⟨rfl, rfl⟩ | ⟨rfl, rfl⟩ | ⟨rfl, rfl⟩ | ⟨rfl, rfl⟩) <;> omega
  · intro h
    omega

theorem visitNeighbor_spec {m : Maze} {start cur n : Coord} {s : SearchState}
    (goalX goalY : Int)
    (hsize : ((gridCells m.width m.height).length : Int) < INT_MAX)
    (hstart : m.inBounds start.1 start.2)
    (hinv : SearchInv m start s) (hcl : s.Closure m (fun c => c = cur))
    (hcur : s.astar.cost cur.2 cur.1 ≠ INT_MAX) (hadj : Adjacent4 cur n) :
    SearchInv m start (visitNeighbor goalX goalY cur.1 cur.2 s n) ∧
    (visitNeighbor goalX goalY cur.1 cur.2 s n).Closure m (fun c => c = cur) ∧
    (visitNeighbor goalX goalY cur.1 cur.2 s n).measure ≤ s.measure ∧
    (∀ x y : Int, (visitNeighbor goalX goalY cur.1 cur.2 s n).astar.cost y x ≤ s.astar.cost y x) ∧
    (visitNeighbor goalX goalY cur.1 cur.2 s n).astar.cost cur.2 cur.1 = s.astar.cost cur.2 cur.1 ∧
    (m.OpenCell n → (visitNeighbor goalX goalY cur.1 cur.2 s n).astar.cost n.2 n.1 ≤
      s.astar.cost cur.2 cur.1 + 1) := by
  have hm : s.astar.maze = m := hinv.maze_eq
  by_cases h : s.astar.maze.OpenCell n ∧ s.astar.cost cur.2 cur.1 + 1 < s.astar.cost n.2 n.1
  · obtain ⟨h1, h2, h3, h4, h5⟩ := visitNeighbor_update goalX goalY cur.1 cur.2 s n h.1 h.2
    have ho : m.OpenCell n := hm ▸ h.1
    obtain ⟨r1, r2, r3⟩ := relax_spec hsize hstart hinv hcl hcur hadj ho h.2 h1 h2 h3 h4 h5
    have hne_cur : ¬ (cur.2 = n.2 ∧ cur.1 = n.1) := fun hh => hadj.ne (Prod.ext hh.2 hh.1)
    refine ⟨r1, r2, r3, ?_, ?_, ?_⟩
    · intro x y
      rw [h2]
      dsimp only
      split_ifs with hxy
      · rw [hxy.1, hxy.2]; omega
      · exact le_refl _
    · rw [h2]
      dsimp only
      rw [if_neg hne_cur]
    · intro _
      rw [h2]
      dsimp only
      rw [if_pos ⟨rfl, rfl⟩]
  · rw [visitNeighbor_skip goalX goalY cur.1 cur.2 s n h]
    refine ⟨hinv, hcl, le_refl _, fun _ _ => le_refl _, rfl, ?_⟩
    intro ho
    have ho' : s.astar.maze.OpenCell n := hm.symm ▸ ho
    have : ¬ (s.astar.cost cur.2 cur.1 + 1 < s.astar.cost n.2 n.1) := fun hh => h ⟨ho', hh⟩
    omega

theorem foldl_visitNeighbor_spec {m : Maze} {start cur : Coord} (goalX goalY : Int)
    (hsize : ((gridCells m.width m.height).length : Int) < INT_MAX)
    (hstart : m.inBounds start.1 start.2) :
    ∀ (ns : List Coord) (s : SearchState), (∀ n ∈ ns, Adjacent4 cur n) →
      SearchInv m start s → s.Closure m (fun c => c = cur) →
      s.astar.cost cur.2 cur.1 ≠ INT_MAX →
      SearchInv m start (ns.foldl (visitNeighbor goalX goalY cur.1 cur.2) s) ∧
      (ns.foldl (visitNeighbor goalX goalY cur.1 cur.2) s).Closure m (fun c => c = cur) ∧
      (ns.foldl (visitNeighbor goalX goalY cur.1 cur.2) s).measure ≤ s.measure ∧
      (∀ x y : Int, (ns.foldl (visitNeighbor goalX goalY cur.1 cur.2) s).astar.cost y x ≤
        s.astar.cost y x) ∧
      (ns.foldl (visitNeighbor goalX goalY cur.1 cur.2) s).astar.cost cur.2 cur.1 =
        s.astar.cost cur.2 cur.1 ∧
      (∀ n ∈ ns, m.OpenCell n →
        (ns.foldl (visitNeighbor goalX goalY cur.1 cur.2) s).astar.cost n.2 n.1 ≤
          s.astar.cost cur.2 cur.1 + 1) := by
  intro ns
  induction ns with
  | nil =>
    intro s _ hinv hcl _
    exact ⟨hinv, hcl, le_refl _, fun _ _ => le_refl _, rfl, fun n hn => absurd hn (List.not_mem_nil n)⟩
  | cons a ns ih =>
    intro s hadj hinv hcl hcur
    obtain ⟨v1, v2, v3, v4, v5, v6⟩ := visitNeighbor_spec goalX goalY hsize hstart hinv hcl hcur
      (hadj a (List.mem_cons_self a ns))
    have hcur' : (visitNeighbor goalX goalY cur.1 cur.2 s a).astar.cost cur.2 cur.1 ≠ INT_MAX := by
      rw [v5]; exact hcur
    obtain ⟨r1, r2, r3, r4, r5, r6⟩ := ih (visitNeighbor goalX goalY cur.1 cur.2 s a)
      (fun n hn => hadj n (List.mem_cons_of_mem a hn)) v1 v2 hcur'
    simp only [List.foldl_cons]
    refine ⟨r1, r2, le_trans r3 v3, fun x y => le_trans (r4 x y) (v4 x y), r5.trans v5, ?_⟩
    intro n hn ho
    rcases List.mem_cons.1 hn with rfl | hmem
    · exact le_trans (r4 _ _) (v6 ho)
    · have := r6 n hmem ho
      rw [v5] at this
      exact this

/-- Popping the front of the queue. -/
theorem pop_spec {m : Maze} {start cur : Coord} {rest : List Coord} {s : SearchState}
    (comp : Coord → Coord → Bool)
    (hinv : SearchInv m start s) (hcl : s.Closure m (fun _ => False))
    (hfr : s.frontier = cur :: rest) :
    SearchInv m start
      { astar := { s.astar with
          inQueue := fun y' x' => if y' = cur.2 ∧ x' = cur.1 then false else s.astar.inQueue y' x' }
        frontier := pqPop comp s.frontier } ∧
    SearchState.Closure m
      { astar := { s.astar with
          inQueue := fun y' x' => if y' = cur.2 ∧ x' = cur.1 then false else s.astar.inQueue y' x' }
        frontier := pqPop comp s.frontier } (fun c => c = cur) ∧
    SearchState.measure
      { astar := { s.astar with
          inQueue := fun y' x' => if y' = cur.2 ∧ x' = cur.1 then false else s.astar.inQueue y' x' }
        frontier := pqPop comp s.frontier } + 1 = s.measure ∧
    s.astar.cost cur.2 cur.1 ≠ INT_MAX := by
  have hperm : (cur :: pqPop comp s.frontier).Perm s.frontier := by
    rw [hfr]; exact pqPop_perm comp cur rest
  have hnd : (cur :: pqPop comp s.frontier).Nodup := hperm.nodup_iff.2 hinv.frontier_nodup
  have hcurmem : cur ∈ s.frontier := by rw [hfr]; exact List.mem_cons_self _ _
  refine ⟨?_, ?_, ?_, hinv.frontier_finite cur hcurmem⟩
  · exact
      { maze_eq := hinv.maze_eq
        cost_start := hinv.cost_start
        parent_start := hinv.parent_start
        cost_nonneg := hinv.cost_nonneg
        cost_bound := hinv.cost_bound
        finite_reach := hinv.finite_reach
        parent_ok := hinv.parent_ok
        parent_some := hinv.parent_some
        frontier_nodup := (List.nodup_cons.1 hnd).2
        frontier_iff := by
          intro c
          show c ∈ pqPop comp s.frontier ↔
            (if c.2 = cur.2 ∧ c.1 = cur.1 then false else s.astar.inQueue c.2 c.1) = true
          by_cases h : c.2 = cur.2 ∧ c.1 = cur.1
          · have hc : c = cur := Prod.ext h.2 h.1
            rw [if_pos h, hc]
            constructor
            · intro hmem
              exact absurd hmem (List.nodup_cons.1 hnd).1
            · intro hf
              exact absurd hf (by decide)
          · rw [if_neg h, ← hinv.frontier_iff c, ← hperm.mem_iff, List.mem_cons]
            constructor
            · exact Or.inr
            · rintro (rfl | hmem)
              · exact absurd ⟨rfl, rfl⟩ h
              · exact hmem
        frontier_finite := by
          intro c hc
          exact hinv.frontier_finite c (hperm.mem_iff.1 (List.mem_cons_of_mem _ hc)) }
  · intro c hfin
    show (if c.2 = cur.2 ∧ c.1 = cur.1 then false else s.astar.inQueue c.2 c.1) = true ∨ _
    by_cases h : c.2 = cur.2 ∧ c.1 = cur.1
    · exact Or.inr (Or.inl (Prod.ext h.2 h.1))
    · rw [if_neg h]
      rcases hcl c hfin with h1 | h1 | h1
      · exact Or.inl h1
      · exact absurd h1 id
      · exact Or.inr (Or.inr h1)
  · have hlen := hperm.length_eq
    simp only [List.length_cons] at hlen
    show ((gridCells s.astar.maze.width s.astar.maze.height).map fun c =>
        (s.astar.cost c.2 c.1).toNat).sum + (pqPop comp s.frontier).length + 1 =
      ((gridCells s.astar.maze.width s.astar.maze.height).map fun c =>
        (s.astar.cost c.2 c.1).toNat).sum + s.frontier.length
    omega

/-! ### The search loop -/

theorem searchLoop_nil (goalX goalY : Int) (fuel : Nat) (s : SearchState)
    (h : s.frontier = []) : searchLoop goalX goalY (fuel + 1) s = s := by
  simp only [searchLoop, h]

theorem searchLoop_cons (goalX goalY : Int) (fuel : Nat) (s : SearchState) (cur : Coord)
    (rest : List Coord) (h : s.frontier = cur :: rest) :
    searchLoop goalX goalY (fuel + 1) s =
      if cur.1 = goalX ∧ cur.2 = goalY then
        { astar := { s.astar with
            inQueue := fun y' x' =>
              if y' = cur.2 ∧ x' = cur.1 then false else s.astar.inQueue y' x' }
          frontier := pqPop (AStar.cmp s.astar.cost goalX goalY) s.frontier }
      else
        searchLoop goalX goalY fuel
          ((neighbors cur.1 cur.2).foldl (visitNeighbor goalX goalY cur.1 cur.2)
            { astar := { s.astar with
                inQueue := fun y' x' =>
                  if y' = cur.2 ∧ x' = cur.1 then false else s.astar.inQueue y' x' }
              frontier := pqPop (AStar.cmp s.astar.cost goalX goalY) s.frontier }) := by
  simp only [searchLoop, h]

/-- The search loop, run with at least `measure` fuel, keeps the invariant and stops either
with the goal popped (its cost is set) or with an empty frontier and every cell with a set cost
expanded: the fuel is not exhausted. -/
theorem searchLoop_spec {m : Maze} {start : Coord} (goalX goalY : Int)
    (hsize : ((gridCells m.width m.height).length : Int) < INT_MAX)
    (hstart : m.inBounds start.1 start.2) :
    ∀ (fuel : Nat) (s : SearchState), SearchInv m start s → s.Closure m (fun _ => False) →
      s.measure ≤ fuel →
      SearchInv m start (searchLoop goalX goalY fuel s) ∧
      ((searchLoop goalX goalY fuel s).astar.cost goalY goalX ≠ INT_MAX ∨
        ((searchLoop goalX goalY fuel s).frontier = [] ∧
          (searchLoop goalX goalY fuel s).Closure m (fun _ => False))) := by
  intro fuel
  induction fuel with
  | zero =>
    intro s hinv hcl hm
    have hlen : s.frontier.length = 0 := by
      unfold SearchState.measure at hm
      omega
    exact ⟨hinv, Or.inr ⟨List.length_eq_zero.1 hlen, hcl⟩⟩
  | succ fuel ih =>
    intro s hinv hcl hm
    cases hfr : s.frontier with
    | nil =>
      rw [searchLoop_nil goalX goalY fuel s hfr]
      exact ⟨hinv, Or.inr ⟨hfr, hcl⟩⟩
    | cons cur rest =>
      obtain ⟨p1, p2, p3, p4⟩ := pop_spec (AStar.cmp s.astar.cost goalX goalY) hinv hcl hfr
      rw [searchLoop_cons goalX goalY fuel s cur rest hfr]
      split_ifs with hgoal
      · refine ⟨p1, Or.inl ?_⟩
        show s.astar.cost goalY goalX ≠ INT_MAX
        rw [← hgoal.1, ← hgoal.2]
        exact p4
      · obtain ⟨f1, f2, f3, _, f5, f6⟩ := foldl_visitNeighbor_spec goalX goalY hsize hstart
          (neighbors cur.1 cur.2) _ (fun n hn => (mem_neighbors cur n).1 hn) p1 p2 p4
        apply ih _ f1
        · intro c hfin
          rcases f2 c hfin with h1 | h1 | h1
          · exact Or.inl h1
          · subst h1
            refine Or.inr (Or.inr fun n hn => ?_)
            have := f6 n ((mem_neighbors c n).2 hn.1) hn.2
            rw [f5]
            exact this
          · exact Or.inr (Or.inr h1)
        · omega

/-- When the search ends with an empty frontier, every cell reachable from the start has a set
cost. -/
theorem reach_finite {m : Maze} {start : Coord} {r : SearchState}
    (hsize : ((gridCells m.width m.height).length : Int) < INT_MAX)
    (hinv : SearchInv m start r) (hnil : r.frontier = [])
    (hcl : r.Closure m (fun _ => False)) :
    ∀ c : Coord, m.OpenReach start c → r.astar.cost c.2 c.1 ≠ INT_MAX := by
  intro c hr
  induction hr with
  | refl =>
    rw [hinv.cost_start]
    decide
  | step _ hstep ih =>
    rename_i a b _
    rcases hcl a ih with h1 | h1 | h1
    · have := (hinv.frontier_iff a).2 h1
      rw [hnil] at this
      exact absurd this (List.not_mem_nil a)
    · exact absurd h1 id
    · have h2 := h1 b hstep
      have h3 := hinv.cost_bound _ _ ih
      have h4 := r.numFinite_le
      rw [hinv.maze_eq] at h4
      unfold INT_MAX at hsize ⊢
      omega

/-! ### Reconstruction of the path -/

theorem Maze.OpenPath.concat {m : Maze} : ∀ (l : List Coord) (p c : Coord),
    m.OpenPath l → l.getLast? = some p → m.Step p c → m.OpenPath (l ++ [c])
  | [], _, _, _, hl, _ => by simp at hl
  | [a], p, c, _, hl, hs => by
    simp only [List.getLast?_singleton, Option.some.injEq] at hl
    subst hl
    exact ⟨hs, trivial⟩
  | a :: b :: l, p, c, hp, hl, hs => by
    have hl' : (b :: l).getLast? = some p := by
      rw [List.getLast?_cons_cons] at hl
      exact hl
    exact ⟨hp.1, Maze.OpenPath.concat (b :: l) p c hp.2 hl' hs⟩

/-- Following the predecessor links from a cell with a set cost produces, in reverse, an open
path from the start to that cell; `fuel` above the cost suffices. -/
theorem reconstruct_spec {m : Maze} {start : Coord} {r : SearchState}
    (hsize : ((gridCells m.width m.height).length : Int) < INT_MAX)
    (hstart : m.inBounds start.1 start.2) (hinv : SearchInv m start r) :
    ∀ (k : Nat) (c : Coord), r.astar.cost c.2 c.1 ≠ INT_MAX → (r.astar.cost c.2 c.1).toNat ≤ k →
      ∀ (fuel : Nat) (acc : List Coord), k < fuel →
        ∃ chain : List Coord, reconstruct r.astar.parent fuel c acc = acc ++ chain ∧
          chain.head? = some c ∧ chain.getLast? = some start ∧ m.OpenPath chain.reverse := by
  intro k
  induction k with
  | zero =>
    intro c hfin hk fuel acc hfuel
    obtain ⟨fuel, rfl⟩ : ∃ f, fuel = f + 1 := ⟨fuel - 1, by omega⟩
    have hcB : m.inBounds c.1 c.2 := (hinv.finite_reach _ _ hfin).inBounds hstart
    have hne : c ≠ (-1, -1) := by
      intro h
      have h0 : (0 : Int) ≤ c.1 := hcB.1
      rw [h] at h0
      exact absurd h0 (by decide)
    have hcs : c = start := by
      by_contra hns
      have hp := hinv.parent_some c.1 c.2 hfin hns
      obtain ⟨_, _, h3⟩ := hinv.parent_ok c.1 c.2 hp
      have h4 := hinv.cost_nonneg (r.astar.parent c.2 c.1).1 (r.astar.parent c.2 c.1).2
      omega
    simp only [reconstruct, if_pos hne]
    rw [hcs, hinv.parent_start, reconstruct_sentinel]
    exact ⟨[start], rfl, rfl, rfl, trivial⟩
  | succ k ih =>
    intro c hfin hk fuel acc hfuel
    obtain ⟨fuel, rfl⟩ : ∃ f, fuel = f + 1 := ⟨fuel - 1, by omega⟩
    have hcB : m.inBounds c.1 c.2 := (hinv.finite_reach _ _ hfin).inBounds hstart
    have hne : c ≠ (-1, -1) := by
      intro h
      have h0 : (0 : Int) ≤ c.1 := hcB.1
      rw [h] at h0
      exact absurd h0 (by decide)
    simp only [reconstruct, if_pos hne]
    by_cases hcs : c = start
    · rw [hcs, hinv.parent_start, reconstruct_sentinel]
      exact ⟨[start], rfl, rfl, rfl, trivial⟩
    · have hp := hinv.parent_some c.1 c.2 hfin hcs
      obtain ⟨h1, _, h3⟩ := hinv.parent_ok c.1 c.2 hp
      have h4 := hinv.cost_nonneg (r.astar.parent c.2 c.1).1 (r.astar.parent c.2 c.1).2
      have hpfin : r.astar.cost (r.astar.parent c.2 c.1).2 (r.astar.parent c.2 c.1).1 ≠ INT_MAX := by
        have h5 := hinv.cost_bound _ _ hfin
        have h6 := r.numFinite_le
        rw [hinv.maze_eq] at h6
        unfold INT_MAX at hsize ⊢
        omega
      obtain ⟨chain, e1, e2, e3, e4⟩ := ih (r.astar.parent c.2 c.1) hpfin (by omega) fuel
        (acc ++ [c]) (by omega)
      refine ⟨c :: chain, by rw [e1]; simp, rfl, ?_, ?_⟩
      · cases chain with
        | nil => simp at e2
        | cons a t => rw [List.getLast?_cons_cons]; exact e3
      · rw [List.reverse_cons]
        apply Maze.OpenPath.concat _ (r.astar.parent c.2 c.1) c e4
        · rw [List.getLast?_reverse]; exact e2
        · exact h1

/-! ### `findPath` returns a valid path to a reachable goal -/

theorem length_gridCells_cast (w h : Int) (hw : 0 ≤ w) (hh : 0 ≤ h) :
    ((gridCells w h).length : Int) = w * h ∧ (gridCells w h).length = (w * h).toNat := by
  obtain ⟨W, rfl⟩ := Int.eq_ofNat_of_zero_le hw
  obtain ⟨H, rfl⟩ := Int.eq_ofNat_of_zero_le hh
  rw [length_gridCells]
  constructor
  · simp [mul_comm]
  · have hc : ((W : Int) * (H : Int)) = ((W * H : Nat) : Int) := by push_cast; ring
    rw [hc]
    simp only [Int.toNat_natCast, Int.toNat_ofNat]
    exact mul_comm _ _

/-- The state in which `findPath` enters its loop. -/
theorem searchInit_spec (a : AStar) (startX startY goalX goalY : Int)
    (hstart : a.maze.inBounds startX startY) :
    SearchInv a.maze (startX, startY) (searchInit a startX startY goalX goalY) ∧
    SearchState.Closure a.maze (searchInit a startX startY goalX goalY) (fun _ => False) ∧
    (searchInit a startX startY goalX goalY).measure ≤
      searchFuel a.maze.getWidth a.maze.getHeight := by
  unfold searchInit
  dsimp only
  rw [pqPush_nil]
  have hfinite : ∀ x y : Int,
      (if y = startY ∧ x = startX then (0 : Int) else INT_MAX) ≠ INT_MAX →
      y = startY ∧ x = startX := by
    intro x y h
    by_contra hne
    rw [if_neg hne] at h
    exact h rfl
  refine ⟨?_, ?_, ?_⟩
  · exact
      { maze_eq := rfl
        cost_start := if_pos ⟨rfl, rfl⟩
        parent_start := rfl
        cost_nonneg := by
          intro x y
          show 0 ≤ (if y = startY ∧ x = startX then (0 : Int) else INT_MAX)
          split_ifs
          · exact le_refl _
          · decide
        cost_bound := by
          intro x y h
          have hxy := hfinite x y h
          show (if y = startY ∧ x = startX then (0 : Int) else INT_MAX) + 1 ≤ _
          rw [if_pos hxy]
          have hpos : 0 < (gridCells a.maze.width a.maze.height).countP
              (fun c => decide ((if c.2 = startY ∧ c.1 = startX then (0 : Int) else INT_MAX) ≠
                INT_MAX)) := by
            rw [List.countP_pos_iff]
            refine ⟨(startX, startY), (mem_gridCells _ _ _).2 hstart, ?_⟩
            show decide ((if startY = startY ∧ startX = startX then (0 : Int) else INT_MAX) ≠
              INT_MAX) = true
            rw [if_pos ⟨rfl, rfl⟩]
            decide
          show (0 : Int) + 1 ≤ ((gridCells a.maze.width a.maze.height).countP
              (fun c => decide ((if c.2 = startY ∧ c.1 = startX then (0 : Int) else INT_MAX) ≠
                INT_MAX)) : Nat)
          omega
        finite_reach := by
          intro x y h
          have hxy := hfinite x y h
          rw [hxy.1, hxy.2]
          exact Maze.OpenReach.refl
        parent_ok := fun _ _ h => absurd rfl h
        parent_some := by
          intro x y h hns
          have hxy := hfinite x y h
          exact absurd (Prod.ext hxy.2 hxy.1) hns
        frontier_nodup := List.nodup_singleton _
        frontier_iff := by
          intro c
          show c ∈ [(startX, startY)] ↔ (if c.2 = startY ∧ c.1 = startX then true else false) = true
          rw [List.mem_singleton]
          constructor
          · intro h
            rw [h, if_pos ⟨rfl, rfl⟩]
          · intro h
            by_cases hc : c.2 = startY ∧ c.1 = startX
            · exact Prod.ext hc.2 hc.1
            · rw [if_neg hc] at h
              exact absurd h (by decide)
        frontier_finite := by
          intro c hc
          rw [List.mem_singleton] at hc
          show (if c.2 = startY ∧ c.1 = startX then (0 : Int) else INT_MAX) ≠ INT_MAX
          rw [hc, if_pos ⟨rfl, rfl⟩]
          decide }
  · intro c h
    have hxy := hfinite c.1 c.2 h
    refine Or.inl ?_
    show (if c.2 = startY ∧ c.1 = startX then true else false) = true
    rw [if_pos hxy]
  · have hw : 0 ≤ a.maze.width := le_of_lt (lt_of_le_of_lt hstart.1 hstart.2.1)
    have hh : 0 ≤ a.maze.height := le_of_lt (lt_of_le_of_lt hstart.2.2.1 hstart.2.2.2)
    have hlen := (length_gridCells_cast a.maze.width a.maze.height hw hh).2
    have hsum : ((gridCells a.maze.width a.maze.height).map fun c =>
        ((if c.2 = startY ∧ c.1 = startX then (0 : Int) else INT_MAX)).toNat).sum ≤
        ((gridCells a.maze.width a.maze.height).map fun _ => INT_MAX.toNat).sum := by
      apply sum_map_le
      intro x _
      split_ifs
      · exact Nat.zero_le _
      · exact le_refl _
    have hconst : ((gridCells a.maze.width a.maze.height).map fun _ => INT_MAX.toNat).sum =
        (gridCells a.maze.width a.maze.height).length * INT_MAX.toNat := by
      simp [List.map_const', List.sum_replicate]
    show ((gridCells a.maze.width a.maze.height).map fun c =>
        ((if c.2 = startY ∧ c.1 = startX then (0 : Int) else INT_MAX)).toNat).sum + 1 ≤
      (a.maze.width * a.maze.height).toNat * INT_MAX.toNat + 1
    rw [hconst, hlen] at hsum
    omega

/-- The reversed chain of predecessors of a cell with a set cost is an open path from the start
to that cell. -/
theorem reconstruct_reverse_spec {m : Maze} {start goal : Coord} {r : SearchState}
    (hsize : ((gridCells m.width m.height).length : Int) < INT_MAX)
    (hstart : m.inBounds start.1 start.2) (hinv : SearchInv m start r)
    (hfin : r.astar.cost goal.2 goal.1 ≠ INT_MAX) (fuel : Nat)
    (hfuel : (gridCells m.width m.height).length < fuel) :
    (reconstruct r.astar.parent fuel goal []).reverse ≠ [] ∧
    (reconstruct r.astar.parent fuel goal []).reverse.head? = some start ∧
    (reconstruct r.astar.parent fuel goal []).reverse.getLast? = some goal ∧
    m.OpenPath (reconstruct r.astar.parent fuel goal []).reverse := by
  have hbound := hinv.cost_bound _ _ hfin
  have hnf := r.numFinite_le
  rw [hinv.maze_eq] at hnf
  have hnn := hinv.cost_nonneg goal.1 goal.2
  obtain ⟨chain, e1, e2, e3, e4⟩ := reconstruct_spec hsize hstart hinv _ goal hfin (le_refl _)
    fuel [] (by omega)
  rw [e1, List.nil_append]
  refine ⟨?_, ?_, ?_, e4⟩
  · intro h
    rw [List.reverse_eq_nil_iff] at h
    rw [h] at e2
    simp at e2
  · rw [List.head?_reverse]; exact e3
  · rw [List.getLast?_reverse]; exact e2

/-- C2. For every maze with fewer than `INT_MAX` cells and every in-bounds start and goal with
the goal reachable from the start through open cells, the sequence returned by `findPath` is
non-empty, begins with `(startX, startY)`, ends with `(goalX, goalY)`, and each of its elements
after the first is an in-bounds cell with `isWall` false that is 4-adjacent to the element
before it. -/
theorem findPath_valid (a : AStar) (startX startY goalX goalY : Int)
    (hs : a.maze.inBounds startX startY) (_hg : a.maze.inBounds goalX goalY)
    (hcells : a.maze.width * a.maze.height < INT_MAX)
    (hreach : a.maze.OpenReach (startX, startY) (goalX, goalY)) :
    a.findPath startX startY goalX goalY ≠ [] ∧
    (a.findPath startX startY goalX goalY).head? = some (startX, startY) ∧
    (a.findPath startX startY goalX goalY).getLast? = some (goalX, goalY) ∧
    a.maze.OpenPath (a.findPath startX startY goalX goalY) := by
  have hw : 0 ≤ a.maze.width := le_of_lt (lt_of_le_of_lt hs.1 hs.2.1)
  have hh : 0 ≤ a.maze.height := le_of_lt (lt_of_le_of_lt hs.2.2.1 hs.2.2.2)
  obtain ⟨hlen1, hlen2⟩ := length_gridCells_cast a.maze.width a.maze.height hw hh
  have hsize : ((gridCells a.maze.width a.maze.height).length : Int) < INT_MAX := by
    rw [hlen1]; exact hcells
  obtain ⟨i1, i2, i3⟩ := searchInit_spec a startX startY goalX goalY hs
  obtain ⟨l1, l2⟩ := searchLoop_spec goalX goalY hsize hs _ _ i1 i2 i3
  have hfin := l2.elim id (fun h => reach_finite hsize l1 h.1 h.2 (goalX, goalY) hreach)
  exact reconstruct_reverse_spec hsize hs l1 hfin ((a.maze.width * a.maze.height).toNat + 1)
    (by rw [hlen2]; exact Nat.lt_succ_self _)

/-- C2 on `detourMaze` with start `(0, 3)` and goal `(5, 1)`. -/
theorem findPath_valid_witness :
    (AStar.new detourMaze).findPath 0 3 5 1 ≠ [] ∧
    ((AStar.new detourMaze).findPath 0 3 5 1).head? = some (0, 3) ∧
    ((AStar.new detourMaze).findPath 0 3 5 1).getLast? = some (5, 1) ∧
    detourMaze.OpenPath ((AStar.new detourMaze).findPath 0 3 5 1) :=
  findPath_valid (AStar.new detourMaze) 0 3 5 1 (by decide) (by decide) (by decide)
    (Maze.OpenReach.step (Maze.OpenReach.step (Maze.OpenReach.step (Maze.OpenReach.step
      (Maze.OpenReach.step (Maze.OpenReach.step (Maze.OpenReach.step Maze.OpenReach.refl
        (by decide : detourMaze.Step (0, 3) (1, 3)))
        (by decide : detourMaze.Step (1, 3) (2, 3)))
        (by decide : detourMaze.Step (2, 3) (3, 3)))
        (by decide : detourMaze.Step (3, 3) (4, 3)))
        (by decide : detourMaze.Step (4, 3) (5, 3)))
        (by decide : detourMaze.Step (5, 3) (5, 2)))
        (by decide : detourMaze.Step (5, 2) (5, 1)))

/-! ### The 3 × 3 scenario: distance to the goal along the path -/

/-- C11, as stated, fails: on the all-open 3 × 3 grid the Manhattan distances to the goal
`(2, 2)` along the path returned by `findPath(0, 0, 2, 2)` are 4, 3, 2, 1, 0; the sequence is
not non-decreasing, already from the first step (4 to 3). -/
theorem open3x3_distances_not_nonDecreasing :
    distancesToGoal ((AStar.new open3x3).findPath 0 0 2 2) 2 2 = [4, 3, 2, 1, 0] ∧
    nonDecreasing (distancesToGoal ((AStar.new open3x3).findPath 0 0 2 2) 2 2) = false := by
  decide

/-- C11, amended. On every 3 × 3 grid in which no cell is a wall, along the path returned by
`findPath(0, 0, 2, 2)` the Manhattan distance to the goal `(2, 2)` is non-increasing from one
step to the next: it is 4, 3, 2, 1, 0. -/
theorem findPath_open3x3_distances (a : AStar) (hw : a.maze.width = 3) (hh : a.maze.height = 3)
    (hopen : ∀ x y : Int, a.maze.inBounds x y → a.maze.isWall x y = false) :
    distancesToGoal (a.findPath 0 0 2 2) 2 2 = [4, 3, 2, 1, 0] ∧
    nonIncreasing (distancesToGoal (a.findPath 0 0 2 2) 2 2) = true := by
  have hsame : a.maze.SameWalls open3x3 := by
    refine ⟨hw, hh, ?_⟩
    intro x y hb
    rw [hopen x y hb]
    obtain ⟨h1, h2, h3, h4⟩ := hb
    rw [hw] at h2
    rw [hh] at h4
    have hx : x = 0 ∨ x = 1 ∨ x = 2 := by omega
    have hy : y = 0 ∨ y = 1 ∨ y = 2 := by omega
    rcases hx with rfl | rfl | rfl <;> rcases hy with rfl | rfl | rfl <;> decide
  rw [findPath_sameWalls a (AStar.new open3x3) hsame]
  decide

/-- C11, amended, on the 3 × 3 maze opened cell by cell through `setStartAndEndPoint`. -/
theorem findPath_open3x3_distances_witness :
    distancesToGoal ((AStar.new open3x3).findPath 0 0 2 2) 2 2 = [4, 3, 2, 1, 0] ∧
    nonIncreasing (distancesToGoal ((AStar.new open3x3).findPath 0 0 2 2) 2 2) = true :=
  findPath_open3x3_distances (AStar.new open3x3) (by decide) (by decide) (by
    intro x y hb
    obtain ⟨h1, h2, h3, h4⟩ := hb
    have h2' : x < 3 := h2
    have h4' : y < 3 := h4
    have hx : x = 0 ∨ x = 1 ∨ x = 2 := by omega
    have hy : y = 0 ∨ y = 1 ∨ y = 2 := by omega
    rcases hx with rfl | rfl | rfl <;> rcases hy with rfl | rfl | rfl <;> decide)

/-! ### `findPath` does not read the tables left by an earlier call -/

theorem visitNeighbor_maze (goalX goalY x y : Int) (s : SearchState) (next : Coord) :
    (visitNeighbor goalX goalY x y s next).astar.maze = s.astar.maze := by
  unfold visitNeighbor
  dsimp only
  split_ifs <;> rfl

theorem foldl_visitNeighbor_maze (goalX goalY x y : Int) (ns : List Coord) :
    ∀ s : SearchState,
      (ns.foldl (visitNeighbor goalX goalY x y) s).astar.maze = s.astar.maze := by
  induction ns with
  | nil => intro s; rfl
  | cons n ns ih =>
    intro s
    rw [List.foldl_cons, ih, visitNeighbor_maze]

theorem searchLoop_maze (goalX goalY : Int) (fuel : Nat) :
    ∀ s : SearchState, (searchLoop goalX goalY fuel s).astar.maze = s.astar.maze := by
  induction fuel with
  | zero => intro s; rfl
  | succ fuel ih =>
    intro s
    cases hfr : s.frontier with
    | nil => rw [searchLoop_nil goalX goalY fuel s hfr]
    | cons cur rest =>
      rw [searchLoop_cons goalX goalY fuel s cur rest hfr]
      split_ifs
      · rfl
      · rw [ih, foldl_visitNeighbor_maze]

theorem findPathRun_maze (a : AStar) (startX startY goalX goalY : Int) :
    (a.findPathRun startX startY goalX goalY).1.maze = a.maze := by
  simp only [AStar.findPathRun]
  rw [searchLoop_maze]
  rfl

/-- C16. The path and the tables that `findPath` leaves are the same for any two `AStar`
objects bound to the same maze, whatever their cost, parent and inQueue tables hold before the
call; so a `findPath` call made after an earlier `findPath` call on the same object returns the
path that a freshly constructed `AStar` returns. -/
theorem findPath_no_state_leak (maze : Maze) (cost1 cost2 : Int → Int → Int)
    (parent1 parent2 : Int → Int → Coord) (inQueue1 inQueue2 : Int → Int → Bool)
    (a : AStar) (startX startY goalX goalY prevStartX prevStartY prevGoalX prevGoalY : Int) :
    AStar.findPathRun ⟨maze, cost1, parent1, inQueue1⟩ startX startY goalX goalY =
      AStar.findPathRun ⟨maze, cost2, parent2, inQueue2⟩ startX startY goalX goalY ∧
    (a.findPathRun prevStartX prevStartY prevGoalX prevGoalY).1.findPath
        startX startY goalX goalY =
      (AStar.new a.maze).findPath startX startY goalX goalY := by
  refine ⟨rfl, ?_⟩
  have hm := findPathRun_maze a prevStartX prevStartY prevGoalX prevGoalY
  generalize (a.findPathRun prevStartX prevStartY prevGoalX prevGoalY).1 = b at hm
  obtain ⟨bm, bc, bp, bq⟩ := b
  simp only at hm
  subst hm
  rfl

/-! ### `findPath` with an unreachable goal -/

theorem Maze.OpenReach.eq_or_open {m : Maze} {s c : Coord} (hr : m.OpenReach s c) :
    c = s ∨ m.OpenCell c := by
  cases hr with
  | refl => exact Or.inl rfl
  | step _ hstep => exact Or.inr hstep.2

/-- C19. For every maze with fewer than `INT_MAX` cells and every in-bounds start and goal with
goal ≠ start, if the goal is not reachable from the start through open cells, `findPath`
returns the one-element sequence `[(goalX, goalY)]`, which has the length of the result of the
start = goal search `findPath(goalX, goalY, goalX, goalY)`. -/
theorem findPath_unreached_goal (a : AStar) (startX startY goalX goalY : Int)
    (hs : a.maze.inBounds startX startY) (hg : a.maze.inBounds goalX goalY)
    (hcells : a.maze.width * a.maze.height < INT_MAX)
    (_hne : ((goalX, goalY) : Coord) ≠ (startX, startY))
    (hun : ¬ a.maze.OpenReach (startX, startY) (goalX, goalY)) :
    a.findPath startX startY goalX goalY = [(goalX, goalY)] ∧
    (a.findPath startX startY goalX goalY).length =
      (a.findPath goalX goalY goalX goalY).length := by
  have hw : 0 ≤ a.maze.width := le_of_lt (lt_of_le_of_lt hs.1 hs.2.1)
  have hh : 0 ≤ a.maze.height := le_of_lt (lt_of_le_of_lt hs.2.2.1 hs.2.2.2)
  obtain ⟨hlen1, _⟩ := length_gridCells_cast a.maze.width a.maze.height hw hh
  have hsize : ((gridCells a.maze.width a.maze.height).length : Int) < INT_MAX := by
    rw [hlen1]; exact hcells
  obtain ⟨i1, i2, i3⟩ := searchInit_spec a startX startY goalX goalY hs
  obtain ⟨l1, _⟩ := searchLoop_spec goalX goalY hsize hs _ _ i1 i2 i3
  have hparent : (searchLoop goalX goalY (searchFuel a.maze.getWidth a.maze.getHeight)
      (searchInit a startX startY goalX goalY)).astar.parent goalY goalX = (-1, -1) := by
    by_contra hp
    exact hun (l1.finite_reach goalX goalY (l1.parent_ok goalX goalY hp).2.1)
  have hgne : ((goalX, goalY) : Coord) ≠ (-1, -1) := by
    intro h
    have h1 : goalX = -1 := congrArg Prod.fst h
    have h0 : 0 ≤ goalX := hg.1
    omega
  have hpath : a.findPath startX startY goalX goalY = [(goalX, goalY)] := by
    simp only [AStar.findPath, AStar.findPathRun, reconstruct, if_pos hgne, hparent,
      reconstruct_sentinel]
    rfl
  rw [hpath, findPath_start_eq_goal a goalX goalY hg]
  exact ⟨rfl, rfl⟩

/-- C19 on the 3 × 3 maze whose only open cell is the start `(0, 0)`, with goal `(1, 1)`. -/
theorem findPath_unreached_goal_witness :
    (AStar.new ((Maze.init 3 3).setStartAndEndPoint 0 0 0 0)).findPath 0 0 1 1 = [(1, 1)] ∧
    ((AStar.new ((Maze.init 3 3).setStartAndEndPoint 0 0 0 0)).findPath 0 0 1 1).length =
      ((AStar.new ((Maze.init 3 3).setStartAndEndPoint 0 0 0 0)).findPath 1 1 1 1).length :=
  findPath_unreached_goal (AStar.new ((Maze.init 3 3).setStartAndEndPoint 0 0 0 0)) 0 0 1 1
    (by decide) (by decide) (by decide) (by decide) (by
      intro hr
      rcases hr.eq_or_open with h | h
      · exact absurd h (by decide)
      · exact absurd h (by decide))

/-! ### Visited cells are the open cells -/

/-- C20. On the freshly constructed `w × h` maze, after any number `k` of iterations of the
loop of `generate()`, and when it returns: a cell of the grid is marked visited if and only if
it is open, every unvisited cell is a wall, and every entry of the wall list is a cell of the
grid that is 4-adjacent to some visited cell of the grid. -/
theorem generate_visited_iff_open (w h : Int) (hw : 1 ≤ w) (hh : 1 ≤ h) (rand : Nat → Nat)
    (k : Nat) :
    (∀ m : Maze,
      (m = (generateLoop rand k ⟨generateInit (Maze.init w h), 0⟩).maze ∨
        m = (Maze.init w h).generate rand) →
      (∀ x y : Int, m.inBounds x y →
        ((m.grid y x).visited = true ↔ m.isWall x y = false)) ∧
      (∀ x y : Int, m.inBounds x y → (m.grid y x).visited = false → m.isWall x y = true) ∧
      (∀ c ∈ m.wallList, m.inBounds c.1 c.2 ∧
        ∃ n : Coord, m.inBounds n.1 n.2 ∧ (m.grid n.2 n.1).visited = true ∧ Adjacent4 n c)) := by
  intro m hm
  have hinv : GenInv w h m := by
    rcases hm with rfl | rfl
    · exact generateLoop_inv rand k _ (genInv_generateInit w h hw hh)
    · exact (generate_inv w h hw hh rand).2
  refine ⟨fun x y _ => hinv.visited_iff x y, ?_, ?_⟩
  · intro x y _ hv
    have := hinv.visited_iff x y
    cases hwl : (m.grid y x).wall with
    | true => exact hwl
    | false =>
      rw [this.2 hwl] at hv
      exact absurd hv (by decide)
  · intro c hc
    obtain ⟨hb, n, hn, hadj⟩ := hinv.wall_list c hc
    exact ⟨hb, n, hn.1, (hinv.visited_iff n.1 n.2).2 hn.2, hadj⟩

/-- C20 on the 3 × 2 maze with `rand()` always 0: after 2 iterations at the cell `(1, 1)`, and
on return at the cell `(0, 1)`, which is left unvisited. -/
theorem generate_visited_iff_open_witness :
    (generateLoop (fun _ => 0) 2 ⟨generateInit (Maze.init 3 2), 0⟩).maze.inBounds 1 1 ∧
    (((generateLoop (fun _ => 0) 2 ⟨generateInit (Maze.init 3 2), 0⟩).maze.grid 1 1).visited =
        true ↔
      (generateLoop (fun _ => 0) 2 ⟨generateInit (Maze.init 3 2), 0⟩).maze.isWall 1 1 = false) ∧
    ((Maze.init 3 2).generate fun _ => 0).inBounds 0 1 ∧
    (((Maze.init 3 2).generate fun _ => 0).grid 1 0).visited = false ∧
    ((Maze.init 3 2).generate fun _ => 0).isWall 0 1 = true :=
  ⟨by decide,
    (generate_visited_iff_open 3 2 (by decide) (by decide) (fun _ => 0) 2 _ (Or.inl rfl)).1 1 1
      (by decide),
    by decide, by decide,
    (generate_visited_iff_open 3 2 (by decide) (by decide) (fun _ => 0) 2 _ (Or.inr rfl)).2.1 0 1
      (by decide) (by decide)⟩

/-! ### When an iteration of the generation loop carves -/

theorem Maze.mem_unvisitedNeighbors_of {m : Maze} (hco : m.CoordsOk) (c e : Coord)
    (hc : m.inBounds c.1 c.2) (he : m.inBounds e.1 e.2) (hadj : Adjacent4 c e)
    (hv : (m.grid e.2 e.1).visited = false) : e ∈ m.unvisitedNeighbors c := by
  have hxy := hco c.1 c.2 hc
  obtain ⟨cx, cy⟩ := c
  obtain ⟨ex, ey⟩ := e
  simp only at hxy hc he hv
  simp only [Maze.unvisitedNeighbors, hxy.1, hxy.2, List.mem_append]
  unfold Maze.inBounds at hc he
  unfold Adjacent4 at hadj
  simp only at hadj hc he
  rcases hadj with ⟨hx, hy | hy⟩ | ⟨hy, hx | hx⟩
  · -- `e` is above `c`
    subst hx
    have hey : ey = cy - 1 := by omega
    subst hey
    refine Or.inl (Or.inl (Or.inl ?_))
    rw [if_pos ⟨by omega, hv⟩]
    exact List.mem_singleton_self _
  · -- `e` is below `c`
    subst hx hy
    refine Or.inl (Or.inl (Or.inr ?_))
    rw [if_pos ⟨by omega, hv⟩]
    exact List.mem_singleton_self _
  · -- `e` is to the left of `c`
    subst hy
    have hex : ex = cx - 1 := by omega
    subst hex
    refine Or.inl (Or.inr ?_)
    rw [if_pos ⟨by omega, hv⟩]
    exact List.mem_singleton_self _
  · -- `e` is to the right of `c`
    subst hy hx
    refine Or.inr ?_
    rw [if_pos ⟨by omega, hv⟩]
    exact List.mem_singleton_self _

theorem Maze.addWalls_grid (m : Maze) (c : Coord) : (m.addWalls c).grid = m.grid := by
  obtain ⟨extra, heq, _, _⟩ := m.addWalls_eq c
  rw [heq]

/-- The two branches of an iteration, for a state that satisfies the loop invariant. -/
theorem generateStep_branches {w h : Int} (rand : Nat → Nat) (s : GenState)
    (hinv : GenInv w h s.maze) (hne : s.maze.wallList ≠ []) :
    (∃ n : Coord, s.maze.inBounds n.1 n.2 ∧ (s.maze.grid n.2 n.1).visited = true ∧
      Adjacent4 n (s.maze.wallList.getD (rand s.calls % s.maze.wallList.length) (0, 0))) ∧
    ((∃ n : Coord, Adjacent4 (s.maze.wallList.getD (rand s.calls % s.maze.wallList.length) (0, 0)) n ∧
        s.maze.inBounds n.1 n.2 ∧ (s.maze.grid n.2 n.1).visited = false) →
      (generateStep rand s).maze.isWall
          (s.maze.wallList.getD (rand s.calls % s.maze.wallList.length) (0, 0)).1
          (s.maze.wallList.getD (rand s.calls % s.maze.wallList.length) (0, 0)).2 = false ∧
      ((generateStep rand s).maze.grid
          (s.maze.wallList.getD (rand s.calls % s.maze.wallList.length) (0, 0)).2
          (s.maze.wallList.getD (rand s.calls % s.maze.wallList.length) (0, 0)).1).visited = true) ∧
    ((∀ n : Coord, Adjacent4 (s.maze.wallList.getD (rand s.calls % s.maze.wallList.length) (0, 0)) n →
        s.maze.inBounds n.1 n.2 → (s.maze.grid n.2 n.1).visited = true) →
      (generateStep rand s).maze.grid = s.maze.grid ∧
      (generateStep rand s).maze.wallList =
        s.maze.wallList.eraseIdx (rand s.calls % s.maze.wallList.length)) := by
  have hcur := hinv.wall_list _ (getD_mod_mem s.maze.wallList (rand s.calls) hne)
  generalize hcdef : s.maze.wallList.getD (rand s.calls % s.maze.wallList.length) (0, 0) = cur
    at hcur
  have hne_iff : ∀ l : List Coord,
      Maze.unvisitedNeighbors { s.maze with wallList := l } cur = s.maze.unvisitedNeighbors cur :=
    fun _ => rfl
  refine ⟨?_, ?_, ?_⟩
  · obtain ⟨hb, n, hn, hadj⟩ := hcur
    exact ⟨n, hn.1, (hinv.visited_iff n.1 n.2).2 hn.2, hadj⟩
  · rintro ⟨n, hadj, hnb, hnv⟩
    have hmem : n ∈ s.maze.unvisitedNeighbors cur :=
      Maze.mem_unvisitedNeighbors_of hinv.coords cur n hcur.1 hnb hadj hnv
    have hnonempty : (s.maze.unvisitedNeighbors cur).isEmpty = false := by
      cases hl : s.maze.unvisitedNeighbors cur with
      | nil => rw [hl] at hmem; exact absurd hmem (List.not_mem_nil n)
      | cons a t => rfl
    simp only [generateStep, hcdef, hne_iff, hnonempty, if_true]
    simp only [Maze.isWall, Maze.addWalls_grid]
    constructor
    · exact Maze.isWall_carve_of_open _ _ _ _ (Maze.isWall_carve_self _ cur)
    · rw [Maze.visited_carve, Maze.visited_carve]
      simp
  · intro hall
    have hempty : (s.maze.unvisitedNeighbors cur).isEmpty = true := by
      cases hl : s.maze.unvisitedNeighbors cur with
      | nil => rfl
      | cons a t =>
        exfalso
        have ha : a ∈ s.maze.unvisitedNeighbors cur := by rw [hl]; exact List.mem_cons_self a t
        obtain ⟨hab, haadj, hav⟩ := Maze.mem_unvisitedNeighbors hinv.coords cur a hcur.1 ha
        rw [hall a haadj hab] at hav
        exact absurd hav (by decide)
    simp only [generateStep, hcdef, hne_iff, hempty]
    exact ⟨rfl, rfl⟩

/-- C14, as stated, fails: on the freshly constructed 2 × 1 maze the first iteration picks
`(1, 0)`, whose neighbour `(0, 0)` is visited; the cell is neither opened nor marked visited, it
is dropped without effect. -/
theorem generate_2x1_drops_picked_cell :
    (generateInit (Maze.init 2 1)).wallList = [(1, 0)] ∧
    Adjacent4 (0, 0) (1, 0) ∧ (generateInit (Maze.init 2 1)).inBounds 0 0 ∧
    ((generateInit (Maze.init 2 1)).grid 0 0).visited = true ∧
    (generateStep (fun _ => 0) ⟨generateInit (Maze.init 2 1), 0⟩).maze.isWall 1 0 = true ∧
    ((generateStep (fun _ => 0) ⟨generateInit (Maze.init 2 1), 0⟩).maze.grid 0 1).visited =
      false ∧
    (generateStep (fun _ => 0) ⟨generateInit (Maze.init 2 1), 0⟩).maze.wallList = [] := by
  decide

/-- C14, amended. In every iteration of the loop of `generate()` on a freshly constructed maze
(`s` is the state after `k` iterations, its wall list not empty) the picked cell has a visited
neighbour on the grid; it is opened and marked visited if at least one of its neighbours on the
grid is not yet visited; and if all its neighbours on the grid are visited it is dropped
without effect: the grid is unchanged and only the picked entry leaves the wall list. -/
theorem generate_carve_condition (w h : Int) (hw : 1 ≤ w) (hh : 1 ≤ h) (rand : Nat → Nat)
    (k : Nat) (s : GenState)
    (hs : s = generateLoop rand k ⟨generateInit (Maze.init w h), 0⟩)
    (hne : s.maze.wallList ≠ []) :
    (∃ n : Coord, s.maze.inBounds n.1 n.2 ∧ (s.maze.grid n.2 n.1).visited = true ∧
      Adjacent4 n (s.maze.wallList.getD (rand s.calls % s.maze.wallList.length) (0, 0))) ∧
    ((∃ n : Coord, Adjacent4 (s.maze.wallList.getD (rand s.calls % s.maze.wallList.length) (0, 0)) n ∧
        s.maze.inBounds n.1 n.2 ∧ (s.maze.grid n.2 n.1).visited = false) →
      (generateStep rand s).maze.isWall
          (s.maze.wallList.getD (rand s.calls % s.maze.wallList.length) (0, 0)).1
          (s.maze.wallList.getD (rand s.calls % s.maze.wallList.length) (0, 0)).2 = false ∧
      ((generateStep rand s).maze.grid
          (s.maze.wallList.getD (rand s.calls % s.maze.wallList.length) (0, 0)).2
          (s.maze.wallList.getD (rand s.calls % s.maze.wallList.length) (0, 0)).1).visited = true) ∧
    ((∀ n : Coord, Adjacent4 (s.maze.wallList.getD (rand s.calls % s.maze.wallList.length) (0, 0)) n →
        s.maze.inBounds n.1 n.2 → (s.maze.grid n.2 n.1).visited = true) →
      (generateStep rand s).maze.grid = s.maze.grid ∧
      (generateStep rand s).maze.wallList =
        s.maze.wallList.eraseIdx (rand s.calls % s.maze.wallList.length)) := by
  have hinv : GenInv w h s.maze := by
    rw [hs]
    exact generateLoop_inv rand k _ (genInv_generateInit w h hw hh)
  exact generateStep_branches rand s hinv hne

/-- C14, amended, at the first iteration on the 2 × 2 maze with `rand()` always 0: the picked
cell `(1, 0)` has the unvisited neighbour `(1, 1)` and is opened. -/
theorem generate_carve_condition_witness :
    (generateInit (Maze.init 2 2)).wallList ≠ [] ∧
    Adjacent4 ((1, 0) : Coord) (1, 1) ∧ (generateInit (Maze.init 2 2)).inBounds 1 1 ∧
    ((generateInit (Maze.init 2 2)).grid 1 1).visited = false ∧
    (generateStep (fun _ => 0) ⟨generateInit (Maze.init 2 2), 0⟩).maze.isWall 1 0 = false ∧
    ((generateStep (fun _ => 0) ⟨generateInit (Maze.init 2 2), 0⟩).maze.grid 0 1).visited =
      true :=
  ⟨by decide, by decide, by decide, by decide,
    ((generate_carve_condition 2 2 (by decide) (by decide) (fun _ => 0) 0
      ⟨generateInit (Maze.init 2 2), 0⟩ rfl (by decide)).2.1
      ⟨(1, 1), by decide, by decide, by decide⟩).1,
    ((generate_carve_condition 2 2 (by decide) (by decide) (fun _ => 0) 0
      ⟨generateInit (Maze.init 2 2), 0⟩ rfl (by decide)).2.1
      ⟨(1, 1), by decide, by decide, by decide⟩).2⟩

/-! ### Number of iterations of the generation loop -/

theorem Adjacent4.symm {a b : Coord} (h : Adjacent4 a b) : Adjacent4 b a := by
  unfold Adjacent4 at h ⊢
  omega

/-- `addWalls` appends at most three entries when a neighbour of the cell is visited. -/
theorem Maze.addWalls_length_le_three (m : Maze) (c v : Coord)
    (hxy : (m.grid c.2 c.1).x = c.1 ∧ (m.grid c.2 c.1).y = c.2)
    (hadj : Adjacent4 c v) (hv : (m.grid v.2 v.1).visited = true) :
    (m.addWalls c).wallList.length ≤ m.wallList.length + 3 := by
  obtain ⟨cx, cy⟩ := c
  obtain ⟨vx, vy⟩ := v
  simp only at hxy hv
  unfold Adjacent4 at hadj
  simp only at hadj
  simp only [Maze.addWalls, Maze.pushWall, hxy.1, hxy.2]
  rcases hadj with ⟨hx, hy | hy⟩ | ⟨hy, hx | hx⟩
  · subst hx
    have hvy : vy = cy - 1 := by omega
    subst hvy
    have hg : ¬ (cy > 0 ∧ (m.grid (cy - 1) cx).visited = false) := by
      rw [hv]; simp
    split_ifs <;> simp
  · subst hx hy
    have hg : ¬ (cy < m.height - 1 ∧ (m.grid (cy + 1) cx).visited = false) := by
      rw [hv]; simp
    split_ifs <;> simp
  · subst hy
    have hvx : vx = cx - 1 := by omega
    subst hvx
    have hg : ¬ (cx > 0 ∧ (m.grid cy (cx - 1)).visited = false) := by
      rw [hv]; simp
    split_ifs <;> simp
  · subst hy hx
    have hg : ¬ (cx < m.width - 1 ∧ (m.grid cy (cx + 1)).visited = false) := by
      rw [hv]; simp
    split_ifs <;> simp

/-- The carving branch of an iteration does not raise the tight measure. -/
theorem carve_branch_tight {w h : Int} {m : Maze} (hinv : GenInv w h m) (current next : Coord)
    (hc : m.inBounds current.1 current.2) (hn : ∃ n, m.OpenCell n ∧ Adjacent4 n current)
    (hnext : next ∈ m.unvisitedNeighbors current) :
    ((((m.carve current).carve next).addWalls current).addWalls next).tightMeasure ≤
      m.tightMeasure := by
  obtain ⟨hnb, hnadj, hnv⟩ := Maze.mem_unvisitedNeighbors hinv.coords current next hc hnext
  have h1 : GenInv w h (m.carve current) := hinv.carve current hc hn
  have hcur1 : (m.carve current).OpenCell current :=
    (m.openCell_carve current current).2 ⟨hc, Or.inl rfl⟩
  have h2 : GenInv w h ((m.carve current).carve next) :=
    h1.carve next hnb ⟨current, hcur1, hnadj⟩
  have hcur2 : ((m.carve current).carve next).OpenCell current :=
    ((m.carve current).openCell_carve next current).2 ⟨hc, Or.inr hcur1.2⟩
  have hnext2 : ((m.carve current).carve next).OpenCell next :=
    ((m.carve current).openCell_carve next next).2 ⟨hnb, Or.inl rfl⟩
  have h3 : GenInv w h (((m.carve current).carve next).addWalls current) :=
    h2.addWalls current hcur2
  have hl2 := Maze.addWalls_length_le_three ((m.carve current).carve next) current next
    (h2.coords current.1 current.2 hc) hnadj ((h2.visited_iff _ _).2 hnext2.2)
  have hcur3 : ((((m.carve current).carve next).addWalls current).grid current.2
      current.1).visited = true := by
    rw [Maze.addWalls_grid]
    exact (h2.visited_iff _ _).2 hcur2.2
  have hl1 := Maze.addWalls_length_le_three (((m.carve current).carve next).addWalls current)
    next current (h3.coords next.1 next.2 ((Maze.addWalls_openCell _ _ _).2 hnext2).1)
    hnadj.symm hcur3
  have hu1 := Maze.addWalls_unvisitedCount (((m.carve current).carve next).addWalls current) next
  have hu2 := Maze.addWalls_unvisitedCount ((m.carve current).carve next) current
  have hu3 : ((m.carve current).carve next).unvisitedCount ≤ (m.carve next).unvisitedCount := by
    apply countP_le_of_imp
    intro x _ hx
    simp only [decide_eq_true_eq] at hx ⊢
    rw [Maze.visited_carve] at hx ⊢
    split_ifs at hx ⊢ with hxn
    rw [Maze.visited_carve] at hx
    split_ifs at hx
    exact hx
  have hu4 := m.unvisitedCount_carve_lt next hnb hnv
  have hl3 : ((m.carve current).carve next).wallList.length = m.wallList.length := rfl
  simp only [Maze.tightMeasure]
  omega

theorem generateStep_tight {w h : Int} (rand : Nat → Nat) (s : GenState)
    (hinv : GenInv w h s.maze) (hne : s.maze.wallList ≠ []) :
    (generateStep rand s).maze.tightMeasure < s.maze.tightMeasure := by
  have hpos : 0 < s.maze.wallList.length := List.length_pos.2 hne
  have hlt : rand s.calls % s.maze.wallList.length < s.maze.wallList.length :=
    Nat.mod_lt _ hpos
  have hcur := hinv.wall_list _ (getD_mod_mem s.maze.wallList (rand s.calls) hne)
  have herase : GenInv w h
      { s.maze with
        wallList := s.maze.wallList.eraseIdx (rand s.calls % s.maze.wallList.length) } :=
    hinv.with_wallList _ (fun c hc => hinv.wall_list c (List.mem_of_mem_eraseIdx hc))
  have hmeasure : Maze.tightMeasure
      { s.maze with
        wallList := s.maze.wallList.eraseIdx (rand s.calls % s.maze.wallList.length) } <
      s.maze.tightMeasure := by
    have hlen := List.length_eraseIdx_of_lt hlt
    have hu : Maze.unvisitedCount
        { s.maze with
          wallList := s.maze.wallList.eraseIdx (rand s.calls % s.maze.wallList.length) } =
        s.maze.unvisitedCount := rfl
    simp only [Maze.tightMeasure, hu, hlen]
    omega
  simp only [generateStep]
  split_ifs with hcarve
  · have hnn : Maze.unvisitedNeighbors
        { s.maze with
          wallList := s.maze.wallList.eraseIdx (rand s.calls % s.maze.wallList.length) }
        (s.maze.wallList.getD (rand s.calls % s.maze.wallList.length) (0, 0)) ≠ [] := by
      intro h0
      rw [h0] at hcarve
      simp at hcarve
    have hb := carve_branch_tight herase _ _ hcur.1 hcur.2
      (getD_mod_mem _ (rand (s.calls + 1)) hnn)
    exact lt_of_le_of_lt hb hmeasure
  · exact hmeasure

/-- With fuel at least the tight measure the loop stops because the wall list is empty, after
at most `tightMeasure` iterations. -/
theorem generateLoop_tight {w h : Int} (rand : Nat → Nat) :
    ∀ (fuel : Nat) (s : GenState), GenInv w h s.maze → s.maze.tightMeasure ≤ fuel →
      (generateLoop rand fuel s).maze.wallList = [] ∧
      generateIterations rand fuel s ≤ s.maze.tightMeasure := by
  intro fuel
  induction fuel with
  | zero =>
    intro s _ hm
    simp only [Maze.tightMeasure] at hm
    have : s.maze.wallList.length = 0 := by omega
    exact ⟨List.length_eq_zero.1 this, Nat.zero_le _⟩
  | succ fuel ih =>
    intro s hs hm
    simp only [generateLoop, generateIterations]
    split_ifs with hnil
    · exact ⟨hnil, Nat.zero_le _⟩
    · have hstep := generateStep_spec rand s hs hnil
      have htight := generateStep_tight rand s hs hnil
      obtain ⟨h1, h2⟩ := ih _ hstep.1 (by omega)
      exact ⟨h1, by omega⟩

/-- Once the fuel covers the tight measure, more fuel changes neither the result nor the
number of iterations. -/
theorem generateLoop_fuel_irrelevant {w h : Int} (rand : Nat → Nat) :
    ∀ (fuel1 : Nat) (s : GenState), GenInv w h s.maze → s.maze.tightMeasure ≤ fuel1 →
      ∀ fuel2 : Nat, s.maze.tightMeasure ≤ fuel2 →
        generateLoop rand fuel1 s = generateLoop rand fuel2 s ∧
        generateIterations rand fuel1 s = generateIterations rand fuel2 s := by
  intro fuel1
  induction fuel1 with
  | zero =>
    intro s _ hm fuel2 _
    have hnil : s.maze.wallList = [] := by
      simp only [Maze.tightMeasure] at hm
      exact List.length_eq_zero.1 (by omega)
    cases fuel2 with
    | zero => exact ⟨rfl, rfl⟩
    | succ f2 => simp [generateLoop, generateIterations, hnil]
  | succ f1 ih =>
    intro s hs hm fuel2 hm2
    by_cases hnil : s.maze.wallList = []
    · cases fuel2 with
      | zero => simp [generateLoop, generateIterations, hnil]
      | succ f2 => simp [generateLoop, generateIterations, hnil]
    · have hstep := generateStep_spec rand s hs hnil
      have htight := generateStep_tight rand s hs hnil
      cases fuel2 with
      | zero =>
        exfalso
        simp only [Maze.tightMeasure] at hm2
        have : s.maze.wallList.length = 0 := by omega
        exact hnil (List.length_eq_zero.1 this)
      | succ f2 =>
        obtain ⟨e1, e2⟩ := ih _ hstep.1 (by omega) f2 (by omega)
        simp only [generateLoop, generateIterations, if_neg hnil]
        exact ⟨e1, by rw [e2]⟩

theorem tightMeasure_le_genMeasure (m : Maze) : m.tightMeasure ≤ m.genMeasure := by
  simp only [Maze.tightMeasure, Maze.genMeasure]
  omega

theorem tightMeasure_generateInit (w h : Int) (hw : 1 ≤ w) (hh : 1 ≤ h) :
    ((generateInit (Maze.init w h)).tightMeasure : Int) ≤ 6 * w * h := by
  have hinv := genInv_generateInit w h hw hh
  have hlen : (generateInit (Maze.init w h)).wallList.length ≤ 4 := by
    have := Maze.addWalls_length_le ((Maze.init w h).carve (0, 0)) (0, 0)
    have h0 : ((Maze.init w h).carve (0, 0)).wallList.length = 0 := rfl
    simp only [generateInit]
    omega
  have horigin : (generateInit (Maze.init w h)).inBounds 0 0 := hinv.origin_open.1
  have hcount : (generateInit (Maze.init w h)).unvisitedCount <
      (gridCells (generateInit (Maze.init w h)).width
        (generateInit (Maze.init w h)).height).countP (fun _ => true) := by
    unfold Maze.unvisitedCount
    apply countP_lt_of_imp _ _ _ _ (0, 0) ((mem_gridCells _ _ _).2 horigin)
    · have hv := (hinv.visited_iff 0 0).2 hinv.origin_open.2
      simp only [decide_eq_false_iff_not]
      rw [hv]
      decide
    · rfl
    · intro _ _ _
      rfl
  have hall : (gridCells w h).countP (fun _ => true) = (gridCells w h).length := by
    simp
  have hcells := (length_gridCells_cast w h (by omega) (by omega)).1
  rw [hinv.width_eq, hinv.height_eq, hall] at hcount
  have hcast : ((generateInit (Maze.init w h)).unvisitedCount : Int) + 1 ≤ w * h := by
    rw [← hcells]
    exact_mod_cast hcount
  simp only [Maze.tightMeasure]
  push_cast
  have hl : ((generateInit (Maze.init w h)).wallList.length : Int) ≤ 4 := by exact_mod_cast hlen
  nlinarith

/-- C12. For every width ≥ 1, height ≥ 1 and every sequence of random integers, the loop of
`generate()` on the freshly constructed maze stops with an empty wall list after a number `n`
of iterations with `n ≤ 6 * width * height`: any fuel of at least `6 * width * height` yields
these `n` iterations and the same final state, which is the state that `generate()` returns. -/
theorem generate_terminates (w h : Int) (hw : 1 ≤ w) (hh : 1 ≤ h) (rand : Nat → Nat) :
    ∃ n : Nat, (n : Int) ≤ 6 * w * h ∧
      ∀ fuel : Nat, 6 * w * h ≤ (fuel : Int) →
        generateIterations rand fuel ⟨generateInit (Maze.init w h), 0⟩ = n ∧
        (generateLoop rand fuel ⟨generateInit (Maze.init w h), 0⟩).maze.wallList = [] ∧
        (generateLoop rand fuel ⟨generateInit (Maze.init w h), 0⟩).maze =
          (Maze.init w h).generate rand := by
  have hinv := genInv_generateInit w h hw hh
  have hbound := tightMeasure_generateInit w h hw hh
  have hgen := tightMeasure_le_genMeasure (generateInit (Maze.init w h))
  obtain ⟨d1, d2⟩ := generateLoop_tight rand (generateInit (Maze.init w h)).genMeasure
    ⟨generateInit (Maze.init w h), 0⟩ hinv hgen
  refine ⟨generateIterations rand (generateInit (Maze.init w h)).genMeasure
    ⟨generateInit (Maze.init w h), 0⟩, ?_, ?_⟩
  · have : (generateIterations rand (generateInit (Maze.init w h)).genMeasure
        ⟨generateInit (Maze.init w h), 0⟩ : Int) ≤
        ((generateInit (Maze.init w h)).tightMeasure : Int) := by exact_mod_cast d2
    omega
  · intro fuel hfuel
    have hf : (generateInit (Maze.init w h)).tightMeasure ≤ fuel := by
      have : ((generateInit (Maze.init w h)).tightMeasure : Int) ≤ (fuel : Int) := by omega
      exact_mod_cast this
    obtain ⟨e1, e2⟩ := generateLoop_fuel_irrelevant rand fuel
      ⟨generateInit (Maze.init w h), 0⟩ hinv hf (generateInit (Maze.init w h)).genMeasure hgen
    refine ⟨e2, ?_, ?_⟩
    · rw [e1]; exact d1
    · rw [e1]; rfl

/-- C12 on the 3 × 3 maze with `rand()` always 0. -/
theorem generate_terminates_witness :
    ∃ n : Nat, (n : Int) ≤ 6 * 3 * 3 ∧
      ∀ fuel : Nat, 6 * 3 * 3 ≤ (fuel : Int) →
        generateIterations (fun _ => 0) fuel ⟨generateInit (Maze.init 3 3), 0⟩ = n ∧
        (generateLoop (fun _ => 0) fuel ⟨generateInit (Maze.init 3 3), 0⟩).maze.wallList = [] ∧
        (generateLoop (fun _ => 0) fuel ⟨generateInit (Maze.init 3 3), 0⟩).maze =
          (Maze.init 3 3).generate fun _ => 0 :=
  generate_terminates 3 3 (by decide) (by decide) (fun _ => 0)

/-! ### Which cells `generate` leaves unvisited -/

theorem mem_eraseIdx_of_ne {α : Type} : ∀ (l : List α) (i : Nat) (d x : α), x ∈ l →
    x ≠ l.getD i d → x ∈ l.eraseIdx i
  | [], _, _, _, h, _ => absurd h (List.not_mem_nil _)
  | a :: l, 0, d, x, h, hne => by
    simp only [List.getD_cons_zero] at hne
    rcases List.mem_cons.1 h with rfl | h'
    · exact absurd rfl hne
    · simpa using h'
  | a :: l, i + 1, d, x, h, hne => by
    simp only [List.getD_cons_succ] at hne
    rw [List.eraseIdx_cons_succ]
    rcases List.mem_cons.1 h with rfl | h'
    · exact List.mem_cons_self _ _
    · exact List.mem_cons_of_mem _ (mem_eraseIdx_of_ne l i d x h' hne)

theorem Maze.mem_addWalls_of_mem (m : Maze) (c x : Coord) (hx : x ∈ m.wallList) :
    x ∈ (m.addWalls c).wallList := by
  obtain ⟨extra, heq, _, _⟩ := m.addWalls_eq c
  rw [heq]
  exact List.mem_append_left _ hx

/-- `addWalls` pushes every unvisited neighbour of the cell that lies on the grid. -/
theorem Maze.mem_addWalls_of_unvisited {m : Maze} (hco : m.CoordsOk) (c u : Coord)
    (hc : m.inBounds c.1 c.2) (hu : m.inBounds u.1 u.2) (hadj : Adjacent4 c u)
    (hv : (m.grid u.2 u.1).visited = false) : u ∈ (m.addWalls c).wallList := by
  have hxy := hco c.1 c.2 hc
  obtain ⟨cx, cy⟩ := c
  obtain ⟨ux, uy⟩ := u
  simp only at hxy hc hu hv
  unfold Maze.inBounds at hc hu
  unfold Adjacent4 at hadj
  simp only at hadj hc hu
  simp only [Maze.addWalls, Maze.pushWall, hxy.1, hxy.2]
  rcases hadj with ⟨hx, hy | hy⟩ | ⟨hy, hx | hx⟩
  · subst hx
    have huy : uy = cy - 1 := by omega
    subst huy
    have hg : cy > 0 ∧ (m.grid (cy - 1) cx).visited = false := ⟨by omega, hv⟩
    split_ifs <;> simp
  · subst hx hy
    have hg : cy < m.height - 1 ∧ (m.grid (cy + 1) cx).visited = false := ⟨by omega, hv⟩
    split_ifs <;> simp
  · subst hy
    have hux : ux = cx - 1 := by omega
    subst hux
    have hg : cx > 0 ∧ (m.grid cy (cx - 1)).visited = false := ⟨by omega, hv⟩
    split_ifs <;> simp
  · subst hy hx
    have hg : cx < m.width - 1 ∧ (m.grid cy (cx + 1)).visited = false := ⟨by omega, hv⟩
    split_ifs <;> simp

theorem Maze.addWalls_inBounds (m : Maze) (c : Coord) (x y : Int) :
    (m.addWalls c).inBounds x y ↔ m.inBounds x y := by
  obtain ⟨extra, heq, _, _⟩ := m.addWalls_eq c
  rw [heq]
  exact Iff.rfl

/-- Two cells become visited, their unvisited neighbours are in the wall list, the old
entries other than the picked one stay: `FrontierCovered` holds again. -/
theorem covered_of_pushed {m m4 : Maze} (current next : Coord)
    (hb : ∀ x y : Int, m4.inBounds x y → m.inBounds x y)
    (hvis : ∀ x y : Int, (m4.grid y x).visited =
      if y = next.2 ∧ x = next.1 then true
      else if y = current.2 ∧ x = current.1 then true else (m.grid y x).visited)
    (hold : ∀ x ∈ m.wallList, x ∈ m4.wallList)
    (hpushc : ∀ u : Coord, m4.inBounds u.1 u.2 → Adjacent4 current u →
      (m4.grid u.2 u.1).visited = false → u ∈ m4.wallList)
    (hpushn : ∀ u : Coord, m4.inBounds u.1 u.2 → Adjacent4 next u →
      (m4.grid u.2 u.1).visited = false → u ∈ m4.wallList)
    (hcov : ∀ u v : Coord, m.inBounds u.1 u.2 → m.inBounds v.1 v.2 → Adjacent4 v u →
      (m.grid v.2 v.1).visited = true → (m.grid u.2 u.1).visited = false → u ≠ current →
      u ∈ m.wallList ∨
        ∀ n : Coord, Adjacent4 u n → m.inBounds n.1 n.2 → (m.grid n.2 n.1).visited = true) :
    m4.FrontierCovered := by
  intro u v hub hvb hadj hvv huv
  have huv4 := huv
  rw [hvis] at hvv huv
  have hun : ¬ (u.2 = next.2 ∧ u.1 = next.1) := by
    intro hh'
    rw [if_pos hh'] at huv
    exact absurd huv (by decide)
  rw [if_neg hun] at huv
  have huc : ¬ (u.2 = current.2 ∧ u.1 = current.1) := by
    intro hh'
    rw [if_pos hh'] at huv
    exact absurd huv (by decide)
  rw [if_neg huc] at huv
  by_cases hvn : v.2 = next.2 ∧ v.1 = next.1
  · have hveq : v = next := Prod.ext hvn.2 hvn.1
    rw [hveq] at hadj
    exact Or.inl (hpushn u hub hadj huv4)
  · rw [if_neg hvn] at hvv
    by_cases hvc : v.2 = current.2 ∧ v.1 = current.1
    · have hveq : v = current := Prod.ext hvc.2 hvc.1
      rw [hveq] at hadj
      exact Or.inl (hpushc u hub hadj huv4)
    · rw [if_neg hvc] at hvv
      have hne : u ≠ current := fun hh' => huc ⟨by rw [hh'], by rw [hh']⟩
      rcases hcov u v (hb _ _ hub) (hb _ _ hvb) hadj hvv huv hne with hmem | hall
      · exact Or.inl (hold u hmem)
      · right
        intro n hna hnb'
        rw [hvis]
        by_cases h1 : n.2 = next.2 ∧ n.1 = next.1
        · rw [if_pos h1]
        · rw [if_neg h1]
          by_cases h2 : n.2 = current.2 ∧ n.1 = current.1
          · rw [if_pos h2]
          · rw [if_neg h2]
            exact hall n hna (hb _ _ hnb')

/-- The carving branch of an iteration re-establishes `FrontierCovered`: the unvisited
neighbours of the two cells that become visited are pushed by the two `addWalls` calls. -/
theorem carve_branch_covered {w h : Int} {m : Maze} (hinv : GenInv w h m) (current next : Coord)
    (hc : m.inBounds current.1 current.2) (hn : ∃ n, m.OpenCell n ∧ Adjacent4 n current)
    (hnext : next ∈ m.unvisitedNeighbors current)
    (hcov : ∀ u v : Coord, m.inBounds u.1 u.2 → m.inBounds v.1 v.2 → Adjacent4 v u →
      (m.grid v.2 v.1).visited = true → (m.grid u.2 u.1).visited = false → u ≠ current →
      u ∈ m.wallList ∨
        ∀ n : Coord, Adjacent4 u n → m.inBounds n.1 n.2 → (m.grid n.2 n.1).visited = true) :
    ((((m.carve current).carve next).addWalls current).addWalls next).FrontierCovered := by
  obtain ⟨hnb, hnadj, _⟩ := Maze.mem_unvisitedNeighbors hinv.coords current next hc hnext
  have h1 : GenInv w h (m.carve current) := hinv.carve current hc hn
  have hcur1 : (m.carve current).OpenCell current :=
    (m.openCell_carve current current).2 ⟨hc, Or.inl rfl⟩
  have h2 : GenInv w h ((m.carve current).carve next) :=
    h1.carve next hnb ⟨current, hcur1, hnadj⟩
  have hcur2 : ((m.carve current).carve next).OpenCell current :=
    ((m.carve current).openCell_carve next current).2 ⟨hc, Or.inr hcur1.2⟩
  have hnext2 : ((m.carve current).carve next).OpenCell next :=
    ((m.carve current).openCell_carve next next).2 ⟨hnb, Or.inl rfl⟩
  have h3 : GenInv w h (((m.carve current).carve next).addWalls current) :=
    h2.addWalls current hcur2
  have hb2 : ∀ x y : Int, ((m.carve current).carve next).inBounds x y ↔ m.inBounds x y :=
    fun _ _ => Iff.rfl
  have hvis2 : ∀ x y : Int, (((m.carve current).carve next).grid y x).visited =
      if y = next.2 ∧ x = next.1 then true
      else if y = current.2 ∧ x = current.1 then true else (m.grid y x).visited := by
    intro x y
    rw [Maze.visited_carve, Maze.visited_carve]
  have hwl2 : ((m.carve current).carve next).wallList = m.wallList := rfl
  generalize (m.carve current).carve next = m2 at h2 hcur2 hnext2 h3 hb2 hvis2 hwl2
  have hb3 : ∀ x y : Int, (m2.addWalls current).inBounds x y ↔ m2.inBounds x y :=
    fun x y => Maze.addWalls_inBounds m2 current x y
  have hgrid3 : (m2.addWalls current).grid = m2.grid := Maze.addWalls_grid m2 current
  have hold3 : ∀ x ∈ m2.wallList, x ∈ (m2.addWalls current).wallList :=
    fun x hx => Maze.mem_addWalls_of_mem m2 current x hx
  have hpush3 : ∀ u : Coord, m2.inBounds u.1 u.2 → Adjacent4 current u →
      (m2.grid u.2 u.1).visited = false → u ∈ (m2.addWalls current).wallList :=
    fun u hu hadj hv =>
      Maze.mem_addWalls_of_unvisited h2.coords current u hcur2.1 hu hadj hv
  have hnext3 : (m2.addWalls current).inBounds next.1 next.2 := (hb3 _ _).2 hnext2.1
  generalize m2.addWalls current = m3 at h3 hb3 hgrid3 hold3 hpush3 hnext3
  apply covered_of_pushed current next
  · intro x y hxy
    exact (hb2 x y).1 ((hb3 x y).1 ((Maze.addWalls_inBounds m3 next x y).1 hxy))
  · intro x y
    rw [Maze.addWalls_grid, hgrid3]
    exact hvis2 x y
  · intro x hx
    apply Maze.mem_addWalls_of_mem
    apply hold3
    rw [hwl2]
    exact hx
  · intro u hu hadj hv
    rw [Maze.addWalls_grid, hgrid3] at hv
    apply Maze.mem_addWalls_of_mem
    exact hpush3 u ((hb3 _ _).1 ((Maze.addWalls_inBounds m3 next _ _).1 hu)) hadj hv
  · intro u hu hadj hv
    rw [Maze.addWalls_grid] at hv
    exact Maze.mem_addWalls_of_unvisited h3.coords next u hnext3
      ((Maze.addWalls_inBounds m3 next _ _).1 hu) hadj hv
  · exact hcov

theorem generateStep_covered {w h : Int} (rand : Nat → Nat) (s : GenState)
    (hinv : GenInv w h s.maze) (hcov : s.maze.FrontierCovered) (hne : s.maze.wallList ≠ []) :
    (generateStep rand s).maze.FrontierCovered := by
  have hcur := hinv.wall_list _ (getD_mod_mem s.maze.wallList (rand s.calls) hne)
  have herase : GenInv w h
      { s.maze with
        wallList := s.maze.wallList.eraseIdx (rand s.calls % s.maze.wallList.length) } :=
    hinv.with_wallList _ (fun c hc => hinv.wall_list c (List.mem_of_mem_eraseIdx hc))
  have hcov' : ∀ u v : Coord, s.maze.inBounds u.1 u.2 → s.maze.inBounds v.1 v.2 →
      Adjacent4 v u → (s.maze.grid v.2 v.1).visited = true →
      (s.maze.grid u.2 u.1).visited = false →
      u ≠ s.maze.wallList.getD (rand s.calls % s.maze.wallList.length) (0, 0) →
      u ∈ s.maze.wallList.eraseIdx (rand s.calls % s.maze.wallList.length) ∨
        ∀ n : Coord, Adjacent4 u n → s.maze.inBounds n.1 n.2 →
          (s.maze.grid n.2 n.1).visited = true := by
    intro u v hub hvb hadj hvv huv hne'
    rcases hcov u v hub hvb hadj hvv huv with hmem | hall
    · exact Or.inl (mem_eraseIdx_of_ne _ _ _ _ hmem hne')
    · exact Or.inr hall
  simp only [generateStep]
  split_ifs with hcarve
  · have hnn : Maze.unvisitedNeighbors
        { s.maze with
          wallList := s.maze.wallList.eraseIdx (rand s.calls % s.maze.wallList.length) }
        (s.maze.wallList.getD (rand s.calls % s.maze.wallList.length) (0, 0)) ≠ [] := by
      intro h0
      rw [h0] at hcarve
      simp at hcarve
    exact carve_branch_covered herase _ _ hcur.1 hcur.2
      (getD_mod_mem _ (rand (s.calls + 1)) hnn) hcov'
  · intro u v hub hvb hadj hvv huv
    by_cases hue : u = s.maze.wallList.getD (rand s.calls % s.maze.wallList.length) (0, 0)
    · right
      intro n hna hnb
      by_contra hnv
      have hnv' : (s.maze.grid n.2 n.1).visited = false := by
        cases hvn : (s.maze.grid n.2 n.1).visited with
        | true => exact absurd hvn hnv
        | false => rfl
      have hmem : n ∈ s.maze.unvisitedNeighbors u :=
        Maze.mem_unvisitedNeighbors_of hinv.coords u n hub hnb hna hnv'
      rw [hue] at hmem
      have hem : Maze.unvisitedNeighbors
          { s.maze with
            wallList := s.maze.wallList.eraseIdx (rand s.calls % s.maze.wallList.length) }
          (s.maze.wallList.getD (rand s.calls % s.maze.wallList.length) (0, 0)) = [] := by
        cases hl : Maze.unvisitedNeighbors
          { s.maze with
            wallList := s.maze.wallList.eraseIdx (rand s.calls % s.maze.wallList.length) }
          (s.maze.wallList.getD (rand s.calls % s.maze.wallList.length) (0, 0)) with
        | nil => rfl
        | cons a t =>
          rw [hl] at hcarve
          simp at hcarve
      have hmem' : n ∈ Maze.unvisitedNeighbors
          { s.maze with
            wallList := s.maze.wallList.eraseIdx (rand s.calls % s.maze.wallList.length) }
          (s.maze.wallList.getD (rand s.calls % s.maze.wallList.length) (0, 0)) := hmem
      rw [hem] at hmem'
      exact absurd hmem' (List.not_mem_nil n)
    · exact hcov' u v hub hvb hadj hvv huv hue

theorem generateLoop_covered {w h : Int} (rand : Nat → Nat) :
    ∀ (fuel : Nat) (s : GenState), GenInv w h s.maze → s.maze.FrontierCovered →
      (generateLoop rand fuel s).maze.FrontierCovered := by
  intro fuel
  induction fuel with
  | zero => intro s _ hc; exact hc
  | succ fuel ih =>
    intro s hs hc
    simp only [generateLoop]
    split_ifs with hnil
    · exact hc
    · exact ih _ (generateStep_spec rand s hs hnil).1 (generateStep_covered rand s hs hc hnil)

theorem covered_generateInit (w h : Int) (hw : 1 ≤ w) (hh : 1 ≤ h) :
    (generateInit (Maze.init w h)).FrontierCovered := by
  have horigin : (Maze.init w h).inBounds 0 0 := ⟨le_refl 0, by show (0 : Int) < w; omega,
    le_refl 0, by show (0 : Int) < h; omega⟩
  have hco : ((Maze.init w h).carve (0, 0)).CoordsOk := by
    intro x y hb
    rw [((Maze.init w h).coords_carve (0, 0) x y).1, ((Maze.init w h).coords_carve (0, 0) x y).2]
    exact Maze.init_coords w h x y hb
  intro u v hub hvb hadj hvv huv
  simp only [generateInit] at hvv huv hub ⊢
  rw [Maze.addWalls_grid] at hvv huv
  left
  have hv0 : v = (0, 0) := by
    rw [Maze.visited_carve] at hvv
    by_cases hv : v.2 = ((0, 0) : Coord).2 ∧ v.1 = ((0, 0) : Coord).1
    · exact Prod.ext hv.2 hv.1
    · rw [if_neg hv, (Maze.init_cell w h v.1 v.2).2] at hvv
      exact absurd hvv (by decide)
  rw [hv0] at hadj
  have hub' : ((Maze.init w h).carve (0, 0)).inBounds u.1 u.2 :=
    (Maze.addWalls_inBounds _ _ _ _).1 hub
  exact Maze.mem_addWalls_of_unvisited hco (0, 0) u horigin hub' hadj huv

/-- C13, as stated, fails: with `rand()` always 0, `generate()` on the freshly constructed
2 × 1 maze returns with the cell `(1, 0)` not visited. -/
theorem generate_2x1_leaves_cell_unvisited :
    ((Maze.init 2 1).generate fun _ => 0).wallList = [] ∧
    ((Maze.init 2 1).generate fun _ => 0).inBounds 1 0 ∧
    (((Maze.init 2 1).generate fun _ => 0).grid 0 1).visited = false := by
  decide

/-- C13, amended. For every width ≥ 1, height ≥ 1 and every sequence of random integers, when
`generate()` returns on the freshly constructed maze the wall list is empty and every cell of
the grid is visited or has all its neighbours on the grid visited. -/
theorem generate_unvisited_isolated (w h : Int) (hw : 1 ≤ w) (hh : 1 ≤ h) (rand : Nat → Nat) :
    ((Maze.init w h).generate rand).wallList = [] ∧
    ∀ x y : Int, ((Maze.init w h).generate rand).inBounds x y →
      (((Maze.init w h).generate rand).grid y x).visited = true ∨
      ∀ n : Coord, Adjacent4 (x, y) n → ((Maze.init w h).generate rand).inBounds n.1 n.2 →
        (((Maze.init w h).generate rand).grid n.2 n.1).visited = true := by
  obtain ⟨hdone, hinv⟩ := generate_inv w h hw hh rand
  have hcov : ((Maze.init w h).generate rand).FrontierCovered :=
    generateLoop_covered rand _ ⟨generateInit (Maze.init w h), 0⟩
      (genInv_generateInit w h hw hh) (covered_generateInit w h hw hh)
  refine ⟨hdone, ?_⟩
  generalize (Maze.init w h).generate rand = m at hdone hinv hcov
  have key : ∀ (k : Nat) (x y : Int), m.inBounds x y → (x + y).toNat ≤ k →
      (m.grid y x).visited = true ∨
      ∀ n : Coord, Adjacent4 (x, y) n → m.inBounds n.1 n.2 → (m.grid n.2 n.1).visited = true := by
    intro k
    induction k with
    | zero =>
      intro x y hb hk
      have hx : x = 0 := by have := hb.1; have := hb.2.2.1; omega
      have hy : y = 0 := by have := hb.1; have := hb.2.2.1; omega
      subst hx hy
      exact Or.inl ((hinv.visited_iff 0 0).2 hinv.origin_open.2)
    | succ k ih =>
      intro x y hb hk
      by_cases h0 : x = 0 ∧ y = 0
      · obtain ⟨rfl, rfl⟩ := h0
        exact Or.inl ((hinv.visited_iff 0 0).2 hinv.origin_open.2)
      · obtain ⟨hb1, hb2, hb3, hb4⟩ := hb
        have hpred : ∃ p : Coord, m.inBounds p.1 p.2 ∧ Adjacent4 p (x, y) ∧
            (p.1 + p.2).toNat ≤ k := by
          by_cases hx : 0 < x
          · refine ⟨(x - 1, y), ⟨by show 0 ≤ x - 1; omega, by show x - 1 < m.width; omega,
              hb3, hb4⟩, ?_, ?_⟩
            · exact Or.inr ⟨rfl, Or.inr (by show x = x - 1 + 1; omega)⟩
            · show ((x - 1) + y).toNat ≤ k; omega
          · refine ⟨(x, y - 1), ⟨hb1, hb2, by show 0 ≤ y - 1; omega,
              by show y - 1 < m.height; omega⟩, ?_, ?_⟩
            · exact Or.inl ⟨rfl, Or.inr (by show y = y - 1 + 1; omega)⟩
            · show (x + (y - 1)).toNat ≤ k; omega
        obtain ⟨p, hpb, hpadj, hpk⟩ := hpred
        cases hv : (m.grid y x).visited with
        | true => exact Or.inl rfl
        | false =>
          right
          rcases ih p.1 p.2 hpb hpk with hpv | hpall
          · rcases hcov (x, y) p ⟨hb1, hb2, hb3, hb4⟩ hpb hpadj hpv hv with hmem | hall
            · rw [hdone] at hmem
              exact absurd hmem (List.not_mem_nil _)
            · exact hall
          · have := hpall (x, y) hpadj ⟨hb1, hb2, hb3, hb4⟩
            rw [hv] at this
            exact absurd this (by decide)
  intro x y hb
  exact key (x + y).toNat x y hb (le_refl _)

/-- C13, amended, on the 2 × 1 maze with `rand()` always 0, at the unvisited cell `(1, 0)`. -/
theorem generate_unvisited_isolated_witness :
    ((Maze.init 2 1).generate fun _ => 0).wallList = [] ∧
    ((((Maze.init 2 1).generate fun _ => 0).grid 0 1).visited = true ∨
      ∀ n : Coord, Adjacent4 (1, 0) n → ((Maze.init 2 1).generate fun _ => 0).inBounds n.1 n.2 →
        (((Maze.init 2 1).generate fun _ => 0).grid n.2 n.1).visited = true) :=
  ⟨(generate_unvisited_isolated 2 1 (by decide) (by decide) (fun _ => 0)).1,
    (generate_unvisited_isolated 2 1 (by decide) (by decide) (fun _ => 0)).2 1 0 (by decide)⟩

/-! ### A finalized cell that is changed and pushed again -/

/-- C15. Failing run: in `findPath(5, 3, 1, 0)` on `repushMaze` the cell `(1, 3)` is at the
front of the queue after 15 iterations, with cost 6 and predecessor `(1, 2)`, and the 16th
iteration pops it; the 17th iteration, which expands `(2, 3)`, lowers its cost to 4, replaces
its predecessor by `(2, 3)` and pushes it onto the frontier again, where it is at the front. -/
theorem findPath_repush_after_pop :
    repushMaze.inBounds 5 3 ∧ repushMaze.inBounds 1 0 ∧
    (searchLoop 1 0 15 (searchInit (AStar.new repushMaze) 5 3 1 0)).frontier.head? =
      some (1, 3) ∧
    (1, 3) ∉ (searchLoop 1 0 16 (searchInit (AStar.new repushMaze) 5 3 1 0)).frontier ∧
    (searchLoop 1 0 16 (searchInit (AStar.new repushMaze) 5 3 1 0)).astar.inQueue 3 1 = false ∧
    (searchLoop 1 0 16 (searchInit (AStar.new repushMaze) 5 3 1 0)).astar.cost 3 1 = 6 ∧
    (searchLoop 1 0 16 (searchInit (AStar.new repushMaze) 5 3 1 0)).astar.parent 3 1 = (1, 2) ∧
    (searchLoop 1 0 16 (searchInit (AStar.new repushMaze) 5 3 1 0)).frontier.head? =
      some (2, 3) ∧
    (searchLoop 1 0 17 (searchInit (AStar.new repushMaze) 5 3 1 0)).astar.cost 3 1 = 4 ∧
    (searchLoop 1 0 17 (searchInit (AStar.new repushMaze) 5 3 1 0)).astar.parent 3 1 = (2, 3) ∧
    (searchLoop 1 0 17 (searchInit (AStar.new repushMaze) 5 3 1 0)).astar.inQueue 3 1 = true ∧
    (searchLoop 1 0 17 (searchInit (AStar.new repushMaze) 5 3 1 0)).frontier.head? =
      some (1, 3) := by
  decide

/-! ### Termination of `findPath` -/

/-- One iteration of the search loop that does not pop the goal keeps the invariant, leaves
every cell with a set cost queued or expanded, and lowers the measure. -/
theorem searchLoop_zero (goalX goalY : Int) (s : SearchState) :
    searchLoop goalX goalY 0 s = s := rfl

theorem iteration_spec {m : Maze} {start cur : Coord} {rest : List Coord} {s : SearchState}
    (goalX goalY : Int)
    (hsize : ((gridCells m.width m.height).length : Int) < INT_MAX)
    (hstart : m.inBounds start.1 start.2)
    (hinv : SearchInv m start s) (hcl : s.Closure m (fun _ => False))
    (hfr : s.frontier = cur :: rest) (hgoal : ¬ (cur.1 = goalX ∧ cur.2 = goalY)) :
    SearchInv m start (searchLoop goalX goalY 1 s) ∧
    (searchLoop goalX goalY 1 s).Closure m (fun _ => False) ∧
    (searchLoop goalX goalY 1 s).measure + 1 ≤ s.measure := by
  obtain ⟨p1, p2, p3, p4⟩ := pop_spec (AStar.cmp s.astar.cost goalX goalY) hinv hcl hfr
  rw [searchLoop_cons goalX goalY 0 s cur rest hfr, if_neg hgoal, searchLoop_zero]
  obtain ⟨f1, f2, f3, _, f5, f6⟩ := foldl_visitNeighbor_spec goalX goalY hsize hstart
    (neighbors cur.1 cur.2) _ (fun n hn => (mem_neighbors cur n).1 hn) p1 p2 p4
  refine ⟨f1, ?_, ?_⟩
  · intro c hfin
    rcases f2 c hfin with h1 | h1 | h1
    · exact Or.inl h1
    · subst h1
      refine Or.inr (Or.inr fun n hn => ?_)
      have := f6 n ((mem_neighbors c n).2 hn.1) hn.2
      rw [f5]
      exact this
    · exact Or.inr (Or.inr h1)
  · omega

theorem searchLoop_succ_of_not_goal (goalX goalY : Int) (fuel : Nat) (s : SearchState)
    (cur : Coord) (rest : List Coord) (hfr : s.frontier = cur :: rest)
    (hgoal : ¬ (cur.1 = goalX ∧ cur.2 = goalY)) :
    searchLoop goalX goalY (fuel + 1) s =
      searchLoop goalX goalY fuel (searchLoop goalX goalY 1 s) := by
  rw [searchLoop_cons goalX goalY fuel s cur rest hfr, if_neg hgoal,
    searchLoop_cons goalX goalY 0 s cur rest hfr, if_neg hgoal, searchLoop_zero]

theorem searchPops_nil (goalX goalY : Int) (fuel : Nat) (s : SearchState)
    (h : s.frontier = []) : searchPops goalX goalY fuel s = some 0 := by
  cases fuel with
  | zero => simp only [searchPops, h, if_true]
  | succ fuel => simp only [searchPops, h]

theorem searchPops_cons (goalX goalY : Int) (fuel : Nat) (s : SearchState) (cur : Coord)
    (rest : List Coord) (h : s.frontier = cur :: rest) :
    searchPops goalX goalY (fuel + 1) s =
      if cur.1 = goalX ∧ cur.2 = goalY then some 1
      else (searchPops goalX goalY fuel (searchLoop goalX goalY 1 s)).map (· + 1) := by
  simp only [searchPops, h]

theorem searchLoop_of_nil (goalX goalY : Int) (fuel : Nat) (s : SearchState)
    (h : s.frontier = []) : searchLoop goalX goalY fuel s = s := by
  cases fuel with
  | zero => rfl
  | succ fuel => exact searchLoop_nil goalX goalY fuel s h

/-- When the loop exits after `n` pops within `fuel` iterations, `n ≤ fuel`, and every larger
bound gives the same count and the same final state. -/
theorem searchPops_stable (goalX goalY : Int) :
    ∀ (fuel : Nat) (s : SearchState) (n : Nat), searchPops goalX goalY fuel s = some n →
      n ≤ fuel ∧ ∀ fuel2 : Nat, n ≤ fuel2 →
        searchPops goalX goalY fuel2 s = some n ∧
        searchLoop goalX goalY fuel2 s = searchLoop goalX goalY fuel s := by
  intro fuel
  induction fuel with
  | zero =>
    intro s n h
    by_cases hfr : s.frontier = []
    · rw [searchPops_nil goalX goalY 0 s hfr] at h
      have hn : n = 0 := (Option.some.inj h).symm
      subst hn
      refine ⟨le_refl _, fun fuel2 _ => ⟨searchPops_nil goalX goalY fuel2 s hfr, ?_⟩⟩
      rw [searchLoop_of_nil goalX goalY fuel2 s hfr]
      rfl
    · simp only [searchPops, if_neg hfr] at h
      exact absurd h (by simp)
  | succ fuel ih =>
    intro s n h
    cases hfr : s.frontier with
    | nil =>
      rw [searchPops_nil goalX goalY _ s hfr] at h
      have hn : n = 0 := (Option.some.inj h).symm
      subst hn
      refine ⟨Nat.zero_le _, fun fuel2 _ => ⟨searchPops_nil goalX goalY fuel2 s hfr, ?_⟩⟩
      rw [searchLoop_of_nil goalX goalY fuel2 s hfr, searchLoop_of_nil goalX goalY _ s hfr]
    | cons cur rest =>
      rw [searchPops_cons goalX goalY fuel s cur rest hfr] at h
      by_cases hgoal : cur.1 = goalX ∧ cur.2 = goalY
      · rw [if_pos hgoal] at h
        have hn : n = 1 := (Option.some.inj h).symm
        subst hn
        refine ⟨by omega, fun fuel2 h2 => ?_⟩
        obtain ⟨f, rfl⟩ : ∃ f, fuel2 = f + 1 := ⟨fuel2 - 1, by omega⟩
        rw [searchPops_cons goalX goalY f s cur rest hfr, if_pos hgoal,
          searchLoop_cons goalX goalY f s cur rest hfr, if_pos hgoal,
          searchLoop_cons goalX goalY fuel s cur rest hfr, if_pos hgoal]
        exact ⟨rfl, rfl⟩
      · rw [if_neg hgoal] at h
        cases hk : searchPops goalX goalY fuel (searchLoop goalX goalY 1 s) with
        | none =>
          rw [hk] at h
          exact absurd h (by simp)
        | some k =>
          rw [hk] at h
          have hn : n = k + 1 := (Option.some.inj h).symm
          subst hn
          obtain ⟨i1, i2⟩ := ih _ k hk
          refine ⟨by omega, fun fuel2 h2 => ?_⟩
          obtain ⟨f, rfl⟩ : ∃ f, fuel2 = f + 1 := ⟨fuel2 - 1, by omega⟩
          obtain ⟨j1, j2⟩ := i2 f (by omega)
          rw [searchPops_cons goalX goalY f s cur rest hfr, if_neg hgoal, j1,
            searchLoop_succ_of_not_goal goalX goalY f s cur rest hfr hgoal,
            searchLoop_succ_of_not_goal goalX goalY fuel s cur rest hfr hgoal, j2]
          exact ⟨rfl, rfl⟩

/-- The loop exits within `measure` iterations. -/
theorem searchPops_some {m : Maze} {start : Coord} (goalX goalY : Int)
    (hsize : ((gridCells m.width m.height).length : Int) < INT_MAX)
    (hstart : m.inBounds start.1 start.2) :
    ∀ (fuel : Nat) (s : SearchState), SearchInv m start s → s.Closure m (fun _ => False) →
      s.measure ≤ fuel → ∃ n : Nat, searchPops goalX goalY fuel s = some n := by
  intro fuel
  induction fuel with
  | zero =>
    intro s _ _ hm
    have hlen : s.frontier.length = 0 := by
      unfold SearchState.measure at hm
      omega
    exact ⟨0, searchPops_nil goalX goalY 0 s (List.length_eq_zero.1 hlen)⟩
  | succ fuel ih =>
    intro s hinv hcl hm
    cases hfr : s.frontier with
    | nil => exact ⟨0, searchPops_nil goalX goalY _ s hfr⟩
    | cons cur rest =>
      rw [searchPops_cons goalX goalY fuel s cur rest hfr]
      by_cases hgoal : cur.1 = goalX ∧ cur.2 = goalY
      · exact ⟨1, by rw [if_pos hgoal]⟩
      · obtain ⟨t1, t2, t3⟩ := iteration_spec goalX goalY hsize hstart hinv hcl hfr hgoal
        obtain ⟨k, hk⟩ := ih _ t1 t2 (by omega)
        exact ⟨k + 1, by rw [if_neg hgoal, hk]; rfl⟩

/-- The walk along the predecessor links from a cell with a set cost: it visits no cell twice,
stays on cells of the grid whose cost is at most that of the first cell, and ends at a cell
whose predecessor entry is `(-1, -1)`. -/
theorem reconstruct_chain {m : Maze} {start : Coord} {r : SearchState}
    (hsize : ((gridCells m.width m.height).length : Int) < INT_MAX)
    (hstart : m.inBounds start.1 start.2) (hinv : SearchInv m start r) :
    ∀ (k : Nat) (c : Coord), r.astar.cost c.2 c.1 ≠ INT_MAX → (r.astar.cost c.2 c.1).toNat ≤ k →
      ∃ chain : List Coord, chain.length ≤ k + 1 ∧ chain.Nodup ∧ chain.head? = some c ∧
        (∀ d ∈ chain, r.astar.cost d.2 d.1 ≤ r.astar.cost c.2 c.1 ∧ m.inBounds d.1 d.2) ∧
        (∃ e : Coord, chain.getLast? = some e ∧ r.astar.parent e.2 e.1 = (-1, -1)) ∧
        ∀ (fuel : Nat) (acc : List Coord), chain.length ≤ fuel →
          reconstruct r.astar.parent fuel c acc = acc ++ chain := by
  intro k
  induction k with
  | zero =>
    intro c hfin hk
    have hcB : m.inBounds c.1 c.2 := (hinv.finite_reach _ _ hfin).inBounds hstart
    have hne : c ≠ (-1, -1) := by
      intro h
      have h0 : (0 : Int) ≤ c.1 := hcB.1
      rw [h] at h0
      exact absurd h0 (by decide)
    have hcs : c = start := by
      by_contra hns
      have hp := hinv.parent_some c.1 c.2 hfin hns
      obtain ⟨_, _, h3⟩ := hinv.parent_ok c.1 c.2 hp
      have h4 := hinv.cost_nonneg (r.astar.parent c.2 c.1).1 (r.astar.parent c.2 c.1).2
      omega
    refine ⟨[c], le_refl _, List.nodup_singleton _, rfl, ?_, ⟨c, rfl, ?_⟩, ?_⟩
    · intro d hd
      rw [List.mem_singleton] at hd
      rw [hd]
      exact ⟨le_refl _, hcB⟩
    · rw [hcs]; exact hinv.parent_start
    · intro fuel acc hfuel
      obtain ⟨fuel, rfl⟩ : ∃ f, fuel = f + 1 := ⟨fuel - 1, by simp at hfuel; omega⟩
      simp only [reconstruct, if_pos hne]
      rw [hcs, hinv.parent_start, reconstruct_sentinel]
  | succ k ih =>
    intro c hfin hk
    have hcB : m.inBounds c.1 c.2 := (hinv.finite_reach _ _ hfin).inBounds hstart
    have hne : c ≠ (-1, -1) := by
      intro h
      have h0 : (0 : Int) ≤ c.1 := hcB.1
      rw [h] at h0
      exact absurd h0 (by decide)
    by_cases hp : r.astar.parent c.2 c.1 = (-1, -1)
    · refine ⟨[c], by simp, List.nodup_singleton _, rfl, ?_, ⟨c, rfl, hp⟩, ?_⟩
      · intro d hd
        rw [List.mem_singleton] at hd
        rw [hd]
        exact ⟨le_refl _, hcB⟩
      · intro fuel acc hfuel
        obtain ⟨fuel, rfl⟩ : ∃ f, fuel = f + 1 := ⟨fuel - 1, by simp at hfuel; omega⟩
        simp only [reconstruct, if_pos hne]
        rw [hp, reconstruct_sentinel]
    · obtain ⟨_, _, h3⟩ := hinv.parent_ok c.1 c.2 hp
      have h4 := hinv.cost_nonneg (r.astar.parent c.2 c.1).1 (r.astar.parent c.2 c.1).2
      have hpfin : r.astar.cost (r.astar.parent c.2 c.1).2 (r.astar.parent c.2 c.1).1 ≠ INT_MAX := by
        have h5 := hinv.cost_bound _ _ hfin
        have h6 := r.numFinite_le
        rw [hinv.maze_eq] at h6
        unfold INT_MAX at hsize ⊢
        omega
      obtain ⟨chain, e1, e2, e3, e4, e5, e6⟩ := ih (r.astar.parent c.2 c.1) hpfin (by omega)
      refine ⟨c :: chain, by simp; omega, ?_, rfl, ?_, ?_, ?_⟩
      · rw [List.nodup_cons]
        refine ⟨fun hmem => ?_, e2⟩
        have := (e4 c hmem).1
        omega
      · intro d hd
        rcases List.mem_cons.1 hd with rfl | hmem
        · exact ⟨le_refl _, hcB⟩
        · exact ⟨le_trans (e4 d hmem).1 (le_of_lt h3), (e4 d hmem).2⟩
      · obtain ⟨e, he1, he2⟩ := e5
        refine ⟨e, ?_, he2⟩
        cases chain with
        | nil => simp at e3
        | cons a t => rw [List.getLast?_cons_cons]; exact he1
      · intro fuel acc hfuel
        obtain ⟨fuel, rfl⟩ : ∃ f, fuel = f + 1 := ⟨fuel - 1, by simp at hfuel; omega⟩
        simp only [reconstruct, if_pos hne]
        rw [e6 fuel (acc ++ [c]) (by simp at hfuel; omega)]
        simp

/-- C17. For every maze with fewer than `INT_MAX` cells and every in-bounds start and goal, the
loop of `findPath` exits (empty frontier, or the goal popped) after some number `n` of pops,
and every iteration bound from `n` on gives that count and the final state of the call; the
walk along the predecessor links from the goal visits no cell twice, stays on cells of the
grid, ends at a cell whose predecessor entry is `(-1, -1)`, takes at most `width * height`
steps, and reversed it is the returned path. -/
theorem findPath_terminates (a : AStar) (startX startY goalX goalY : Int)
    (hs : a.maze.inBounds startX startY) (hg : a.maze.inBounds goalX goalY)
    (hcells : a.maze.width * a.maze.height < INT_MAX) :
    (∃ n : Nat, n ≤ searchFuel a.maze.getWidth a.maze.getHeight ∧
      ∀ fuel : Nat, n ≤ fuel →
        searchPops goalX goalY fuel (searchInit a startX startY goalX goalY) = some n ∧
        (searchLoop goalX goalY fuel (searchInit a startX startY goalX goalY)).astar =
          (a.findPathRun startX startY goalX goalY).1) ∧
    (∃ chain : List Coord, chain.Nodup ∧ chain.head? = some (goalX, goalY) ∧
      (∀ c ∈ chain, a.maze.inBounds c.1 c.2) ∧
      (∃ e : Coord, chain.getLast? = some e ∧
        (a.findPathRun startX startY goalX goalY).1.parent e.2 e.1 = (-1, -1)) ∧
      chain.length ≤ (a.maze.width * a.maze.height).toNat ∧
      (∀ fuel : Nat, chain.length ≤ fuel →
        reconstruct (a.findPathRun startX startY goalX goalY).1.parent fuel (goalX, goalY) [] =
          chain) ∧
      a.findPath startX startY goalX goalY = chain.reverse) := by
  have hw : 0 ≤ a.maze.width := le_of_lt (lt_of_le_of_lt hs.1 hs.2.1)
  have hh : 0 ≤ a.maze.height := le_of_lt (lt_of_le_of_lt hs.2.2.1 hs.2.2.2)
  obtain ⟨hlen1, hlen2⟩ := length_gridCells_cast a.maze.width a.maze.height hw hh
  have hsize : ((gridCells a.maze.width a.maze.height).length : Int) < INT_MAX := by
    rw [hlen1]; exact hcells
  obtain ⟨i1, i2, i3⟩ := searchInit_spec a startX startY goalX goalY hs
  obtain ⟨l1, _⟩ := searchLoop_spec goalX goalY hsize hs _ _ i1 i2 i3
  constructor
  · obtain ⟨n, hn⟩ := searchPops_some goalX goalY hsize hs _ _ i1 i2 i3
    obtain ⟨s1, s2⟩ := searchPops_stable goalX goalY _ _ _ hn
    refine ⟨n, s1, fun fuel hfuel => ⟨(s2 fuel hfuel).1, ?_⟩⟩
    rw [(s2 fuel hfuel).2]
    rfl
  · have hfp : ∀ chain : List Coord,
        reconstruct (searchLoop goalX goalY (searchFuel a.maze.getWidth a.maze.getHeight)
          (searchInit a startX startY goalX goalY)).astar.parent
          ((a.maze.width * a.maze.height).toNat + 1) (goalX, goalY) [] = chain →
        a.findPath startX startY goalX goalY = chain.reverse := by
      intro chain h
      show (reconstruct _ _ (goalX, goalY) []).reverse = chain.reverse
      exact congrArg List.reverse h
    by_cases hfin : (searchLoop goalX goalY (searchFuel a.maze.getWidth a.maze.getHeight)
        (searchInit a startX startY goalX goalY)).astar.cost goalY goalX = INT_MAX
    · have hparent : (searchLoop goalX goalY (searchFuel a.maze.getWidth a.maze.getHeight)
          (searchInit a startX startY goalX goalY)).astar.parent goalY goalX = (-1, -1) := by
        by_contra hp
        exact (l1.parent_ok goalX goalY hp).2.1 hfin
      have hgne : ((goalX, goalY) : Coord) ≠ (-1, -1) := by
        intro h
        have h1 : goalX = -1 := congrArg Prod.fst h
        have h0 : 0 ≤ goalX := hg.1
        omega
      have hrec : ∀ fuel : Nat, 1 ≤ fuel →
          reconstruct (searchLoop goalX goalY (searchFuel a.maze.getWidth a.maze.getHeight)
            (searchInit a startX startY goalX goalY)).astar.parent fuel (goalX, goalY) [] =
            [(goalX, goalY)] := by
        intro fuel hfuel
        obtain ⟨f, rfl⟩ : ∃ f, fuel = f + 1 := ⟨fuel - 1, by omega⟩
        simp only [reconstruct, if_pos hgne, hparent, reconstruct_sentinel]
        rfl
      have hpos : 0 < (gridCells a.maze.width a.maze.height).length :=
        List.length_pos_of_mem ((mem_gridCells a.maze.width a.maze.height (goalX, goalY)).2 hg)
      refine ⟨[(goalX, goalY)], List.nodup_singleton _, rfl, ?_, ⟨(goalX, goalY), rfl, hparent⟩,
        ?_, hrec, hfp _ (hrec _ (by omega))⟩
      · intro c hc
        rw [List.mem_singleton] at hc
        rw [hc]
        exact hg
      · rw [← hlen2]
        exact hpos
    · obtain ⟨chain, e1, e2, e3, e4, e5, e6⟩ := reconstruct_chain hsize hs l1 _ (goalX, goalY) hfin
        (le_refl _)
      have hbound := l1.cost_bound _ _ hfin
      have hnf := (searchLoop goalX goalY (searchFuel a.maze.getWidth a.maze.getHeight)
        (searchInit a startX startY goalX goalY)).numFinite_le
      rw [l1.maze_eq] at hnf
      have hnn := l1.cost_nonneg goalX goalY
      have e1 : chain.length ≤
          ((searchLoop goalX goalY (searchFuel a.maze.getWidth a.maze.getHeight)
            (searchInit a startX startY goalX goalY)).astar.cost goalY goalX).toNat + 1 := e1
      have hlen : chain.length ≤ (a.maze.width * a.maze.height).toNat := by
        rw [← hlen2]
        omega
      refine ⟨chain, e2, e3, fun c hc => (e4 c hc).2, e5, hlen, ?_, ?_⟩
      · intro fuel hfuel
        have := e6 fuel [] hfuel
        rw [List.nil_append] at this
        exact this
      · apply hfp
        have := e6 ((a.maze.width * a.maze.height).toNat + 1) [] (by omega)
        rw [List.nil_append] at this
        exact this

/-- C17 on the all-open 3 × 3 grid with start `(0, 0)` and goal `(2, 2)`. -/
theorem findPath_terminates_witness :
    open3x3.inBounds 0 0 ∧ open3x3.inBounds 2 2 ∧ open3x3.width * open3x3.height < INT_MAX ∧
    (∃ n : Nat, n ≤ searchFuel open3x3.getWidth open3x3.getHeight ∧
      ∀ fuel : Nat, n ≤ fuel →
        searchPops 2 2 fuel (searchInit (AStar.new open3x3) 0 0 2 2) = some n ∧
        (searchLoop 2 2 fuel (searchInit (AStar.new open3x3) 0 0 2 2)).astar =
          ((AStar.new open3x3).findPathRun 0 0 2 2).1) ∧
    (∃ chain : List Coord, chain.Nodup ∧ chain.head? = some (2, 2) ∧
      (∀ c ∈ chain, open3x3.inBounds c.1 c.2) ∧
      (∃ e : Coord, chain.getLast? = some e ∧
        ((AStar.new open3x3).findPathRun 0 0 2 2).1.parent e.2 e.1 = (-1, -1)) ∧
      chain.length ≤ (open3x3.width * open3x3.height).toNat ∧
      (∀ fuel : Nat, chain.length ≤ fuel →
        reconstruct ((AStar.new open3x3).findPathRun 0 0 2 2).1.parent fuel (2, 2) [] =
          chain) ∧
      (AStar.new open3x3).findPath 0 0 2 2 = chain.reverse) :=
  ⟨by decide, by decide, by decide,
    findPath_terminates (AStar.new open3x3) 0 0 2 2 (by decide) (by decide) (by decide)⟩

/-! ### Bounds safety of `findPath` -/

theorem SearchInv.frontier_inBounds {m : Maze} {start : Coord} {s : SearchState}
    (hinv : SearchInv m start s) (hstart : m.inBounds start.1 start.2) :
    ∀ c ∈ s.frontier, m.inBounds c.1 c.2 :=
  fun c hc => (hinv.finite_reach _ _ (hinv.frontier_finite c hc)).inBounds hstart

theorem visitNeighborAccesses_inBounds {m : Maze} {start : Coord} {s : SearchState}
    (x y : Int) (n : Coord) (hinv : SearchInv m start s) (hstart : m.inBounds start.1 start.2)
    (hxy : m.inBounds x y) :
    ∀ c ∈ visitNeighborAccesses x y s n, m.inBounds c.1 c.2 := by
  intro c hc
  unfold visitNeighborAccesses at hc
  dsimp only at hc
  by_cases hb : n.1 ≥ 0 ∧ n.1 < s.astar.maze.getWidth ∧ n.2 ≥ 0 ∧ n.2 < s.astar.maze.getHeight
  · have hn : m.inBounds n.1 n.2 := by
      rw [← hinv.maze_eq]
      exact hb
    have hfr := hinv.frontier_inBounds hstart
    rw [if_pos hb] at hc
    have hall : ∀ d : Coord, d = (n.1, n.2) ∨ d = (x, y) ∨ d ∈ s.frontier →
        m.inBounds d.1 d.2 := by
      rintro d (rfl | rfl | hd)
      · exact hn
      · exact hxy
      · exact hfr d hd
    apply hall
    split_ifs at hc <;>
      simp only [List.mem_cons, List.mem_append, List.mem_singleton, List.not_mem_nil,
        or_false] at hc <;> tauto
  · rw [if_neg hb] at hc
    exact absurd hc (List.not_mem_nil c)

theorem neighborsAccesses_inBounds {m : Maze} {start cur : Coord} (goalX goalY : Int)
    (hsize : ((gridCells m.width m.height).length : Int) < INT_MAX)
    (hstart : m.inBounds start.1 start.2) :
    ∀ (ns : List Coord) (s : SearchState), (∀ n ∈ ns, Adjacent4 cur n) →
      SearchInv m start s → s.Closure m (fun c => c = cur) →
      s.astar.cost cur.2 cur.1 ≠ INT_MAX →
      ∀ c ∈ neighborsAccesses goalX goalY cur.1 cur.2 ns s, m.inBounds c.1 c.2 := by
  intro ns
  induction ns with
  | nil =>
    intro s _ _ _ _ c hc
    exact absurd hc (List.not_mem_nil c)
  | cons a ns ih =>
    intro s hadj hinv hcl hcur c hc
    obtain ⟨v1, v2, _, _, v5, _⟩ := visitNeighbor_spec goalX goalY hsize hstart hinv hcl hcur
      (hadj a (List.mem_cons_self a ns))
    have hcurB : m.inBounds cur.1 cur.2 := (hinv.finite_reach _ _ hcur).inBounds hstart
    simp only [neighborsAccesses, List.mem_append] at hc
    rcases hc with hc | hc
    · exact visitNeighborAccesses_inBounds cur.1 cur.2 a hinv hstart hcurB c hc
    · exact ih (visitNeighbor goalX goalY cur.1 cur.2 s a)
        (fun n hn => hadj n (List.mem_cons_of_mem a hn)) v1 v2 (by rw [v5]; exact hcur) c hc

theorem searchAccesses_inBounds {m : Maze} {start : Coord} (goalX goalY : Int)
    (hsize : ((gridCells m.width m.height).length : Int) < INT_MAX)
    (hstart : m.inBounds start.1 start.2) :
    ∀ (fuel : Nat) (s : SearchState), SearchInv m start s → s.Closure m (fun _ => False) →
      ∀ c ∈ searchAccesses goalX goalY fuel s, m.inBounds c.1 c.2 := by
  intro fuel
  induction fuel with
  | zero =>
    intro s _ _ c hc
    exact absurd hc (List.not_mem_nil c)
  | succ fuel ih =>
    intro s hinv hcl c hc
    cases hfr : s.frontier with
    | nil =>
      simp only [searchAccesses, hfr] at hc
      exact absurd hc (List.not_mem_nil c)
    | cons cur rest =>
      obtain ⟨p1, p2, _, p4⟩ := pop_spec (AStar.cmp s.astar.cost goalX goalY) hinv hcl hfr
      have hfrB := hinv.frontier_inBounds hstart
      have hcurB : m.inBounds cur.1 cur.2 := hfrB cur (by rw [hfr]; exact List.mem_cons_self _ _)
      simp only [searchAccesses, hfr, List.mem_append, List.mem_cons] at hc
      rcases hc with hc | hc | hc
      · rcases hc with hc | hc
        · rw [hc]; exact hcurB
        · exact hfrB c (by rw [hfr]; exact List.mem_cons_of_mem _ hc)
      · rw [hc]; exact hcurB
      · by_cases hgoal : cur.1 = goalX ∧ cur.2 = goalY
        · rw [if_pos hgoal] at hc
          exact absurd hc (List.not_mem_nil c)
        · rw [if_neg hgoal, List.mem_append] at hc
          rcases hc with hc | hc
          · rw [← hfr] at hc
            exact neighborsAccesses_inBounds goalX goalY hsize hstart (neighbors cur.1 cur.2) _
              (fun n hn => (mem_neighbors cur n).1 hn) p1 p2 p4 c hc
          · obtain ⟨t1, t2, _⟩ := iteration_spec goalX goalY hsize hstart hinv hcl hfr hgoal
            exact ih _ t1 t2 c hc

/-- The invariant holds after any number of iterations of the search loop. -/
theorem searchLoop_inv {m : Maze} {start : Coord} (goalX goalY : Int)
    (hsize : ((gridCells m.width m.height).length : Int) < INT_MAX)
    (hstart : m.inBounds start.1 start.2) :
    ∀ (fuel : Nat) (s : SearchState), SearchInv m start s → s.Closure m (fun _ => False) →
      SearchInv m start (searchLoop goalX goalY fuel s) := by
  intro fuel
  induction fuel with
  | zero =>
    intro s hinv _
    exact hinv
  | succ fuel ih =>
    intro s hinv hcl
    cases hfr : s.frontier with
    | nil =>
      rw [searchLoop_nil goalX goalY fuel s hfr]
      exact hinv
    | cons cur rest =>
      by_cases hgoal : cur.1 = goalX ∧ cur.2 = goalY
      · rw [searchLoop_cons goalX goalY fuel s cur rest hfr, if_pos hgoal]
        exact (pop_spec (AStar.cmp s.astar.cost goalX goalY) hinv hcl hfr).1
      · obtain ⟨t1, t2, _⟩ := iteration_spec goalX goalY hsize hstart hinv hcl hfr hgoal
        rw [searchLoop_succ_of_not_goal goalX goalY fuel s cur rest hfr hgoal]
        exact ih _ t1 t2

/-- The cells of the reconstruction walk from an in-bounds goal are cells of the grid. -/
theorem reconstruct_inBounds {m : Maze} {start : Coord} {r : SearchState}
    (hsize : ((gridCells m.width m.height).length : Int) < INT_MAX)
    (hstart : m.inBounds start.1 start.2) (hinv : SearchInv m start r) (goal : Coord)
    (hg : m.inBounds goal.1 goal.2) (fuel : Nat)
    (hfuel : (gridCells m.width m.height).length < fuel) :
    ∀ c ∈ reconstruct r.astar.parent fuel goal [], m.inBounds c.1 c.2 := by
  by_cases hfin : r.astar.cost goal.2 goal.1 = INT_MAX
  · have hparent : r.astar.parent goal.2 goal.1 = (-1, -1) := by
      by_contra hp
      exact (hinv.parent_ok goal.1 goal.2 hp).2.1 hfin
    have hgne : goal ≠ (-1, -1) := by
      intro h
      have h0 : (0 : Int) ≤ goal.1 := hg.1
      rw [h] at h0
      exact absurd h0 (by decide)
    obtain ⟨f, rfl⟩ : ∃ f, fuel = f + 1 := ⟨fuel - 1, by omega⟩
    intro c hc
    simp only [reconstruct, if_pos hgne, hparent, reconstruct_sentinel, List.nil_append,
      List.mem_singleton] at hc
    rw [hc]
    exact hg
  · obtain ⟨chain, e1, _, _, e4, _, e6⟩ := reconstruct_chain hsize hstart hinv _ goal hfin
      (le_refl _)
    have hbound := hinv.cost_bound _ _ hfin
    have hnf := r.numFinite_le
    rw [hinv.maze_eq] at hnf
    have hnn := hinv.cost_nonneg goal.1 goal.2
    rw [e6 fuel [] (by omega), List.nil_append]
    exact fun c hc => (e4 c hc).2

/-- C18. For every maze with fewer than `INT_MAX` cells and every in-bounds start and goal,
every index pair at which `findPath` calls `isWall` or reads or writes `cost`, `parent` or
`inQueue` (the reconstruction walk included) has `0 ≤ x < width` and `0 ≤ y < height`; and
after any number `k` of iterations the cell at the front of the frontier, the next to be
popped, has a recorded cost different from `INT_MAX`, with `0 ≤ cost` and
`cost + 1 < INT_MAX`. -/
theorem findPath_bounds_safe (a : AStar) (startX startY goalX goalY : Int)
    (hs : a.maze.inBounds startX startY) (hg : a.maze.inBounds goalX goalY)
    (hcells : a.maze.width * a.maze.height < INT_MAX) :
    (∀ c ∈ a.findPathAccesses startX startY goalX goalY, a.maze.inBounds c.1 c.2) ∧
    (∀ (k : Nat) (cur : Coord),
      (searchLoop goalX goalY k (searchInit a startX startY goalX goalY)).frontier.head? =
        some cur →
      (searchLoop goalX goalY k (searchInit a startX startY goalX goalY)).astar.cost
        cur.2 cur.1 ≠ INT_MAX ∧
      0 ≤ (searchLoop goalX goalY k (searchInit a startX startY goalX goalY)).astar.cost
        cur.2 cur.1 ∧
      (searchLoop goalX goalY k (searchInit a startX startY goalX goalY)).astar.cost
        cur.2 cur.1 + 1 < INT_MAX) := by
  have hw : 0 ≤ a.maze.width := le_of_lt (lt_of_le_of_lt hs.1 hs.2.1)
  have hh : 0 ≤ a.maze.height := le_of_lt (lt_of_le_of_lt hs.2.2.1 hs.2.2.2)
  obtain ⟨hlen1, hlen2⟩ := length_gridCells_cast a.maze.width a.maze.height hw hh
  have hsize : ((gridCells a.maze.width a.maze.height).length : Int) < INT_MAX := by
    rw [hlen1]; exact hcells
  obtain ⟨i1, i2, i3⟩ := searchInit_spec a startX startY goalX goalY hs
  constructor
  · intro c hc
    obtain ⟨l1, _⟩ := searchLoop_spec goalX goalY hsize hs _ _ i1 i2 i3
    unfold AStar.findPathAccesses at hc
    rw [List.mem_cons, List.mem_append] at hc
    rcases hc with hc | hc | hc
    · rw [hc]; exact hs
    · exact searchAccesses_inBounds goalX goalY hsize hs _ _ i1 i2 c hc
    · refine reconstruct_inBounds hsize hs l1 (goalX, goalY) hg
        ((a.maze.getWidth * a.maze.getHeight).toNat + 1) ?_ c hc
      rw [hlen2]
      exact Nat.lt_succ_self _
  · intro k cur hcur
    have hinv := searchLoop_inv goalX goalY hsize hs k _ i1 i2
    have hmem : cur ∈ (searchLoop goalX goalY k
        (searchInit a startX startY goalX goalY)).frontier := List.mem_of_mem_head? hcur
    have hfin := hinv.frontier_finite cur hmem
    have hb := hinv.cost_bound _ _ hfin
    have hnf := (searchLoop goalX goalY k (searchInit a startX startY goalX goalY)).numFinite_le
    rw [hinv.maze_eq] at hnf
    refine ⟨hfin, hinv.cost_nonneg _ _, ?_⟩
    omega

/-- C18 on `detourMaze` with start `(0, 3)` and goal `(5, 1)`. -/
theorem findPath_bounds_safe_witness :
    detourMaze.inBounds 0 3 ∧ detourMaze.inBounds 5 1 ∧
    detourMaze.width * detourMaze.height < INT_MAX ∧
    (∀ c ∈ (AStar.new detourMaze).findPathAccesses 0 3 5 1, detourMaze.inBounds c.1 c.2) ∧
    (∀ (k : Nat) (cur : Coord),
      (searchLoop 5 1 k (searchInit (AStar.new detourMaze) 0 3 5 1)).frontier.head? =
        some cur →
      (searchLoop 5 1 k (searchInit (AStar.new detourMaze) 0 3 5 1)).astar.cost
        cur.2 cur.1 ≠ INT_MAX ∧
      0 ≤ (searchLoop 5 1 k (searchInit (AStar.new detourMaze) 0 3 5 1)).astar.cost
        cur.2 cur.1 ∧
      (searchLoop 5 1 k (searchInit (AStar.new detourMaze) 0 3 5 1)).astar.cost
        cur.2 cur.1 + 1 < INT_MAX) :=
  ⟨by decide, by decide, by decide,
    findPath_bounds_safe (AStar.new detourMaze) 0 3 5 1 (by decide) (by decide) (by decide)⟩

end MazeSpec
